import Mathlib

/-!
Shallow embedding of src/src/Interpreters/ActionsDAG.cpp (expression-action
DAG of a columnar query engine) and proofs about its operations.

Modelling conventions:
* Nodes live in an append-only store with stable identity.  The C++ arena of
  nodes addressed by stable pointers becomes an association list
  `List (Nat × Node)` in insertion order; node ids play the role of pointers
  and `next_id` provides fresh ids.
* The opaque Execution Runtime (types, columns, function objects) is embedded
  by small concrete carriers: `DataType`, `Column`, and function records whose
  behavioural fields (`execute`, ...) are arbitrary Lean functions, so theorems
  quantify over every possible runtime behaviour.
* Exceptions become `Except Err`.
* The `Index` class and a few helpers (`cloneEmpty`, settings defaults) are
  declared in ActionsDAG.h, which is not part of this repository snapshot;
  those are modelled from the specification text (see their doc comments).
-/

set_option maxHeartbeats 1000000

namespace ActionsDAGModel

/-- Opaque type handles of the Execution Runtime: enough structure to support
equality, array element types and a textual name (used by the CAST argument). -/
inductive DataType where
  | int : DataType
  | str : DataType
  | array : DataType → DataType
  | other : Nat → DataType
deriving DecidableEq, Repr

/-- Textual name of a type (runtime's getName). -/
def DataType.typeName : DataType → String
  | .int => "Int32"
  | .str => "String"
  | .array t => "Array(" ++ t.typeName ++ ")"
  | .other n => "T" ++ toString n

/-- Scalar field values carried by constant columns (the runtime's Field,
restricted to the two shapes the DAG core manipulates). -/
inductive FieldVal where
  | int : Int → FieldVal
  | str : String → FieldVal
deriving DecidableEq, Repr

/-- Opaque column values: a constant column (ColumnConst) carrying one field
and a size, or a full (non-constant) column of values. -/
inductive Column where
  | const : FieldVal → Nat → Column
  | vec : List Int → Column
deriving DecidableEq, Repr

/-- Runtime test isColumnConst. -/
def Column.isConst : Column → Bool
  | .const _ _ => true
  | .vec _ => false

/-- Column size. -/
def Column.size : Column → Nat
  | .const _ n => n
  | .vec l => l.length

/-- Runtime cloneResized. -/
def Column.cloneResized : Column → Nat → Column
  | .const v _, n => .const v n
  | .vec l, n => .vec (l.take n)

/-- Field of a constant column (ColumnConst::getField). -/
def Column.getField : Column → FieldVal
  | .const v _ => v
  | .vec _ => .int 0

/-- Node kinds (ActionsDAG::ActionType). -/
inductive ActionType where
  | INPUT | COLUMN | ALIAS | FUNCTION | ARRAY_JOIN
deriving DecidableEq, Repr

/-- Error codes raised by the DAG operations. -/
inductive Err where
  | LOGICAL_ERROR
  | DUPLICATE_COLUMN
  | UNKNOWN_IDENTIFIER
  | TYPE_MISMATCH
  | NUMBER_OF_COLUMNS_DOESNT_MATCH
  | THERE_IS_NO_COLUMN
  | ILLEGAL_COLUMN
deriving DecidableEq, Repr

/-- ColumnWithTypeAndName: the argument/result descriptors exchanged with the
Execution Runtime. -/
structure ColumnWithTypeAndName where
  column : Option Column := none
  type : DataType
  name : String
deriving DecidableEq, Repr

/-- The part of a built function object that is stored on a node and later
read back (dump, hasStatefulFunctions).  Kept first-order so node stores have
decidable equality. -/
structure FuncMeta where
  name : String
  is_stateful : Bool := false
deriving DecidableEq, Repr

/-- Runtime IFunctionBase handle produced by IFunctionOverloadResolver::build.
Behavioural members are arbitrary functions: theorems about the DAG hold for
every runtime behaviour. -/
structure FunctionBase where
  name : String
  getResultType : DataType
  isSuitableForConstantFolding : Bool
  isDeterministic : Bool
  isStateful : Bool := false
  execute : List ColumnWithTypeAndName → DataType → Nat → Column
  getResultIfAlwaysReturnsConstantAndHasArguments :
    List ColumnWithTypeAndName → Option Column

/-- Runtime IFunctionOverloadResolver handle. -/
structure FunctionOverloadResolver where
  name : String
  build : List ColumnWithTypeAndName → FunctionBase

/-- One DAG node.  Children are ids of earlier nodes of the same DAG. -/
structure Node where
  type : ActionType
  result_name : String
  result_type : DataType
  column : Option Column := none
  children : List Nat := []
  allow_constant_folding : Bool := true
  function_base : Option FuncMeta := none
deriving DecidableEq, Repr

/-- DAG-level settings (ActionsDAG.h; fields listed in spec section 3.2). -/
structure Settings where
  max_temporary_columns : Nat := 0
  max_temporary_non_const_columns : Nat := 0
  min_count_to_compile_expression : Nat := 0
  compile_expressions : Bool := false
  project_input : Bool := false
  projected_output : Bool := false
deriving DecidableEq, Repr

/-- The DAG: node store (id-keyed, insertion order), fresh-id counter, input
list, exposed-column index, and settings.  The index is the ordered multimap
of spec section 3.3, represented by its insertion-ordered list of node ids. -/
structure ActionsDAG where
  nodes : List (Nat × Node) := []
  next_id : Nat := 0
  inputs : List Nat := []
  index : List Nat := []
  settings : Settings := {}
deriving DecidableEq, Repr

/-- Look a node up by id in a store. -/
def findNode (store : List (Nat × Node)) (id : Nat) : Option Node :=
  match store with
  | [] => none
  | (i, nd) :: rest => if i = id then some nd else findNode rest id

/-- Placeholder node returned when a dangling id is dereferenced; the C++
counterpart would be undefined behaviour, and well-formedness hypotheses rule
the case out. -/
def defaultNode : Node :=
  { type := .COLUMN, result_name := "", result_type := .other 0 }

/-- Node behind an id, with the placeholder as fallback. -/
def getNodeD (store : List (Nat × Node)) (id : Nat) : Node :=
  (findNode store id).getD defaultNode

/-- Name of the node behind an index entry. -/
def entryName (store : List (Nat × Node)) (id : Nat) : String :=
  (getNodeD store id).result_name

/-- Modelled from the spec: Index::find (ActionsDAG.h is not in this snapshot).
Returns the first entry for the name in insertion order; absent names miss. -/
def indexFind (store : List (Nat × Node)) (index : List Nat) (name : String) :
    Option Nat :=
  match index with
  | [] => none
  | id :: rest =>
    if entryName store id = name then some id else indexFind store rest name

/-- Modelled from the spec: Index::contains. -/
def indexContains (store : List (Nat × Node)) (index : List Nat)
    (name : String) : Bool :=
  (indexFind store index name).isSome

/-- Modelled from the spec: Index::replace removes any existing same-name
entries, then inserts the new entry. -/
def indexReplace (store : List (Nat × Node)) (index : List Nat) (name : String)
    (id : Nat) : List Nat :=
  (index.filter fun e => entryName store e ≠ name) ++ [id]

namespace ActionsDAG

/-- Success path of ActionsDAG::addNode: push the node into the store,
register INPUT nodes in the input list, and (re)index the node.  Returns the
updated DAG and the new node's id. -/
def addNodeOk (dag : ActionsDAG) (node : Node) : ActionsDAG × Nat :=
  let id := dag.next_id
  let nodes := dag.nodes ++ [(id, node)]
  let inputs := if node.type = .INPUT then dag.inputs ++ [id] else dag.inputs
  let index := indexReplace nodes dag.index node.result_name id
  ({ dag with
      nodes := nodes
      next_id := id + 1
      inputs := inputs
      index := index }, id)

/-- ActionsDAG::addNode: fail with DUPLICATE_COLUMN when the name is already
indexed and replacement is not allowed; otherwise run the success path. -/
def addNode (dag : ActionsDAG) (node : Node) (can_replace : Bool := false) :
    Except Err (ActionsDAG × Nat) :=
  if indexContains dag.nodes dag.index node.result_name ∧ can_replace = false then
    .error .DUPLICATE_COLUMN
  else
    .ok (dag.addNodeOk node)

/-- ActionsDAG::getNode: resolve a name through the index. -/
def getNode (dag : ActionsDAG) (name : String) : Except Err Nat :=
  match indexFind dag.nodes dag.index name with
  | some id => .ok id
  | none => .error .UNKNOWN_IDENTIFIER

/-- ActionsDAG::addInput(name, type). -/
def addInput (dag : ActionsDAG) (name : String) (type : DataType)
    (can_replace : Bool := false) : Except Err (ActionsDAG × Nat) :=
  dag.addNode { type := .INPUT, result_name := name, result_type := type }
    can_replace

/-- ActionsDAG::addInput(column): the column-carrying variant additionally
records the column. -/
def addInputColumn (dag : ActionsDAG) (column : ColumnWithTypeAndName)
    (can_replace : Bool := false) : Except Err (ActionsDAG × Nat) :=
  dag.addNode
    { type := .INPUT
      result_name := column.name
      result_type := column.type
      column := column.column }
    can_replace

/-- ActionsDAG::addColumn: LOGICAL_ERROR when the column value is absent. -/
def addColumn (dag : ActionsDAG) (column : ColumnWithTypeAndName)
    (can_replace : Bool := false) : Except Err (ActionsDAG × Nat) :=
  if column.column.isNone then
    .error .LOGICAL_ERROR
  else
    dag.addNode
      { type := .COLUMN
        result_name := column.name
        result_type := column.type
        column := column.column }
      can_replace

/-- ActionsDAG::addAlias over an already-resolved child node. -/
def addAliasNode (dag : ActionsDAG) (childId : Nat) (aliasName : String)
    (can_replace : Bool := false) : Except Err (ActionsDAG × Nat) :=
  let child := getNodeD dag.nodes childId
  dag.addNode
    { type := .ALIAS
      result_name := aliasName
      result_type := child.result_type
      column := child.column
      allow_constant_folding := child.allow_constant_folding
      children := [childId] }
    can_replace

/-- ActionsDAG::addAlias by source name. -/
def addAlias (dag : ActionsDAG) (name : String) (aliasName : String)
    (can_replace : Bool := false) : Except Err (ActionsDAG × Nat) := do
  let childId ← dag.getNode name
  dag.addAliasNode childId aliasName can_replace

/-- ActionsDAG::addArrayJoin: the operand must have array type
(TYPE_MISMATCH otherwise); the result type is the element type. -/
def addArrayJoin (dag : ActionsDAG) (source_name : String)
    (result_name : String) : Except Err (ActionsDAG × Nat) := do
  let childId ← dag.getNode source_name
  let child := getNodeD dag.nodes childId
  match child.result_type with
  | .array nested =>
    dag.addNode
      { type := .ARRAY_JOIN
        result_name := result_name
        result_type := nested
        children := [childId] }
  | _ => .error .TYPE_MISMATCH

end ActionsDAG

/-- Argument descriptors built from the current state of the child nodes
(first loop of the core ActionsDAG::addFunction). -/
def buildArguments (store : List (Nat × Node)) (children : List Nat) :
    List ColumnWithTypeAndName :=
  children.map fun id =>
    let child := getNodeD store id
    { column := child.column
      type := child.result_type
      name := child.result_name }

/-- all_const of ActionsDAG::addFunction: every argument carries a column and
that column is constant. -/
def allConstArgs (arguments : List ColumnWithTypeAndName) : Bool :=
  arguments.all fun a => a.column.any Column.isConst

/-- The constant-folding guard of ActionsDAG::addFunction: all arguments
constant, the built function suitable for folding, and (expressions are not
compiled or the function is deterministic). -/
def foldingCondition (settings : Settings) (base : FunctionBase)
    (all_const : Bool) : Bool :=
  all_const && base.isSuitableForConstantFolding
    && (!settings.compile_expressions || base.isDeterministic)

/-- Execution step of the folding branch: num_rows is the first argument's
column size (0 when there are no arguments); prepare-and-execute is collapsed
into the FunctionBase.execute field. -/
def executedColumn (base : FunctionBase)
    (arguments : List ColumnWithTypeAndName) (result_type : DataType) :
    Column :=
  let num_rows := match arguments with
    | [] => 0
    | a :: _ => (a.column.getD (.vec [])).size
  base.execute arguments result_type num_rows

/-- Column stored by the constant-folding branch of addFunction: when the
guard holds and the executed result is constant, that result (resized to one
row when it is empty); otherwise nothing. -/
def foldedColumn (settings : Settings) (base : FunctionBase)
    (arguments : List ColumnWithTypeAndName) (result_type : DataType)
    (all_const : Bool) : Option Column :=
  if foldingCondition settings base all_const then
    let col := executedColumn base arguments result_type
    if col.isConst then
      some (if col.size = 0 then col.cloneResized 1 else col)
    else none
  else none

/-- Default result name "f(a, b, ...)" synthesized when none is given. -/
def defaultFunctionName (fname : String) (childNames : List String) : String :=
  fname ++ "(" ++ String.intercalate ", " childNames ++ ")"

/-- Node constructed by the core ActionsDAG::addFunction: builds the
function, constant-folds when permitted, otherwise asks for an
always-constant result (clearing allow_constant_folding when one is given),
and synthesizes the default name. -/
def functionNode (settings : Settings) (store : List (Nat × Node))
    (function : FunctionOverloadResolver) (children : List Nat)
    (result_name : String) : Node :=
  let childNodes := children.map (getNodeD store)
  let allow0 := childNodes.all (·.allow_constant_folding)
  let arguments := buildArguments store children
  let all_const := allConstArgs arguments
  let base := function.build arguments
  let result_type := base.getResultType
  let folded := foldedColumn settings base arguments result_type all_const
  let withSoft : Option Column × Bool :=
    match folded with
    | some c => (some c, allow0)
    | none =>
      if base.isSuitableForConstantFolding then
        match base.getResultIfAlwaysReturnsConstantAndHasArguments arguments with
        | some c => (some c, false)
        | none => (none, allow0)
      else (none, allow0)
  let rname :=
    if result_name = "" then
      defaultFunctionName function.name (childNodes.map (·.result_name))
    else result_name
  { type := .FUNCTION
    result_name := rname
    result_type := result_type
    column := withSoft.1
    children := children
    allow_constant_folding := withSoft.2
    function_base := some { name := base.name, is_stateful := base.isStateful } }

namespace ActionsDAG

/-- Core ActionsDAG::addFunction over already-resolved children: construct
the function node and add it. -/
def addFunction (dag : ActionsDAG) (function : FunctionOverloadResolver)
    (children : List Nat) (result_name : String) (can_replace : Bool) :
    Except Err (ActionsDAG × Nat) :=
  dag.addNode (functionNode dag.settings dag.nodes function children result_name)
    can_replace

end ActionsDAG

/-! ### Pruner (ActionsDAG::removeUnusedActions) -/

/-- Guard of the in-place constant fold performed during pruning: the node has
children, carries a constant column, and allows folding. -/
def foldCond (nd : Node) : Bool :=
  !nd.children.isEmpty && nd.column.any Column.isConst
    && nd.allow_constant_folding

/-- The in-place rewrite: the node becomes a COLUMN and loses its children. -/
def foldNode (nd : Node) : Node :=
  { nd with type := .COLUMN, children := [] }

/-- Fold a node exactly when its guard holds. -/
def foldIfNode (nd : Node) : Node :=
  if foldCond nd then foldNode nd else nd

/-- Children the DFS actually traverses through a node: none when the node is
folded on pop (folding clears the children before they are scanned). -/
def effChildren (nd : Node) : List Nat :=
  if foldCond nd then [] else nd.children

/-- Reachability along traversed children (used to relate two pruning
runs). -/
inductive ReachEff (store : List (Nat × Node)) : Nat → Nat → Prop where
  | refl (id : Nat) : ReachEff store id id
  | step {a b c : Nat} : ReachEff store a b →
      c ∈ effChildren (getNodeD store b) → ReachEff store a c

/-- Replace the node stored under an id (in-place mutation through a stable
reference). -/
def updateNode (store : List (Nat × Node)) (id : Nat) (nd : Node) :
    List (Nat × Node) :=
  store.map fun p => if p.1 = id then (id, nd) else p

/-- Push every not-yet-visited child onto the visited set and the DFS stack
(inner loop over node->children); the stack is a cons-list whose head is the
top, matching std::stack pop order. -/
def pushChildren (visited stack : List Nat) : List Nat → List Nat × List Nat
  | [] => (visited, stack)
  | c :: cs =>
    if visited.contains c then pushChildren visited stack cs
    else pushChildren (visited ++ [c]) (c :: stack) cs

/-- All child ids mentioned anywhere in a store (used only for the
termination measure of the DFS). -/
def allChildrenIds (store : List (Nat × Node)) : List Nat :=
  (store.map fun p => p.2.children).flatten

/-- Number of child-id occurrences not yet visited (termination measure). -/
def unvisitedCount (store : List (Nat × Node)) (visited : List Nat) : Nat :=
  (allChildrenIds store).countP fun c => !visited.contains c

theorem countP_mono {p q : Nat → Bool} (l : List Nat)
    (h : ∀ a, p a = true → q a = true) : l.countP p ≤ l.countP q := by
  induction l with
  | nil => simp
  | cons a l ih =>
    simp only [List.countP_cons]
    by_cases hp : p a = true
    · have := h a hp
      simp [hp, this]; omega
    · simp only [Bool.not_eq_true] at hp
      simp [hp]; omega

theorem pushChildren_spec (cs : List Nat) : ∀ visited stack : List Nat,
    ∃ fresh : List Nat,
      pushChildren visited stack cs = (visited ++ fresh, fresh.reverse ++ stack)
      ∧ fresh.Nodup ∧ (∀ c ∈ fresh, c ∈ cs ∧ c ∉ visited)
      ∧ (∀ c ∈ cs, c ∈ visited ∨ c ∈ fresh) := by
  induction cs with
  | nil =>
    intro visited stack
    exact ⟨[], by simp [pushChildren], by simp, by simp, by simp⟩
  | cons c cs ih =>
    intro visited stack
    by_cases hc : visited.contains c
    · obtain ⟨fresh, heq, hnd, hmem, hcov⟩ := ih visited stack
      refine ⟨fresh, ?_, hnd, ?_, ?_⟩
      · have hstep : pushChildren visited stack (c :: cs)
            = pushChildren visited stack cs := by
          simp [pushChildren, hc]
          intro h
          exact absurd (show c ∈ visited by simpa using hc) h
        rw [hstep, heq]
      · intro x hx
        exact ⟨List.mem_cons_of_mem _ (hmem x hx).1, (hmem x hx).2⟩
      · intro x hx
        rcases List.mem_cons.mp hx with rfl | hx'
        · exact Or.inl (by simpa using hc)
        · exact hcov x hx'
    · obtain ⟨fresh, heq, hnd, hmem, hcov⟩ := ih (visited ++ [c]) (c :: stack)
      refine ⟨c :: fresh, ?_, ?_, ?_, ?_⟩
      · have hstep : pushChildren visited stack (c :: cs)
            = pushChildren (visited ++ [c]) (c :: stack) cs := by
          simp [pushChildren, hc]
          intro h
          exact absurd h (by simpa using hc)
        rw [hstep, heq]
        simp
      · refine List.nodup_cons.mpr ⟨?_, hnd⟩
        intro hcf
        exact (hmem c hcf).2 (by simp)
      · intro x hx
        rcases List.mem_cons.mp hx with rfl | hx'
        · exact ⟨List.mem_cons_self _ _, by simpa using hc⟩
        · refine ⟨List.mem_cons_of_mem _ (hmem x hx').1, ?_⟩
          have := (hmem x hx').2
          intro hxv
          exact this (List.mem_append_left _ hxv)
      · intro x hx
        rcases List.mem_cons.mp hx with rfl | hx'
        · exact Or.inr (by simp)
        · rcases hcov x hx' with h | h
          · rcases List.mem_append.mp h with h' | h'
            · exact Or.inl h'
            · exact Or.inr (by simp at h'; simp [h'])
          · exact Or.inr (List.mem_cons_of_mem _ h)

theorem notContains_append_drop {visited : List Nat} {c a : Nat}
    (h : (!(visited ++ [c]).contains a) = true) :
    (!visited.contains a) = true := by
  simp at h ⊢
  exact h.1

theorem countP_drop_one {l visited : List Nat} {c : Nat} (hcl : c ∈ l)
    (hcv : c ∉ visited) :
    l.countP (fun x => !(visited ++ [c]).contains x) + 1
      ≤ l.countP (fun x => !visited.contains x) := by
  induction l with
  | nil => cases hcl
  | cons a l ih =>
    have hmono : l.countP (fun x => !(visited ++ [c]).contains x)
        ≤ l.countP (fun x => !visited.contains x) :=
      countP_mono l fun x hx => notContains_append_drop hx
    simp only [List.countP_cons]
    by_cases hac : a = c
    · subst hac
      have h1 : (!(visited ++ [a]).contains a) = false := by simp
      have h2 : (!visited.contains a) = true := by simp [hcv]
      simp only [h1, h2]
      have e1 : (if (false : Bool) = true then (1 : Nat) else 0) = 0 := rfl
      have e2 : (if True then (1 : Nat) else 0) = 1 := if_pos trivial
      rw [e1, e2]
      omega
    · have hcl' : c ∈ l := by
        rcases List.mem_cons.mp hcl with h | h
        · exact absurd h.symm hac
        · exact h
      have hhead : (!(visited ++ [c]).contains a) = (!visited.contains a) := by
        simp [hac]
      rw [hhead]
      have := ih hcl'
      omega

theorem unvisitedCount_append {store : List (Nat × Node)} :
    ∀ (fresh visited : List Nat), fresh.Nodup →
      (∀ c ∈ fresh, c ∈ allChildrenIds store ∧ c ∉ visited) →
      unvisitedCount store (visited ++ fresh) + fresh.length
        ≤ unvisitedCount store visited := by
  intro fresh
  induction fresh with
  | nil => intro visited _ _; simp
  | cons c fresh ih =>
    intro visited hnd hmem
    have hstep := countP_drop_one (hmem c (by simp)).1 (hmem c (by simp)).2
    have htail := ih (visited ++ [c]) (List.nodup_cons.mp hnd).2 ?_
    · unfold unvisitedCount at *
      have hre : visited ++ c :: fresh = (visited ++ [c]) ++ fresh := by simp
      rw [hre]
      simp only [List.length_cons]
      omega
    · intro x hx
      refine ⟨(hmem x (by simp [hx])).1, ?_⟩
      intro hxv
      rcases List.mem_append.mp hxv with h | h
      · exact (hmem x (by simp [hx])).2 h
      · have : x = c := by simpa using h
        exact (List.nodup_cons.mp hnd).1 (this ▸ hx)

theorem unvisitedCount_cons (p : Nat × Node) (store : List (Nat × Node))
    (visited : List Nat) :
    unvisitedCount (p :: store) visited
      = p.2.children.countP (fun c => !visited.contains c)
        + unvisitedCount store visited := by
  simp [unvisitedCount, allChildrenIds]

theorem unvisitedCount_update_le {id : Nat} {nd : Node}
    (h : nd.children = []) (store : List (Nat × Node)) (visited : List Nat) :
    unvisitedCount (updateNode store id nd) visited
      ≤ unvisitedCount store visited := by
  induction store with
  | nil => simp [updateNode, unvisitedCount, allChildrenIds]
  | cons p store ih =>
    rw [show updateNode (p :: store) id nd
        = (if p.1 = id then (id, nd) else p) :: updateNode store id nd
      from rfl]
    rw [unvisitedCount_cons, unvisitedCount_cons]
    have hhead : ((if p.1 = id then (id, nd) else p).2.children.countP
          fun c => !visited.contains c)
        ≤ p.2.children.countP fun c => !visited.contains c := by
      by_cases hp : p.1 = id
      · rw [if_pos hp]
        simp [h]
      · rw [if_neg hp]
    omega

theorem findNode_cons (i : Nat) (nd : Node) (rest : List (Nat × Node))
    (id : Nat) :
    findNode ((i, nd) :: rest) id
      = if i = id then some nd else findNode rest id := rfl

theorem children_sub_allChildren (store : List (Nat × Node)) (id : Nat) :
    ∀ c ∈ (getNodeD store id).children, c ∈ allChildrenIds store := by
  induction store with
  | nil =>
    intro c hc
    simp [getNodeD, findNode, defaultNode] at hc
  | cons p store ih =>
    rcases p with ⟨i, nd⟩
    intro c hc
    have hall : allChildrenIds ((i, nd) :: store)
        = nd.children ++ allChildrenIds store := by
      simp [allChildrenIds]
    rw [hall, List.mem_append]
    by_cases hp : i = id
    · left
      unfold getNodeD at hc
      rw [findNode_cons, if_pos hp] at hc
      simpa using hc
    · right
      apply ih c
      unfold getNodeD at hc ⊢
      rw [findNode_cons, if_neg hp] at hc
      exact hc

/-- DFS loop of removeUnusedActions: pop a node, constant-fold it in place
when the guard holds (which clears its children, so nothing more is
traversed through it), then mark-and-push its remaining children.  Returns
the rewritten store and the visited set. -/
def pruneLoop (store : List (Nat × Node)) (visited : List Nat)
    (stack : List Nat) : List (Nat × Node) × List Nat :=
  match stack with
  | [] => (store, visited)
  | id :: rest =>
    if foldCond (getNodeD store id) then
      pruneLoop (updateNode store id (foldNode (getNodeD store id))) visited
        rest
    else
      let vs := pushChildren visited rest (getNodeD store id).children
      pruneLoop store vs.1 vs.2
termination_by 2 * unvisitedCount store visited + stack.length
decreasing_by
  · have := @unvisitedCount_update_le id (foldNode (getNodeD store id))
      (by simp [foldNode]) store visited
    simp only [List.length_cons]
    omega
  · obtain ⟨fresh, heq, hnd, hmem, -⟩ :=
      pushChildren_spec (getNodeD store id).children visited rest
    have hsub : ∀ c ∈ fresh, c ∈ allChildrenIds store ∧ c ∉ visited := by
      intro c hc
      exact ⟨children_sub_allChildren store id c (hmem c hc).1, (hmem c hc).2⟩
    have hcount := unvisitedCount_append fresh visited hnd hsub
    simp only [vs, heq, List.length_append, List.length_reverse,
      List.length_cons]
    omega

/-- Second seeding loop of removeUnusedActions: every ARRAY_JOIN node of the
store is marked and pushed even when the index does not reach it. -/
def seedArrayJoins : List (Nat × Node) → List Nat → List Nat →
    List Nat × List Nat
  | [], visited, stack => (visited, stack)
  | (id, nd) :: rest, visited, stack =>
    if nd.type = .ARRAY_JOIN ∧ ¬ visited.contains id then
      seedArrayJoins rest (visited ++ [id]) (id :: stack)
    else seedArrayJoins rest visited stack

namespace ActionsDAG

/-- ActionsDAG::removeUnusedActions() (no arguments): seed the DFS from the
index and from every ARRAY_JOIN node, run the fold-and-traverse loop, then
drop unvisited nodes from the store and the input list.  The index itself is
left as it was. -/
def removeUnusedActions (dag : ActionsDAG) : ActionsDAG :=
  let seeded := seedArrayJoins dag.nodes dag.index dag.index.reverse
  let res := pruneLoop dag.nodes seeded.1 seeded.2
  { dag with
    nodes := res.1.filter fun p => res.2.contains p.1
    inputs := dag.inputs.filter fun id => res.2.contains id }

/-- ActionsDAG::removeUnusedActions(required_nodes): replace the index by the
required nodes, then run the full prune. -/
def removeUnusedActionsNodes (dag : ActionsDAG) (required : List Nat) :
    ActionsDAG :=
  removeUnusedActions { dag with index := required }

end ActionsDAG

/-- First-occurrence deduplication (the nodes_set filter of
removeUnusedActions(required_names)). -/
def dedupFirstAux : List Nat → List Nat → List Nat
  | [], _ => []
  | x :: xs, seen =>
    if seen.contains x then dedupFirstAux xs seen
    else x :: dedupFirstAux xs (x :: seen)

/-- Deduplicate keeping first occurrences. -/
def dedupFirst (l : List Nat) : List Nat := dedupFirstAux l []

namespace ActionsDAG

/-- ActionsDAG::removeUnusedActions(required_names): resolve every name in
the index (UNKNOWN_IDENTIFIER when missing), deduplicate keeping first
occurrences, and forward to the node-list entry point. -/
def removeUnusedActionsNames (dag : ActionsDAG) (required_names : List String) :
    Except Err ActionsDAG := do
  let ids ← required_names.mapM fun name =>
    match indexFind dag.nodes dag.index name with
    | some id => Except.ok id
    | none => Except.error Err.UNKNOWN_IDENTIFIER
  Except.ok (dag.removeUnusedActionsNodes (dedupFirst ids))

/-- Observable outputs (ActionsDAG::getResultColumns): column, type and name
of every indexed node in index order. -/
def getResultColumns (dag : ActionsDAG) : List ColumnWithTypeAndName :=
  dag.index.map fun id =>
    let nd := getNodeD dag.nodes id
    { column := nd.column, type := nd.result_type, name := nd.result_name }

/-- ActionsDAG::getRequiredColumns: name and type of every input in order. -/
def getRequiredColumns (dag : ActionsDAG) : List (String × DataType) :=
  dag.inputs.map fun id =>
    let nd := getNodeD dag.nodes id
    (nd.result_name, nd.result_type)

/-- One step of the ActionsDAG(ColumnsWithTypeAndName) constructor: declare
a source column as an INPUT, keeping the column value when it is a constant.
The constructor calls addInput with can_replace = true, which never throws,
so it uses the success path directly. -/
def fromColumnsStep (dag : ActionsDAG) (input : ColumnWithTypeAndName) :
    ActionsDAG :=
  if input.column.any Column.isConst then
    (dag.addNodeOk
      { type := .INPUT
        result_name := input.name
        result_type := input.type
        column := input.column }).1
  else
    (dag.addNodeOk
      { type := .INPUT
        result_name := input.name
        result_type := input.type }).1

/-- The ActionsDAG(ColumnsWithTypeAndName) constructor. -/
def fromColumns (inputs_ : List ColumnWithTypeAndName) : ActionsDAG :=
  inputs_.foldl fromColumnsStep {}

end ActionsDAG

/-! ### Schema adaptation (ActionsDAG::makeConvertingActions) -/

/-- Column-matching modes of makeConvertingActions. -/
inductive MatchColumnsMode where
  | Position | Name
deriving DecidableEq, Repr

/-- Append a position to the queue of a name, creating the entry when the
name is new (the map-building loop of the Name mode). -/
def queuesAdd : List (String × List Nat) → String → Nat →
    List (String × List Nat)
  | [], name, pos => [(name, [pos])]
  | (n, q) :: rest, name, pos =>
    if n = name then (n, q ++ [pos]) :: rest
    else (n, q) :: queuesAdd rest name pos

/-- Queue a name maps to; missing names yield the empty queue, exactly as
operator[] on the C++ map materializes an empty list. -/
def queuesGet : List (String × List Nat) → String → List Nat
  | [], _ => []
  | (n, q) :: rest, name => if n = name then q else queuesGet rest name

/-- Pop the front of the queue of a name. -/
def queuesPop : List (String × List Nat) → String → List (String × List Nat)
  | [], _ => []
  | (n, q) :: rest, name =>
    if n = name then (n, q.tail) :: rest
    else (n, q) :: queuesPop rest name

/-- Build the name-to-queue-of-input-positions map, in input order. -/
def buildNameQueuesAux : List String → Nat → List (String × List Nat) →
    List (String × List Nat)
  | [], _, m => m
  | n :: rest, pos, m => buildNameQueuesAux rest (pos + 1) (queuesAdd m n pos)

/-- Name-to-positions map of the source inputs. -/
def buildNameQueues (names : List String) : List (String × List Nat) :=
  buildNameQueuesAux names 0 []

/-- Default descriptor used by list lookups with getD. -/
def defaultCWTN : ColumnWithTypeAndName := { type := .int, name := "" }

/-- Positions (starting at pos) of the inputs bearing a name, in input
order: the contents of that name's queue. -/
def positionsFrom : List String → String → Nat → List Nat
  | [], _, _ => []
  | m :: rest, n, pos =>
    if m = n then pos :: positionsFrom rest n (pos + 1)
    else positionsFrom rest n (pos + 1)

/-- The INPUT node declared by the ActionsDAG(ColumnsWithTypeAndName)
constructor for one source column (the column value is kept only when it is
constant). -/
def sourceInputNode (c : ColumnWithTypeAndName) : Node :=
  if c.column.any Column.isConst then
    { type := .INPUT, result_name := c.name, result_type := c.type,
      column := c.column }
  else
    { type := .INPUT, result_name := c.name, result_type := c.type }

/-- Store entries the constructor appends for a source list, with ids
starting at start. -/
def inputEntries (start : Nat) : List ColumnWithTypeAndName →
    List (Nat × Node)
  | [] => []
  | c :: rest => (start, sourceInputNode c) :: inputEntries (start + 1) rest

/-- The mode switch of the conversion loop: pick the source node for one
result column.  Position mode indexes the inputs directly; Name mode pops the
front of the result name's queue and fails with THERE_IS_NO_COLUMN when that
queue is empty or absent. -/
def chooseSourceNode (mode : MatchColumnsMode) (dagInputs : List Nat)
    (queues : List (String × List Nat)) (res_elem : ColumnWithTypeAndName)
    (result_col_num : Nat) : Except Err (Nat × List (String × List Nat)) :=
  match mode with
  | .Position => .ok (dagInputs.getD result_col_num 0, queues)
  | .Name =>
    match queuesGet queues res_elem.name with
    | [] => .error .THERE_IS_NO_COLUMN
    | pos :: _ => .ok (dagInputs.getD pos 0, queuesPop queues res_elem.name)

/-- The sequence of source nodes the Name mode picks across the whole result
list (the matching decisions of the conversion loop, isolated from the node
building; the column index is irrelevant in Name mode). -/
def chooseTrace (dagInputs : List Nat) :
    List (String × List Nat) → List ColumnWithTypeAndName →
    Except Err (List Nat)
  | _, [] => .ok []
  | queues, r :: rest => do
    let (src, queues') ← chooseSourceNode .Name dagInputs queues r 0
    let tail ← chooseTrace dagInputs queues' rest
    .ok (src :: tail)

namespace ActionsDAG

/-- Constant checks of the conversion loop: a constant result requires a
constant source (ILLEGAL_COLUMN otherwise); equal constants pass through;
differing constants fail with ILLEGAL_COLUMN unless ignore_constant_values
replaces the source slot with a fresh COLUMN node holding the result's
constant. -/
def checkConstants (dag : ActionsDAG) (res_elem : ColumnWithTypeAndName)
    (src : Nat) (ignore_constant_values : Bool) :
    Except Err (ActionsDAG × Nat) :=
  if res_elem.column.any Column.isConst then
    if (getNodeD dag.nodes src).column.any Column.isConst then
      if ignore_constant_values then
        dag.addColumn res_elem true
      else if (res_elem.column.getD (.vec [])).getField
          ≠ ((getNodeD dag.nodes src).column.getD (.vec [])).getField then
        .error .ILLEGAL_COLUMN
      else .ok (dag, src)
    else .error .ILLEGAL_COLUMN
  else .ok (dag, src)

/-- Cast step of the conversion loop: when the result type differs from the
source node's type, add a string COLUMN node holding the target type name and
a CAST function node over both.  The cast resolver is created by the opaque
runtime from the diagnostic names, so it is a parameter here. -/
def castStep (castResolver : String → String → FunctionOverloadResolver)
    (dag : ActionsDAG) (res_elem : ColumnWithTypeAndName) (src : Nat) :
    Except Err (ActionsDAG × Nat) :=
  if res_elem.type ≠ (getNodeD dag.nodes src).result_type then do
    let tname := res_elem.type.typeName
    let (dag1, right_arg) ← dag.addColumn
      { name := tname
        column := some (.const (.str tname) 0)
        type := .str } true
    let fb := castResolver (getNodeD dag.nodes src).result_name res_elem.name
    dag1.addFunction fb [src, right_arg] "" true
  else .ok (dag, src)

/-- Materialization step: a constant source delivering a non-constant result
is wrapped in the materialize function. -/
def materializeStep (materializeResolver : FunctionOverloadResolver)
    (dag : ActionsDAG) (res_elem : ColumnWithTypeAndName) (src : Nat) :
    Except Err (ActionsDAG × Nat) :=
  if (getNodeD dag.nodes src).column.any Column.isConst
      ∧ ¬ res_elem.column.any Column.isConst then
    dag.addFunction materializeResolver [src] "" true
  else .ok (dag, src)

/-- Rename step: expose the slot under the result name via an ALIAS when the
names differ. -/
def renameStep (dag : ActionsDAG) (res_elem : ColumnWithTypeAndName)
    (src : Nat) : Except Err (ActionsDAG × Nat) :=
  if (getNodeD dag.nodes src).result_name ≠ res_elem.name then
    dag.addAliasNode src res_elem.name true
  else .ok (dag, src)

/-- Body of the per-result-column loop of makeConvertingActions. -/
def convertLoop (castResolver : String → String → FunctionOverloadResolver)
    (materializeResolver : FunctionOverloadResolver)
    (mode : MatchColumnsMode) (ignore_constant_values : Bool) :
    List ColumnWithTypeAndName → Nat → ActionsDAG →
    List (String × List Nat) → List Nat →
    Except Err (ActionsDAG × List Nat)
  | [], _, dag, _, projection => .ok (dag, projection)
  | res_elem :: rest, result_col_num, dag, queues, projection => do
    let (src0, queues') ←
      chooseSourceNode mode dag.inputs queues res_elem result_col_num
    let (dag1, src1) ← dag.checkConstants res_elem src0 ignore_constant_values
    let (dag2, src2) ← dag1.castStep castResolver res_elem src1
    let (dag3, src3) ← dag2.materializeStep materializeResolver res_elem src2
    let (dag4, src4) ← dag3.renameStep res_elem src3
    convertLoop castResolver materializeResolver mode ignore_constant_values
      rest (result_col_num + 1) dag4 queues' (projection ++ [src4])

/-- ActionsDAG::makeConvertingActions: a fresh DAG taking the source columns
as inputs and emitting the result columns, by position or by name. -/
def makeConvertingActions
    (castResolver : String → String → FunctionOverloadResolver)
    (materializeResolver : FunctionOverloadResolver)
    (source result : List ColumnWithTypeAndName) (mode : MatchColumnsMode)
    (ignore_constant_values : Bool := false) : Except Err ActionsDAG := do
  if mode = .Position ∧ source.length ≠ result.length then
    .error .NUMBER_OF_COLUMNS_DOESNT_MATCH
  else
    let dag0 := fromColumns source
    let queues :=
      if mode = .Name then
        buildNameQueues (dag0.inputs.map fun id => entryName dag0.nodes id)
      else []
    let (dag1, projection) ←
      convertLoop castResolver materializeResolver mode ignore_constant_values
        result 0 dag0 queues []
    let dag2 := dag1.removeUnusedActionsNodes projection
    .ok { dag2 with
          settings := { dag2.settings with project_input := true } }

end ActionsDAG

/-! ### Merge (ActionsDAG::merge) -/

/-- Association-list lookup used for node-to-node maps. -/
def lookupMap : List (Nat × Nat) → Nat → Option Nat
  | [], _ => none
  | (k, v) :: rest, id => if k = id then some v else lookupMap rest id

/-- Increment the per-node removal counter (removed_first_result). -/
def countsInc : List (Nat × Nat) → Nat → List (Nat × Nat)
  | [], id => [(id, 1)]
  | (k, c) :: rest, id =>
    if k = id then (k, c + 1) :: rest else (k, c) :: countsInc rest id

/-- Read a per-node counter (0 when absent). -/
def countsGet : List (Nat × Nat) → Nat → Nat
  | [], _ => 0
  | (k, c) :: rest, id => if k = id then c else countsGet rest id

/-- Decrement a per-node counter. -/
def countsDec : List (Nat × Nat) → Nat → List (Nat × Nat)
  | [], _ => []
  | (k, c) :: rest, id =>
    if k = id then (k, c - 1) :: rest else (k, c) :: countsDec rest id

/-- Rename every id of a node by an offset. -/
def renameNode (off : Nat) (nd : Node) : Node :=
  { nd with children := nd.children.map (· + off) }

/-- Shift every node id of a DAG by an offset.  The two C++ stores are
pointer-disjoint by construction; this renaming keeps the two id spaces
disjoint before nodes are spliced together. -/
def renameDag (off : Nat) (dag : ActionsDAG) : ActionsDAG :=
  { dag with
    nodes := dag.nodes.map fun p => (p.1 + off, renameNode off p.2)
    next_id := dag.next_id + off
    inputs := dag.inputs.map (· + off)
    index := dag.index.map (· + off) }

/-- first_result of merge: for every name, the queue of first-index nodes
carrying it, in index order. -/
def buildFirstResult (store : List (Nat × Node)) (index : List Nat) :
    List (String × List Nat) :=
  index.foldl (fun m id => queuesAdd m (entryName store id) id) []

/-- Result of the input-matching loop of merge. -/
structure MergeMatch where
  inputs_map : List (Nat × Nat) := []
  removed_first_result : List (Nat × Nat) := []
  extra_inputs : List Nat := []
deriving DecidableEq, Repr

/-- Input-matching loop of merge: each input of second pops the first
available first-output with its name; unmatched inputs become inputs of the
combined DAG, unless first projects its input (LOGICAL_ERROR). -/
def mergeInputLoop (project_input_first : Bool)
    (secondStore : List (Nat × Node)) :
    List Nat → List (String × List Nat) → MergeMatch →
    Except Err (MergeMatch × List (String × List Nat))
  | [], queues, acc => .ok (acc, queues)
  | inId :: rest, queues, acc =>
    let name := entryName secondStore inId
    match queuesGet queues name with
    | [] =>
      if project_input_first then .error .LOGICAL_ERROR
      else
        mergeInputLoop project_input_first secondStore rest queues
          { acc with extra_inputs := acc.extra_inputs ++ [inId] }
    | p :: _ =>
      mergeInputLoop project_input_first secondStore rest
        (queuesPop queues name)
        { acc with
          inputs_map := acc.inputs_map ++ [(inId, p)]
          removed_first_result := countsInc acc.removed_first_result p }

/-- Rewrite the children of every second node: a child that is an INPUT of
second and was matched is redirected to the first node. -/
def rewriteSecondChildren (secondStore : List (Nat × Node))
    (imap : List (Nat × Nat)) : List (Nat × Node) :=
  secondStore.map fun p =>
    (p.1,
      { p.2 with
        children := p.2.children.map fun c =>
          if (getNodeD secondStore c).type = .INPUT then
            (lookupMap imap c).getD c
          else c })

/-- Rewrite the index of second the same way. -/
def rewriteSecondIndex (secondStore : List (Nat × Node))
    (imap : List (Nat × Nat)) (index : List Nat) : List Nat :=
  index.map fun id =>
    if (getNodeD secondStore id).type = .INPUT then (lookupMap imap id).getD id
    else id

/-- Removal pass over first's index: delete an entry while its node's
removal counter is positive, decrementing the counter. -/
def removeConsumed : List Nat → List (Nat × Nat) → List Nat × List (Nat × Nat)
  | [], counts => ([], counts)
  | id :: rest, counts =>
    if countsGet counts id > 0 then removeConsumed rest (countsDec counts id)
    else
      let r := removeConsumed rest counts
      (id :: r.1, r.2)

/-- Prepend entries one by one from the last to the first, as the reverse
iteration of merge does. -/
def prependAll (index : List Nat) (toPrepend : List Nat) : List Nat :=
  toPrepend.reverse.foldl (fun acc id => id :: acc) index

namespace ActionsDAG

/-- ActionsDAG::merge up to (excluding) the final removeUnusedActions call:
match second's inputs against first's outputs, rewrite second's children and
index, reconcile the merged index, splice the stores, and merge settings.
The C++ index rebuild against spliced storage is the identity here because
index entries are ids, not string views. -/
def mergeCombine (first second0 : ActionsDAG) : Except Err ActionsDAG := do
  let second := renameDag first.next_id second0
  let firstRes := buildFirstResult first.nodes first.index
  let (mm, _) ← mergeInputLoop first.settings.project_input second.nodes
    second.inputs firstRes {}
  let secondNodes := rewriteSecondChildren second.nodes mm.inputs_map
  let secondIndex := rewriteSecondIndex second.nodes mm.inputs_map second.index
  let idxAndFlag :=
    if second.settings.project_input then (secondIndex, true)
    else
      (prependAll (removeConsumed first.index mm.removed_first_result).1
        secondIndex,
       first.settings.project_input)
  .ok { nodes := first.nodes ++ secondNodes
        next_id := second.next_id
        inputs := first.inputs ++ mm.extra_inputs
        index := idxAndFlag.1
        settings :=
          { first.settings with
            project_input := idxAndFlag.2
            max_temporary_columns :=
              max first.settings.max_temporary_columns
                second.settings.max_temporary_columns
            max_temporary_non_const_columns :=
              max first.settings.max_temporary_non_const_columns
                second.settings.max_temporary_non_const_columns
            min_count_to_compile_expression :=
              max first.settings.min_count_to_compile_expression
                second.settings.min_count_to_compile_expression
            projected_output := second.settings.projected_output } }

/-- ActionsDAG::merge: combine and then drop now-dead nodes. -/
def merge (first second : ActionsDAG) : Except Err ActionsDAG := do
  let combined ← mergeCombine first second
  .ok combined.removeUnusedActions

end ActionsDAG

/-! ### Split (ActionsDAG::split) -/

/-- First DFS pass of split: the needed-by-first set is the downward closure
of split_nodes along children.  Children always precede their parents in the
store (new nodes only reference existing ones), so one pass over the store in
reverse order — parents before children — computes exactly the set the C++
descending DFS marks. -/
def neededBySplit (store : List (Nat × Node)) (split_nodes : List Nat) :
    List Nat :=
  store.reverse.foldl
    (fun acc p =>
      if split_nodes.contains p.1 || acc.contains p.1 then
        acc ++ [p.1] ++ p.2.children
      else acc)
    []

/-- State of the second DFS pass of split: the two stores under construction,
their fresh-id counters, the original-to-copy maps, and the discovered
boundary nodes (new_inputs). -/
structure SplitState where
  first_nodes : List (Nat × Node) := []
  second_nodes : List (Nat × Node) := []
  next_first : Nat := 0
  next_second : Nat := 0
  to_first : List (Nat × Nat) := []
  to_second : List (Nat × Nat) := []
  new_inputs : List Nat := []
deriving DecidableEq, Repr

/-- Map one child of a node copied into second: reuse an existing copy,
duplicate a COLUMN child, or synthesize an INPUT carrying the child's name
and type and record the child as a boundary node. -/
def splitMapChildSecond (origStore : List (Nat × Node)) (st : SplitState)
    (c : Nat) : SplitState × Nat :=
  match lookupMap st.to_second c with
  | some s => (st, s)
  | none =>
    let child := getNodeD origStore c
    if child.type = .COLUMN then
      let sid := st.next_second
      ({ st with
          second_nodes := st.second_nodes ++ [(sid, child)]
          next_second := sid + 1
          to_second := st.to_second ++ [(c, sid)] }, sid)
    else
      let sid := st.next_second
      ({ st with
          second_nodes := st.second_nodes ++
            [(sid,
              { type := .INPUT
                result_name := child.result_name
                result_type := child.result_type })]
          next_second := sid + 1
          to_second := st.to_second ++ [(c, sid)]
          new_inputs := st.new_inputs ++ [c] }, sid)

/-- Map all children of a node copied into second, left to right. -/
def splitMapChildrenSecond (origStore : List (Nat × Node)) :
    SplitState → List Nat → SplitState × List Nat
  | st, [] => (st, [])
  | st, c :: cs =>
    let (st1, s) := splitMapChildSecond origStore st c
    let (st2, rest) := splitMapChildrenSecond origStore st1 cs
    (st2, s :: rest)

/-- Process one node in the materialization pass of split.  A node not needed
by first is copied into second (with rewritten children; an INPUT is
additionally re-declared in first as a boundary node); a needed node is
copied into first, and when it is used in the original result an INPUT with
its name and type is synthesized in second and it becomes a boundary node. -/
def splitStep (origStore : List (Nat × Node)) (indexList : List Nat)
    (needed : List Nat) (st : SplitState) (p : Nat × Node) : SplitState :=
  let id := p.1
  let nd := p.2
  if needed.contains id then
    let mapped := nd.children.map fun c => (lookupMap st.to_first c).getD 0
    let fid := st.next_first
    let st1 :=
      { st with
        first_nodes := st.first_nodes ++ [(fid, { nd with children := mapped })]
        next_first := fid + 1
        to_first := st.to_first ++ [(id, fid)] }
    if indexList.contains id then
      let sid := st1.next_second
      { st1 with
        second_nodes := st1.second_nodes ++
          [(sid,
            { type := .INPUT
              result_name := nd.result_name
              result_type := nd.result_type })]
        next_second := sid + 1
        to_second := st1.to_second ++ [(id, sid)]
        new_inputs := st1.new_inputs ++ [id] }
    else st1
  else
    let copyId := st.next_second
    let st1 :=
      { st with
        second_nodes := st.second_nodes ++ [(copyId, nd)]
        next_second := copyId + 1
        to_second := st.to_second ++ [(id, copyId)] }
    let mc := splitMapChildrenSecond origStore st1 nd.children
    let st2 := mc.1
    let st3 :=
      { st2 with
        second_nodes :=
          updateNode st2.second_nodes copyId { nd with children := mc.2 } }
    if nd.type = .INPUT then
      let fid := st3.next_first
      { st3 with
        first_nodes := st3.first_nodes ++ [(fid, nd)]
        next_first := fid + 1
        to_first := st3.to_first ++ [(id, fid)]
        new_inputs := st3.new_inputs ++ [id] }
    else st3

/-- Materialization pass of split over the whole store.  Children precede
their parents in the store, so the post-order DFS of the C++ code processes
the nodes exactly in store order: every child of a node is already visited
when the outer loop reaches the node. -/
def splitCore (dag : ActionsDAG) (split_nodes : List Nat) : SplitState :=
  let needed := neededBySplit dag.nodes split_nodes
  dag.nodes.foldl (splitStep dag.nodes dag.index needed) {}

namespace ActionsDAG

/-- ActionsDAG::split: partition the DAG along split_nodes into the first DAG
(computing the needed part, exposing the boundary) and the second DAG
(reproducing the original index on top of boundary INPUTs).  Both halves are
created by cloneEmpty, which copies the settings (modelled from the spec). -/
def split (dag : ActionsDAG) (split_nodes : List Nat) :
    ActionsDAG × ActionsDAG :=
  let st := splitCore dag split_nodes
  let second_index := dag.index.map fun id => (lookupMap st.to_second id).getD 0
  let first_inputs := dag.inputs.map fun id => (lookupMap st.to_first id).getD 0
  let second_inputs :=
    st.new_inputs.map fun id => (lookupMap st.to_second id).getD 0
  let first_index :=
    st.new_inputs.map fun id => (lookupMap st.to_first id).getD 0
  ({ nodes := st.first_nodes
     next_id := st.next_first
     inputs := first_inputs
     index := first_index
     settings := dag.settings },
   { nodes := st.second_nodes
     next_id := st.next_second
     inputs := second_inputs
     index := second_index
     settings := dag.settings })

end ActionsDAG

/-! ### Store lemmas -/

theorem findNode_append_fresh (store : List (Nat × Node)) (id : Nat)
    (nd : Node) (h : ∀ p ∈ store, p.1 ≠ id) :
    findNode (store ++ [(id, nd)]) id = some nd := by
  induction store with
  | nil => simp [findNode]
  | cons p store ih =>
    rcases p with ⟨i, m⟩
    rw [List.cons_append, findNode_cons,
      if_neg (h (i, m) (List.mem_cons_self _ _))]
    exact ih fun q hq => h q (List.mem_cons_of_mem _ hq)

theorem mem_of_findNode {store : List (Nat × Node)} {id : Nat} {nd : Node}
    (h : findNode store id = some nd) : (id, nd) ∈ store := by
  induction store with
  | nil => simp [findNode] at h
  | cons p store ih =>
    rcases p with ⟨i, m⟩
    rw [findNode_cons] at h
    by_cases hi : i = id
    · rw [if_pos hi] at h
      subst hi
      cases h
      exact List.mem_cons_self _ _
    · rw [if_neg hi] at h
      exact List.mem_cons_of_mem _ (ih h)

theorem findNode_of_mem_nodup {store : List (Nat × Node)} {id : Nat}
    {nd : Node} (hnd : (store.map Prod.fst).Nodup) (h : (id, nd) ∈ store) :
    findNode store id = some nd := by
  induction store with
  | nil => simp at h
  | cons p store ih =>
    rcases p with ⟨i, m⟩
    rcases List.mem_cons.mp h with heq | hmem
    · cases heq
      rw [findNode_cons, if_pos rfl]
    · rw [findNode_cons]
      have hi : i ≠ id := by
        intro hii
        subst hii
        have : i ∈ store.map Prod.fst :=
          List.mem_map.mpr ⟨(i, nd), hmem, rfl⟩
        exact (List.nodup_cons.mp (by simpa using hnd)).1 this
      rw [if_neg hi]
      exact ih (List.nodup_cons.mp (by simpa using hnd)).2 hmem

/-! ### Claim C9: addNode duplicate handling -/

/-- C9: addNode with can_replace = false raises DUPLICATE_COLUMN exactly when
the index already holds an entry named node.result_name; in that case nothing
is constructed (the error branch precedes the push), and otherwise the node
is pushed through the success path. -/
theorem addNode_duplicate_spec (dag : ActionsDAG) (node : Node) :
    (indexContains dag.nodes dag.index node.result_name = true →
        dag.addNode node false = .error .DUPLICATE_COLUMN)
    ∧ (indexContains dag.nodes dag.index node.result_name = false →
        dag.addNode node false = .ok (dag.addNodeOk node)) := by
  constructor
  · intro h
    simp [ActionsDAG.addNode, h]
  · intro h
    simp [ActionsDAG.addNode, h]

/-- Concrete DAG exposing one INPUT named x. -/
def dagX : ActionsDAG :=
  (ActionsDAG.addNodeOk {}
    { type := .INPUT, result_name := "x", result_type := .int }).1

/-- Witness for addNode_duplicate_spec: a second x collides, a first x does
not. -/
theorem addNode_duplicate_witness :
    dagX.addNode { type := .INPUT, result_name := "x", result_type := .int }
        false = .error .DUPLICATE_COLUMN
    ∧ ({} : ActionsDAG).addNode
        { type := .INPUT, result_name := "x", result_type := .int } false
      = .ok (({} : ActionsDAG).addNodeOk
          { type := .INPUT, result_name := "x", result_type := .int }) :=
  ⟨(addNode_duplicate_spec dagX _).1 (by decide),
   (addNode_duplicate_spec {} _).2 (by decide)⟩

/-! ### Claim C4: constant folding in addFunction -/

/-- Resolver whose function qualifies for constant folding but whose
execution produces a non-constant column. -/
def vecResolver : FunctionOverloadResolver :=
  { name := "vf"
    build := fun _ =>
      { name := "vf"
        getResultType := .int
        isSuitableForConstantFolding := true
        isDeterministic := true
        execute := fun _ _ _ => .vec [5]
        getResultIfAlwaysReturnsConstantAndHasArguments := fun _ => none } }

/-- DAG holding one constant COLUMN node. -/
def constArgDag : ActionsDAG :=
  (ActionsDAG.addNodeOk {}
    { type := .COLUMN
      result_name := "c"
      result_type := .int
      column := some (.const (.int 7) 1) }).1

/-- Result DAG of applying vecResolver over the constant argument. -/
def constArgRunDag : ActionsDAG :=
  match constArgDag.addFunction vecResolver [0] "r" false with
  | .ok (d, _) => d
  | .error _ => {}

/-- C4 counterexample: all arguments are constant, the function is suitable
for constant folding and deterministic, and compilation is off — yet no
column is stored, because the executed result is not a constant column.  The
claimed equivalence therefore fails right-to-left. -/
theorem addFunction_fold_counterexample :
    foldingCondition constArgDag.settings
        (vecResolver.build (buildArguments constArgDag.nodes [0]))
        (allConstArgs (buildArguments constArgDag.nodes [0])) = true
    ∧ constArgDag.addFunction vecResolver [0] "r" false
        = .ok (constArgRunDag, 1)
    ∧ (getNodeD constArgRunDag.nodes 1).column = none :=
  ⟨rfl, rfl, rfl⟩

theorem addNode_ok_spec {dag : ActionsDAG} {nd : Node} {cr : Bool}
    {d : ActionsDAG} {i : Nat} (hok : dag.addNode nd cr = .ok (d, i)) :
    d = (dag.addNodeOk nd).1 ∧ i = dag.next_id := by
  unfold ActionsDAG.addNode at hok
  split at hok
  · exact absurd hok (by simp)
  · rw [Except.ok.injEq] at hok
    constructor
    · rw [hok]
    · have : i = (dag.addNodeOk nd).2 := by rw [hok]
      rw [this]
      rfl

theorem addNodeOk_getNode {dag : ActionsDAG} {nd : Node}
    (hfresh : ∀ p ∈ dag.nodes, p.1 < dag.next_id) :
    getNodeD (dag.addNodeOk nd).1.nodes dag.next_id = nd := by
  show getNodeD (dag.nodes ++ [(dag.next_id, nd)]) dag.next_id = nd
  unfold getNodeD
  rw [findNode_append_fresh]
  · rfl
  · exact fun p hp => Nat.ne_of_lt (hfresh p hp)

theorem functionNode_column (settings : Settings)
    (store : List (Nat × Node)) (f : FunctionOverloadResolver)
    (children : List Nat) (rn : String)
    (hsoft : (f.build (buildArguments store children)).getResultIfAlwaysReturnsConstantAndHasArguments
        (buildArguments store children) = none) :
    (functionNode settings store f children rn).column
      = foldedColumn settings (f.build (buildArguments store children))
          (buildArguments store children)
          (f.build (buildArguments store children)).getResultType
          (allConstArgs (buildArguments store children)) := by
  simp only [functionNode]
  rw [hsoft]
  cases hfc : foldedColumn settings (f.build (buildArguments store children))
      (buildArguments store children)
      (f.build (buildArguments store children)).getResultType
      (allConstArgs (buildArguments store children)) with
  | some c => simp
  | none =>
    by_cases hs :
        (f.build (buildArguments store children)).isSuitableForConstantFolding
          = true
    · simp [hs]
    · simp only [Bool.not_eq_true] at hs
      simp [hs]

/-- C4 amended: assuming fresh ids and no always-constant fallback, the new
function node stores a column exactly when the folding condition holds and
the executed result is constant; the stored column is the executed one,
resized to one row when execution returned an empty constant. -/
theorem addFunction_folding_spec (dag : ActionsDAG)
    (f : FunctionOverloadResolver) (children : List Nat) (rname : String)
    (cr : Bool) (d : ActionsDAG) (i : Nat)
    (hfresh : ∀ p ∈ dag.nodes, p.1 < dag.next_id)
    (hsoft : (f.build (buildArguments dag.nodes children)).getResultIfAlwaysReturnsConstantAndHasArguments
        (buildArguments dag.nodes children) = none)
    (hok : dag.addFunction f children rname cr = .ok (d, i)) :
    ((getNodeD d.nodes i).column.isSome = true
        ↔ foldingCondition dag.settings
              (f.build (buildArguments dag.nodes children))
              (allConstArgs (buildArguments dag.nodes children)) = true
          ∧ (executedColumn (f.build (buildArguments dag.nodes children))
              (buildArguments dag.nodes children)
              (f.build (buildArguments dag.nodes children)).getResultType).isConst
            = true)
    ∧ (foldingCondition dag.settings
          (f.build (buildArguments dag.nodes children))
          (allConstArgs (buildArguments dag.nodes children)) = true →
        ∀ hconst : (executedColumn (f.build (buildArguments dag.nodes children))
            (buildArguments dag.nodes children)
            (f.build (buildArguments dag.nodes children)).getResultType).isConst
          = true,
        (getNodeD d.nodes i).column
          = some
              (if (executedColumn (f.build (buildArguments dag.nodes children))
                    (buildArguments dag.nodes children)
                    (f.build (buildArguments dag.nodes children)).getResultType).size
                  = 0 then
                (executedColumn (f.build (buildArguments dag.nodes children))
                  (buildArguments dag.nodes children)
                  (f.build (buildArguments dag.nodes children)).getResultType).cloneResized
                  1
              else
                executedColumn (f.build (buildArguments dag.nodes children))
                  (buildArguments dag.nodes children)
                  (f.build (buildArguments dag.nodes children)).getResultType)
        ∧ ((executedColumn (f.build (buildArguments dag.nodes children))
              (buildArguments dag.nodes children)
              (f.build (buildArguments dag.nodes children)).getResultType).size
            = 0 →
          ((getNodeD d.nodes i).column.getD (.vec [])).size = 1)) := by
  obtain ⟨hd, hi⟩ := addNode_ok_spec hok
  subst hd
  subst hi
  rw [addNodeOk_getNode hfresh]
  rw [functionNode_column _ _ _ _ _ hsoft]
  unfold foldedColumn
  constructor
  · by_cases hguard : foldingCondition dag.settings
        (f.build (buildArguments dag.nodes children))
        (allConstArgs (buildArguments dag.nodes children)) = true
    · rw [if_pos hguard]
      by_cases hconst : (executedColumn
          (f.build (buildArguments dag.nodes children))
          (buildArguments dag.nodes children)
          (f.build (buildArguments dag.nodes children)).getResultType).isConst
        = true
      · rw [if_pos hconst]
        simp [hguard, hconst]
      · rw [if_neg hconst]
        simp [hguard, hconst]
    · rw [if_neg hguard]
      simp [hguard]
  · intro hguard hconst
    rw [if_pos hguard, if_pos hconst]
    refine ⟨rfl, ?_⟩
    intro hsz
    rw [if_pos hsz]
    cases hc : executedColumn (f.build (buildArguments dag.nodes children))
        (buildArguments dag.nodes children)
        (f.build (buildArguments dag.nodes children)).getResultType with
    | const v n => simp [Column.cloneResized, Column.size]
    | vec l =>
      rw [hc] at hconst
      simp [Column.isConst] at hconst

/-- Resolver producing an empty constant, to exercise the resize-to-one
branch. -/
def emptyConstResolver : FunctionOverloadResolver :=
  { name := "ec"
    build := fun _ =>
      { name := "ec"
        getResultType := .int
        isSuitableForConstantFolding := true
        isDeterministic := true
        execute := fun _ _ _ => .const (.int 9) 0
        getResultIfAlwaysReturnsConstantAndHasArguments := fun _ => none } }

/-- Result DAG of applying emptyConstResolver over the constant argument. -/
def emptyConstRunDag : ActionsDAG :=
  match constArgDag.addFunction emptyConstResolver [0] "r" false with
  | .ok (d, _) => d
  | .error _ => {}

/-- Witness for addFunction_folding_spec at a concrete resolver whose
execution yields an empty constant: the stored column exists and has size
one. -/
theorem addFunction_folding_witness :
    (getNodeD emptyConstRunDag.nodes 1).column.isSome = true
    ∧ ((getNodeD emptyConstRunDag.nodes 1).column.getD (.vec [])).size = 1 := by
  have h := addFunction_folding_spec constArgDag emptyConstResolver [0] "r"
    false emptyConstRunDag 1 (by decide) rfl rfl
  refine ⟨h.1.mpr ⟨rfl, rfl⟩, (h.2 rfl rfl).2 rfl⟩

/-! ### Pruning: characterization of the DFS loop -/

theorem contains_iff {l : List Nat} {a : Nat} :
    l.contains a = true ↔ a ∈ l := by
  simp

theorem foldCond_foldIfNode (nd : Node) : foldCond (foldIfNode nd) = false := by
  unfold foldIfNode
  by_cases h : foldCond nd = true
  · rw [if_pos h]
    simp [foldCond, foldNode]
  · rw [Bool.not_eq_true] at h
    rw [if_neg (by simp [h])]
    exact h

theorem effChildren_foldIfNode (nd : Node) :
    effChildren (foldIfNode nd) = effChildren nd := by
  unfold foldIfNode
  by_cases h : foldCond nd = true
  · rw [if_pos h]
    unfold effChildren
    rw [if_pos h, if_neg (by simp [foldCond, foldNode])]
    simp [foldNode]
  · rw [Bool.not_eq_true] at h
    rw [if_neg (by simp [h])]

theorem updateNode_cons (i : Nat) (m : Node) (rest : List (Nat × Node))
    (id : Nat) (nd : Node) :
    updateNode ((i, m) :: rest) id nd
      = (if i = id then (id, nd) else (i, m)) :: updateNode rest id nd := rfl

theorem updateNode_keys (store : List (Nat × Node)) (id : Nat) (nd : Node) :
    (updateNode store id nd).map Prod.fst = store.map Prod.fst := by
  induction store with
  | nil => rfl
  | cons p store ih =>
    rcases p with ⟨i, m⟩
    rw [updateNode_cons, List.map_cons, List.map_cons, ih]
    by_cases hi : i = id
    · rw [if_pos hi]
      simp [hi]
    · rw [if_neg hi]

theorem map_updateNode {α : Type} (store : List (Nat × Node)) (id : Nat)
    (nd : Node) (f : Nat × Node → α) :
    (updateNode store id nd).map f
      = store.map fun p => if p.1 = id then f (id, nd) else f p := by
  induction store with
  | nil => rfl
  | cons p store ih =>
    rcases p with ⟨i, m⟩
    rw [updateNode_cons, List.map_cons, List.map_cons, ih]
    by_cases hi : i = id
    · rw [if_pos hi]
      simp [hi]
    · rw [if_neg hi]
      simp [hi]

theorem findNode_updateNode_ne (store : List (Nat × Node)) (id x : Nat)
    (nd : Node) (h : x ≠ id) :
    findNode (updateNode store id nd) x = findNode store x := by
  induction store with
  | nil => rfl
  | cons p store ih =>
    rcases p with ⟨i, m⟩
    rw [updateNode_cons]
    by_cases hi : i = id
    · rw [if_pos hi, findNode_cons, findNode_cons,
        if_neg (fun hh => h hh.symm), ih]
      rw [if_neg]
      intro hh
      exact h (hi ▸ hh).symm
    · rw [if_neg hi, findNode_cons, findNode_cons, ih]

theorem findNode_updateNode_self (store : List (Nat × Node)) (id : Nat)
    (nd : Node) :
    findNode (updateNode store id nd) id
      = (findNode store id).map fun _ => nd := by
  induction store with
  | nil => rfl
  | cons p store ih =>
    rcases p with ⟨i, m⟩
    rw [updateNode_cons]
    by_cases hi : i = id
    · rw [if_pos hi, findNode_cons, if_pos rfl, findNode_cons, if_pos hi]
      rfl
    · rw [if_neg hi, findNode_cons, findNode_cons, if_neg hi, if_neg hi, ih]

theorem effChildren_update_fold (store : List (Nat × Node)) (id : Nat)
    (hfold : foldCond (getNodeD store id) = true) (x : Nat) :
    effChildren
        (getNodeD (updateNode store id (foldNode (getNodeD store id))) x)
      = effChildren (getNodeD store x) := by
  by_cases hx : x = id
  · subst hx
    have hm : foldCond ((findNode store x).getD defaultNode) = true := hfold
    unfold getNodeD
    rw [findNode_updateNode_self]
    cases hf : findNode store x with
    | none => simp
    | some m =>
      rw [hf] at hm
      simp only [Option.getD_some] at hm
      simp only [Option.map_some, Option.getD_some]
      show effChildren (foldNode ((findNode store x).getD defaultNode))
        = effChildren m
      rw [hf]
      simp only [Option.getD_some]
      unfold effChildren
      rw [if_pos hm, if_neg (by simp [foldCond, foldNode])]
      simp [foldNode]
  · unfold getNodeD
    rw [findNode_updateNode_ne _ _ _ _ hx]

theorem ReachEff_congr {s₁ s₂ : List (Nat × Node)}
    (h : ∀ x, effChildren (getNodeD s₁ x) = effChildren (getNodeD s₂ x))
    {a b : Nat} (hr : ReachEff s₁ a b) : ReachEff s₂ a b := by
  induction hr with
  | refl => exact ReachEff.refl _
  | step _ hc ih => exact ReachEff.step ih (h _ ▸ hc)

theorem ReachEff_trans {store : List (Nat × Node)} {a b c : Nat}
    (h1 : ReachEff store a b) (h2 : ReachEff store b c) :
    ReachEff store a c := by
  induction h2 with
  | refl => exact h1
  | step _ hc ih => exact ReachEff.step ih hc

theorem seedArrayJoins_spec (store : List (Nat × Node)) :
    ∀ visited stack : List Nat,
      ∃ fresh : List Nat,
        seedArrayJoins store visited stack
            = (visited ++ fresh, fresh.reverse ++ stack)
        ∧ (∀ c ∈ fresh, c ∉ visited
            ∧ ∃ nd, (c, nd) ∈ store ∧ nd.type = .ARRAY_JOIN)
        ∧ (∀ p ∈ store, (p : Nat × Node).2.type = .ARRAY_JOIN →
            p.1 ∈ visited ++ fresh) := by
  induction store with
  | nil =>
    intro visited stack
    exact ⟨[], by simp [seedArrayJoins], by simp, by simp⟩
  | cons p store ih =>
    intro visited stack
    rcases p with ⟨id, nd⟩
    by_cases hcase : nd.type = .ARRAY_JOIN ∧ ¬ visited.contains id
    · obtain ⟨fresh, heq, hmem, hcov⟩ := ih (visited ++ [id]) (id :: stack)
      refine ⟨id :: fresh, ?_, ?_, ?_⟩
      · rw [show seedArrayJoins ((id, nd) :: store) visited stack
            = seedArrayJoins store (visited ++ [id]) (id :: stack)
          from by
            simp [seedArrayJoins, hcase.1, hcase.2]
            intro h
            exact absurd (contains_iff.mpr h) hcase.2, heq]
        simp
      · intro c hc
        rcases List.mem_cons.mp hc with rfl | hc'
        · exact ⟨by simpa using hcase.2,
            ⟨nd, List.mem_cons_self _ _, hcase.1⟩⟩
        · refine ⟨fun hv => (hmem c hc').1 (List.mem_append_left _ hv), ?_⟩
          obtain ⟨m, hm, hmt⟩ := (hmem c hc').2
          exact ⟨m, List.mem_cons_of_mem _ hm, hmt⟩
      · intro q hq hqt
        rcases List.mem_cons.mp hq with rfl | hq'
        · simp
        · have := hcov q hq' hqt
          rcases List.mem_append.mp this with h | h
          · rcases List.mem_append.mp h with h' | h'
            · exact List.mem_append_left _ h'
            · simp at h'
              simp [h']
          · exact List.mem_append_right _ (List.mem_cons_of_mem _ h)
    · obtain ⟨fresh, heq, hmem, hcov⟩ := ih visited stack
      refine ⟨fresh, ?_, ?_, ?_⟩
      · rw [show seedArrayJoins ((id, nd) :: store) visited stack
            = seedArrayJoins store visited stack
          from by
            simp only [seedArrayJoins]
            rw [if_neg hcase], heq]
      · intro c hc
        obtain ⟨m, hm, hmt⟩ := (hmem c hc).2
        exact ⟨(hmem c hc).1, ⟨m, List.mem_cons_of_mem _ hm, hmt⟩⟩
      · intro q hq hqt
        rcases List.mem_cons.mp hq with rfl | hq'
        · rcases Decidable.not_and_iff_or_not.mp hcase with h | h
          · exact absurd hqt h
          · rw [Decidable.not_not] at h
            exact List.mem_append_left _ (contains_iff.mp h)
        · exact hcov q hq' hqt

theorem map_self_of_mem {α : Type} {l : List α} {f : α → α}
    (h : ∀ a ∈ l, f a = a) : l.map f = l := by
  induction l with
  | nil => rfl
  | cons a l ih =>
    rw [List.map_cons, h a (List.mem_cons_self _ _),
      ih fun b hb => h b (List.mem_cons_of_mem _ hb)]

theorem getNodeD_update_ne (store : List (Nat × Node)) (id x : Nat)
    (nd : Node) (h : x ≠ id) :
    getNodeD (updateNode store id nd) x = getNodeD store x := by
  unfold getNodeD
  rw [findNode_updateNode_ne _ _ _ _ h]

theorem foldCond_getNodeD_update_foldNode (store : List (Nat × Node))
    (id : Nat) (X : Node) :
    foldCond (getNodeD (updateNode store id (foldNode X)) id) = false := by
  unfold getNodeD
  rw [findNode_updateNode_self]
  cases h : findNode store id with
  | none => simp [defaultNode, foldCond]
  | some m => simp [foldCond, foldNode]

theorem effChildren_getNodeD_update_foldNode (store : List (Nat × Node))
    (id : Nat) (X : Node) :
    effChildren (getNodeD (updateNode store id (foldNode X)) id) = [] := by
  unfold effChildren
  rw [foldCond_getNodeD_update_foldNode]
  unfold getNodeD
  rw [findNode_updateNode_self]
  cases h : findNode store id with
  | none => simp [defaultNode]
  | some m => simp [foldNode]

theorem getNodeD_of_mem_nodup {store : List (Nat × Node)} {id : Nat}
    {nd : Node} (hnd : (store.map Prod.fst).Nodup) (h : (id, nd) ∈ store) :
    getNodeD store id = nd := by
  unfold getNodeD
  rw [findNode_of_mem_nodup hnd h]
  rfl

theorem pruneLoop_spec :
    ∀ (store : List (Nat × Node)) (visited stack : List Nat),
      (store.map Prod.fst).Nodup →
      (∀ v ∈ stack, v ∈ visited) →
      (∀ v ∈ visited, v ∈ stack ∨
        (foldCond (getNodeD store v) = false ∧
          ∀ c ∈ effChildren (getNodeD store v), c ∈ visited)) →
      (pruneLoop store visited stack).1
          = store.map (fun p =>
              if (pruneLoop store visited stack).2.contains p.1 then
                (p.1, foldIfNode p.2)
              else p)
      ∧ (∀ v ∈ visited, v ∈ (pruneLoop store visited stack).2)
      ∧ (∀ v ∈ (pruneLoop store visited stack).2,
          ∀ c ∈ effChildren (getNodeD store v),
            c ∈ (pruneLoop store visited stack).2)
      ∧ (∀ v ∈ (pruneLoop store visited stack).2,
          ∃ s ∈ visited, ReachEff store s v) := by
  intro store visited stack
  induction store, visited, stack using pruneLoop.induct with
  | case1 store visited =>
    intro hnd hstack hinv
    rw [show pruneLoop store visited [] = (store, visited) from by
      rw [pruneLoop]]
    refine ⟨?_, ?_, ?_, ?_⟩
    · symm
      apply map_self_of_mem
      intro p hp
      by_cases hc : visited.contains p.1
      · rw [if_pos hc]
        rcases p with ⟨i, nd⟩
        rcases hinv i (contains_iff.mp hc) with hs | ⟨hf, _⟩
        · simp at hs
        · have : getNodeD store i = nd := getNodeD_of_mem_nodup hnd hp
          rw [this] at hf
          simp [foldIfNode, hf]
      · rw [if_neg hc]
    · intro v hv
      exact hv
    · intro v hv c hc
      rcases hinv v hv with hs | ⟨_, hcl⟩
      · simp at hs
      · exact hcl c hc
    · intro v hv
      exact ⟨v, hv, ReachEff.refl _⟩
  | case2 store visited id rest hfold ih =>
    intro hnd hstack hinv
    have heqloop : pruneLoop store visited (id :: rest)
        = pruneLoop (updateNode store id (foldNode (getNodeD store id)))
            visited rest := by
      rw [pruneLoop]
      rw [if_pos hfold]
    have hnd' : ((updateNode store id
        (foldNode (getNodeD store id))).map Prod.fst).Nodup := by
      rw [updateNode_keys]
      exact hnd
    have hstack' : ∀ v ∈ rest, v ∈ visited :=
      fun v hv => hstack v (List.mem_cons_of_mem _ hv)
    have hinv' : ∀ v ∈ visited, v ∈ rest ∨
        (foldCond (getNodeD (updateNode store id
            (foldNode (getNodeD store id))) v) = false ∧
          ∀ c ∈ effChildren (getNodeD (updateNode store id
              (foldNode (getNodeD store id))) v), c ∈ visited) := by
      intro v hv
      by_cases hvid : v = id
      · subst hvid
        right
        constructor
        · exact foldCond_getNodeD_update_foldNode store v _
        · rw [effChildren_getNodeD_update_foldNode]
          intro c hc
          simp at hc
      · rcases hinv v hv with hs | ⟨hf, hcl⟩
        · rcases List.mem_cons.mp hs with h | h
          · exact absurd h hvid
          · exact Or.inl h
        · right
          rw [getNodeD_update_ne _ _ _ _ hvid]
          exact ⟨hf, hcl⟩
    obtain ⟨ih1, ih2, ih3, ih4⟩ := ih hnd' hstack' hinv'
    rw [heqloop]
    refine ⟨?_, ?_, ?_, ?_⟩
    · rw [ih1, map_updateNode]
      apply List.map_congr_left
      intro p hp
      rcases p with ⟨i0, nd⟩
      by_cases hi : i0 = id
      · subst hi
        rw [if_pos (show ((i0 : Nat), nd).1 = i0 from rfl)]
        have hndeq : getNodeD store i0 = nd := getNodeD_of_mem_nodup hnd hp
        have hifin := ih2 i0 (hstack i0 (List.mem_cons_self _ _))
        show (if (pruneLoop (updateNode store i0 (foldNode (getNodeD store i0)))
                visited rest).2.contains i0 = true
              then (i0, foldIfNode (foldNode (getNodeD store i0)))
              else (i0, foldNode (getNodeD store i0)))
            = (if (pruneLoop (updateNode store i0
                  (foldNode (getNodeD store i0))) visited rest).2.contains i0
                = true
              then (i0, foldIfNode nd) else (i0, nd))
        rw [if_pos (contains_iff.mpr hifin), if_pos (contains_iff.mpr hifin),
          hndeq]
        have h1 : foldIfNode (foldNode nd) = foldNode nd := by
          simp [foldIfNode, foldCond, foldNode]
        have h2 : foldIfNode nd = foldNode nd := by
          rw [hndeq] at hfold
          simp [foldIfNode, hfold]
        rw [h1, h2]
      · rw [if_neg (show ¬ ((i0 : Nat), nd).1 = id from hi)]
    · exact ih2
    · intro v hv c hc
      apply ih3 v hv
      rw [effChildren_update_fold store id hfold]
      exact hc
    · intro v hv
      obtain ⟨s, hs, hr⟩ := ih4 v hv
      exact ⟨s, hs, ReachEff_congr (effChildren_update_fold store id hfold) hr⟩
  | case3 store visited id rest hnfold vs ih =>
    intro hnd hstack hinv
    have hfoldf : foldCond (getNodeD store id) = false := by
      rwa [Bool.not_eq_true] at hnfold
    obtain ⟨fresh, heq, hfreshnd, hmemf, hcov⟩ :=
      pushChildren_spec (getNodeD store id).children visited rest
    have hvs1 : vs.1 = visited ++ fresh := by
      show (pushChildren visited rest (getNodeD store id).children).1
        = visited ++ fresh
      rw [heq]
    have hvs2 : vs.2 = fresh.reverse ++ rest := by
      show (pushChildren visited rest (getNodeD store id).children).2
        = fresh.reverse ++ rest
      rw [heq]
    have heqloop : pruneLoop store visited (id :: rest)
        = pruneLoop store vs.1 vs.2 := by
      rw [pruneLoop]
      rw [if_neg hnfold]
    have hstack' : ∀ v ∈ vs.2, v ∈ vs.1 := by
      rw [hvs1, hvs2]
      intro v hv
      rcases List.mem_append.mp hv with h | h
      · exact List.mem_append_right _ (List.mem_reverse.mp h)
      · exact List.mem_append_left _ (hstack v (List.mem_cons_of_mem _ h))
    have hinv' : ∀ v ∈ vs.1, v ∈ vs.2 ∨
        (foldCond (getNodeD store v) = false ∧
          ∀ c ∈ effChildren (getNodeD store v), c ∈ vs.1) := by
      rw [hvs1, hvs2]
      intro v hv
      rcases List.mem_append.mp hv with hvv | hvf
      · rcases hinv v hvv with hs | ⟨hf, hcl⟩
        · rcases List.mem_cons.mp hs with rfl | h
          · right
            refine ⟨hfoldf, ?_⟩
            intro c hc
            have : c ∈ (getNodeD store v).children := by
              unfold effChildren at hc
              rwa [if_neg (by rw [hfoldf]; simp)] at hc
            rcases hcov c this with h | h
            · exact List.mem_append_left _ h
            · exact List.mem_append_right _ h
          · exact Or.inl (List.mem_append_right _ h)
        · exact Or.inr ⟨hf, fun c hc => List.mem_append_left _ (hcl c hc)⟩
      · exact Or.inl (List.mem_append_left _ (List.mem_reverse.mpr hvf))
    obtain ⟨ih1, ih2, ih3, ih4⟩ := ih hnd hstack' hinv'
    rw [heqloop]
    refine ⟨ih1, ?_, ih3, ?_⟩
    · intro v hv
      exact ih2 v (by rw [hvs1]; exact List.mem_append_left _ hv)
    · intro v hv
      obtain ⟨s, hs, hr⟩ := ih4 v hv
      rw [hvs1] at hs
      rcases List.mem_append.mp hs with h | h
      · exact ⟨s, h, hr⟩
      · have hsch : s ∈ effChildren (getNodeD store id) := by
          unfold effChildren
          rw [if_neg (by rw [hfoldf]; simp)]
          exact (hmemf s h).1
        exact ⟨id, hstack id (List.mem_cons_self _ _),
          ReachEff_trans (ReachEff.step (ReachEff.refl _) hsch) hr⟩

theorem removeUnusedActions_spec (dag : ActionsDAG)
    (hnodup : (dag.nodes.map Prod.fst).Nodup) :
    ∃ V : List Nat,
      dag.removeUnusedActions
        = { dag with
            nodes := (dag.nodes.map fun p =>
                if V.contains p.1 then (p.1, foldIfNode p.2) else p).filter
              fun p => V.contains p.1
            inputs := dag.inputs.filter fun id => V.contains id }
      ∧ (∀ v ∈ dag.index, v ∈ V)
      ∧ (∀ p ∈ dag.nodes, (p : Nat × Node).2.type = .ARRAY_JOIN → p.1 ∈ V)
      ∧ (∀ v ∈ V, ∀ c ∈ effChildren (getNodeD dag.nodes v), c ∈ V)
      ∧ (∀ v ∈ V, ∃ s, (s ∈ dag.index
            ∨ ∃ nd, (s, nd) ∈ dag.nodes ∧ nd.type = .ARRAY_JOIN)
          ∧ ReachEff dag.nodes s v) := by
  obtain ⟨fresh, hseed, hfreshmem, hcov⟩ :=
    seedArrayJoins_spec dag.nodes dag.index dag.index.reverse
  have hstack : ∀ v ∈ fresh.reverse ++ dag.index.reverse,
      v ∈ dag.index ++ fresh := by
    intro v hv
    rcases List.mem_append.mp hv with h | h
    · exact List.mem_append_right _ (List.mem_reverse.mp h)
    · exact List.mem_append_left _ (List.mem_reverse.mp h)
  have hinv : ∀ v ∈ dag.index ++ fresh,
      v ∈ fresh.reverse ++ dag.index.reverse ∨
        (foldCond (getNodeD dag.nodes v) = false ∧
          ∀ c ∈ effChildren (getNodeD dag.nodes v),
            c ∈ dag.index ++ fresh) := by
    intro v hv
    left
    rcases List.mem_append.mp hv with h | h
    · exact List.mem_append_right _ (List.mem_reverse.mpr h)
    · exact List.mem_append_left _ (List.mem_reverse.mpr h)
  obtain ⟨h1, h2, h3, h4⟩ := pruneLoop_spec dag.nodes (dag.index ++ fresh)
    (fresh.reverse ++ dag.index.reverse) hnodup hstack hinv
  refine ⟨(pruneLoop dag.nodes (dag.index ++ fresh)
    (fresh.reverse ++ dag.index.reverse)).2, ?_, ?_, ?_, h3, ?_⟩
  · show ({ dag with
        nodes := (pruneLoop dag.nodes
            (seedArrayJoins dag.nodes dag.index dag.index.reverse).1
            (seedArrayJoins dag.nodes dag.index dag.index.reverse).2).1.filter
          fun p => (pruneLoop dag.nodes
              (seedArrayJoins dag.nodes dag.index dag.index.reverse).1
              (seedArrayJoins dag.nodes dag.index
                dag.index.reverse).2).2.contains p.1
        inputs := dag.inputs.filter fun id =>
          (pruneLoop dag.nodes
              (seedArrayJoins dag.nodes dag.index dag.index.reverse).1
              (seedArrayJoins dag.nodes dag.index
                dag.index.reverse).2).2.contains id } : ActionsDAG) = _
    rw [hseed]
    rw [h1]
  · intro v hv
    exact h2 v (List.mem_append_left _ hv)
  · intro p hp hpt
    exact h2 p.1 (hcov p hp hpt)
  · intro v hv
    obtain ⟨s, hs, hr⟩ := h4 v hv
    rcases List.mem_append.mp hs with h | h
    · exact ⟨s, Or.inl h, hr⟩
    · obtain ⟨-, nd, hnd, hndt⟩ := hfreshmem s h
      exact ⟨s, Or.inr ⟨nd, hnd, hndt⟩, hr⟩

theorem prune_nodes_shape (dag : ActionsDAG)
    (hnodup : (dag.nodes.map Prod.fst).Nodup) :
    ∀ p ∈ dag.removeUnusedActions.nodes,
      ∃ q ∈ dag.nodes, p = ((q : Nat × Node).1, foldIfNode q.2) := by
  obtain ⟨V, heq, -, -, -, -⟩ := removeUnusedActions_spec dag hnodup
  rw [heq]
  intro p hp
  obtain ⟨hmem, hcont⟩ := List.mem_filter.mp hp
  obtain ⟨q, hq, hfq⟩ := List.mem_map.mp hmem
  by_cases hc : V.contains q.1
  · rw [if_pos hc] at hfq
    exact ⟨q, hq, hfq.symm⟩
  · rw [if_neg hc] at hfq
    subst hfq
    exact absurd hcont hc

theorem prune_nodes_foldCond (dag : ActionsDAG)
    (hnodup : (dag.nodes.map Prod.fst).Nodup) :
    ∀ p ∈ dag.removeUnusedActions.nodes, foldCond (p : Nat × Node).2 = false := by
  intro p hp
  obtain ⟨q, -, hq⟩ := prune_nodes_shape dag hnodup p hp
  rw [hq]
  exact foldCond_foldIfNode q.2

theorem foldCond_false_iff (nd : Node) :
    foldCond nd = false
      ↔ ¬(nd.children ≠ [] ∧ nd.column.any Column.isConst = true
          ∧ nd.allow_constant_folding = true) := by
  unfold foldCond
  constructor
  · intro h hcontra
    obtain ⟨hch, hcol, hal⟩ := hcontra
    rw [hcol, hal] at h
    have : nd.children.isEmpty = true := by
      cases he : nd.children.isEmpty
      · rw [he] at h
        simp at h
      · rfl
    exact hch (List.isEmpty_iff.mp this)
  · intro h
    by_cases hch : nd.children = []
    · simp [hch]
    · by_cases hcol : nd.column.any Column.isConst = true
      · by_cases hal : nd.allow_constant_folding = true
        · exact absurd ⟨hch, hcol, hal⟩ h
        · rw [Bool.not_eq_true] at hal
          simp [hal]
      · rw [Bool.not_eq_true] at hcol
        simp [hcol]

theorem removeUnusedActionsNames_ok {dag : ActionsDAG}
    {names : List String} {d' : ActionsDAG}
    (h : dag.removeUnusedActionsNames names = .ok d') :
    ∃ ids, d' = dag.removeUnusedActionsNodes (dedupFirst ids) := by
  unfold ActionsDAG.removeUnusedActionsNames at h
  cases hm : names.mapM fun name =>
      (match indexFind dag.nodes dag.index name with
        | some id => Except.ok id
        | none => Except.error Err.UNKNOWN_IDENTIFIER : Except Err Nat) with
  | error e =>
    rw [hm] at h
    simp [Bind.bind, Except.bind] at h
  | ok ids =>
    rw [hm] at h
    simp only [Bind.bind, Except.bind, Except.ok.injEq] at h
    exact ⟨ids, h.symm⟩

/-! ### Claim C10: no foldable node survives pruning -/

/-- C10: after any of the three removeUnusedActions entry points, no node
left in the store simultaneously has a non-empty children list, a constant
column, and allow_constant_folding - every visited node satisfying the guard
was rewritten in place. -/
theorem prune_no_foldable_nodes (dag : ActionsDAG)
    (hnodup : (dag.nodes.map Prod.fst).Nodup) :
    (∀ p ∈ dag.removeUnusedActions.nodes,
      ¬((p : Nat × Node).2.children ≠ []
        ∧ p.2.column.any Column.isConst = true
        ∧ p.2.allow_constant_folding = true))
    ∧ (∀ required : List Nat,
        ∀ p ∈ (dag.removeUnusedActionsNodes required).nodes,
          ¬((p : Nat × Node).2.children ≠ []
            ∧ p.2.column.any Column.isConst = true
            ∧ p.2.allow_constant_folding = true))
    ∧ (∀ names : List String, ∀ d',
        dag.removeUnusedActionsNames names = .ok d' →
          ∀ p ∈ d'.nodes,
            ¬((p : Nat × Node).2.children ≠ []
              ∧ p.2.column.any Column.isConst = true
              ∧ p.2.allow_constant_folding = true)) := by
  refine ⟨?_, ?_, ?_⟩
  · intro p hp
    exact (foldCond_false_iff p.2).mp (prune_nodes_foldCond dag hnodup p hp)
  · intro required p hp
    exact (foldCond_false_iff p.2).mp
      (prune_nodes_foldCond { dag with index := required } hnodup p hp)
  · intro names d' hok p hp
    obtain ⟨ids, hd⟩ := removeUnusedActionsNames_ok hok
    subst hd
    exact (foldCond_false_iff p.2).mp
      (prune_nodes_foldCond { dag with index := dedupFirst ids } hnodup p hp)

/-- Concrete DAG with an ARRAY_JOIN node unreachable from the index and a
foldable constant function node. -/
def ajDag : ActionsDAG :=
  { nodes :=
      [(0, { type := .INPUT, result_name := "a", result_type := .array .int }),
       (1, { type := .ARRAY_JOIN, result_name := "j", result_type := .int,
             children := [0] }),
       (2, { type := .COLUMN, result_name := "k", result_type := .int,
             column := some (.const (.int 1) 1) }),
       (3, { type := .FUNCTION, result_name := "f", result_type := .int,
             column := some (.const (.int 5) 1), children := [2],
             function_base := some { name := "f" } })]
    next_id := 4
    inputs := [0]
    index := [3] }

/-- Witness for prune_no_foldable_nodes on ajDag (whose function node meets
the fold guard before pruning): no surviving node passes the fold guard. -/
theorem prune_no_foldable_nodes_witness :
    ajDag.removeUnusedActions.nodes.all (fun p => !foldCond p.2) = true := by
  rw [List.all_eq_true]
  intro p hp
  have h := (prune_no_foldable_nodes ajDag (by decide)).1 p hp
  rw [Bool.not_eq_true']
  exact (foldCond_false_iff p.2).mpr h

/-! ### Claim C5: ARRAY_JOIN nodes survive pruning -/

theorem aj_preserved_core (dag : ActionsDAG)
    (hnodup : (dag.nodes.map Prod.fst).Nodup) (id : Nat) (nd : Node)
    (hmem : (id, nd) ∈ dag.nodes) (haj : nd.type = .ARRAY_JOIN)
    (hcol : nd.column = none) :
    (id, nd) ∈ dag.removeUnusedActions.nodes := by
  obtain ⟨V, heq, -, hajV, -, -⟩ := removeUnusedActions_spec dag hnodup
  rw [heq]
  have hidV : id ∈ V := hajV (id, nd) hmem haj
  have hfold : foldCond nd = false := by
    simp [foldCond, hcol]
  apply List.mem_filter.mpr
  refine ⟨?_, contains_iff.mpr hidV⟩
  apply List.mem_map.mpr
  refine ⟨(id, nd), hmem, ?_⟩
  rw [if_pos (contains_iff.mpr hidV)]
  simp [foldIfNode, hfold]

/-- C5: every ARRAY_JOIN node of the store (which by construction carries no
column) is still in the store after any of the three removeUnusedActions
entry points, even when the index does not reach it. -/
theorem arrayJoin_preserved (dag : ActionsDAG)
    (hnodup : (dag.nodes.map Prod.fst).Nodup) (id : Nat) (nd : Node)
    (hmem : (id, nd) ∈ dag.nodes) (haj : nd.type = .ARRAY_JOIN)
    (hcol : nd.column = none) :
    (id, nd) ∈ dag.removeUnusedActions.nodes
    ∧ (∀ required : List Nat,
        (id, nd) ∈ (dag.removeUnusedActionsNodes required).nodes)
    ∧ (∀ names : List String, ∀ d',
        dag.removeUnusedActionsNames names = .ok d' → (id, nd) ∈ d'.nodes) := by
  refine ⟨aj_preserved_core dag hnodup id nd hmem haj hcol, ?_, ?_⟩
  · intro required
    exact aj_preserved_core { dag with index := required } hnodup id nd hmem
      haj hcol
  · intro names d' hok
    obtain ⟨ids, hd⟩ := removeUnusedActionsNames_ok hok
    subst hd
    exact aj_preserved_core { dag with index := dedupFirst ids } hnodup id nd
      hmem haj hcol

/-- Witness for arrayJoin_preserved: the unreachable ARRAY_JOIN of ajDag is
kept by the no-argument prune. -/
theorem arrayJoin_preserved_witness :
    (1, { type := .ARRAY_JOIN, result_name := "j", result_type := .int,
          children := [0] : Node }) ∈ ajDag.removeUnusedActions.nodes :=
  (arrayJoin_preserved ajDag (by decide) 1 _ (by decide) rfl rfl).1

/-! ### Claim C6: pruning idempotence -/

theorem findNode_eq_none_iff {store : List (Nat × Node)} {v : Nat} :
    findNode store v = none ↔ ∀ p ∈ store, (p : Nat × Node).1 ≠ v := by
  induction store with
  | nil => simp [findNode]
  | cons p store ih =>
    rcases p with ⟨i, m⟩
    rw [findNode_cons]
    by_cases hi : i = v
    · rw [if_pos hi]
      simp [hi]
    · rw [if_neg hi]
      rw [ih]
      constructor
      · intro h q hq
        rcases List.mem_cons.mp hq with rfl | hq'
        · exact hi
        · exact h q hq'
      · intro h q hq
        exact h q (List.mem_cons_of_mem _ hq)

theorem prune_keys_nodup (dag : ActionsDAG)
    (hnodup : (dag.nodes.map Prod.fst).Nodup) :
    (dag.removeUnusedActions.nodes.map Prod.fst).Nodup := by
  obtain ⟨V, heq, -, -, -, -⟩ := removeUnusedActions_spec dag hnodup
  rw [heq]
  have hsub : (((dag.nodes.map fun p =>
        if V.contains p.1 then (p.1, foldIfNode p.2) else p).filter
      fun p => V.contains p.1).map Prod.fst).Sublist
      ((dag.nodes.map fun p =>
        if V.contains p.1 then (p.1, foldIfNode p.2) else p).map Prod.fst) :=
    (List.filter_sublist _).map _
  have hkeys : (dag.nodes.map fun p =>
        if V.contains p.1 then (p.1, foldIfNode p.2) else p).map Prod.fst
      = dag.nodes.map Prod.fst := by
    rw [List.map_map]
    apply List.map_congr_left
    intro p _
    show (if V.contains p.1 = true then ((p.1 : Nat), foldIfNode p.2)
        else p).1 = p.1
    by_cases hc : V.contains p.1
    · rw [if_pos hc]
    · rw [if_neg hc]
  exact ((hkeys ▸ hsub).nodup hnodup)

theorem prune_nodes_shape_full (dag : ActionsDAG)
    (hnodup : (dag.nodes.map Prod.fst).Nodup) {V : List Nat}
    (heq : dag.removeUnusedActions
      = { dag with
          nodes := (dag.nodes.map fun p =>
              if V.contains p.1 then (p.1, foldIfNode p.2) else p).filter
            fun p => V.contains p.1
          inputs := dag.inputs.filter fun id => V.contains id }) :
    ∀ p ∈ dag.removeUnusedActions.nodes,
      ∃ q ∈ dag.nodes,
        p = ((q : Nat × Node).1, foldIfNode q.2) ∧ q.1 ∈ V := by
  rw [heq]
  intro p hp
  obtain ⟨hmem, hcont⟩ := List.mem_filter.mp hp
  obtain ⟨q, hq, hfq⟩ := List.mem_map.mp hmem
  by_cases hc : V.contains q.1
  · rw [if_pos hc] at hfq
    exact ⟨q, hq, hfq.symm, contains_iff.mp hc⟩
  · rw [if_neg hc] at hfq
    subst hfq
    exact absurd hcont hc

/-- C6: removeUnusedActions() is idempotent - running the no-argument prune
twice leaves nodes, inputs and index exactly as after one run.  Stated under
the class invariants that node ids are unique and ARRAY_JOIN nodes carry no
column (the builders never give them one). -/
theorem prune_idempotent (dag : ActionsDAG)
    (hnodup : (dag.nodes.map Prod.fst).Nodup)
    (hAJ : ∀ p ∈ dag.nodes,
      (p : Nat × Node).2.type = .ARRAY_JOIN → p.2.column = none) :
    dag.removeUnusedActions.removeUnusedActions = dag.removeUnusedActions := by
  obtain ⟨V₁, heq₁, hidx₁, haj₁, hcl₁, hsound₁⟩ :=
    removeUnusedActions_spec dag hnodup
  have hn1keys := prune_keys_nodup dag hnodup
  have hshape := prune_nodes_shape_full dag hnodup heq₁
  have hfold1 := prune_nodes_foldCond dag hnodup
  have hidx_eq : dag.removeUnusedActions.index = dag.index := by
    rw [heq₁]
  have hinputs_eq : dag.removeUnusedActions.inputs
      = dag.inputs.filter fun id => V₁.contains id := by
    rw [heq₁]
  have hmem1 : ∀ q ∈ dag.nodes, (q : Nat × Node).1 ∈ V₁ →
      (q.1, foldIfNode q.2) ∈ dag.removeUnusedActions.nodes := by
    intro q hq hqV
    rw [heq₁]
    apply List.mem_filter.mpr
    refine ⟨?_, contains_iff.mpr hqV⟩
    apply List.mem_map.mpr
    refine ⟨q, hq, ?_⟩
    rw [if_pos (contains_iff.mpr hqV)]
  have hF5 : ∀ v ∈ V₁,
      effChildren (getNodeD dag.removeUnusedActions.nodes v)
        = effChildren (getNodeD dag.nodes v) := by
    intro v hv
    cases hf : findNode dag.nodes v with
    | none =>
      have h0 : getNodeD dag.nodes v = defaultNode := by
        simp [getNodeD, hf]
      have h1 : findNode dag.removeUnusedActions.nodes v = none := by
        rw [findNode_eq_none_iff]
        intro p hp
        obtain ⟨q, hq, hpq, -⟩ := hshape p hp
        rw [hpq]
        show q.1 ≠ v
        intro hqv
        exact (findNode_eq_none_iff.mp hf) q hq hqv
      rw [h0]
      simp [getNodeD, h1]
    | some m =>
      have hmm : (v, m) ∈ dag.nodes := mem_of_findNode hf
      have h2 : (v, foldIfNode m) ∈ dag.removeUnusedActions.nodes :=
        hmem1 (v, m) hmm hv
      have h3 : findNode dag.removeUnusedActions.nodes v
          = some (foldIfNode m) := findNode_of_mem_nodup hn1keys h2
      have h4 : getNodeD dag.nodes v = m := by
        simp [getNodeD, hf]
      rw [h4]
      rw [show getNodeD dag.removeUnusedActions.nodes v = foldIfNode m from by
        simp [getNodeD, h3]]
      exact effChildren_foldIfNode m
  obtain ⟨V₂, heq₂, hidx₂, haj₂, hcl₂, hsound₂⟩ :=
    removeUnusedActions_spec dag.removeUnusedActions hn1keys
  have hK1 : ∀ v ∈ V₁, v ∈ V₂ := by
    intro v hv
    obtain ⟨s, hs, hr⟩ := hsound₁ v hv
    have hsV1 : s ∈ V₁ := by
      rcases hs with h | ⟨nd, hnd, hndt⟩
      · exact hidx₁ s h
      · exact haj₁ (s, nd) hnd hndt
    have hsV2 : s ∈ V₂ := by
      rcases hs with h | ⟨nd, hnd, hndt⟩
      · exact hidx₂ s (by rw [hidx_eq]; exact h)
      · have hcol := hAJ (s, nd) hnd hndt
        have hkeep : (s, nd) ∈ dag.removeUnusedActions.nodes :=
          aj_preserved_core dag hnodup s nd hnd hndt hcol
        exact haj₂ (s, nd) hkeep hndt
    have main : ∀ b, ReachEff dag.nodes s b → b ∈ V₁ ∧ b ∈ V₂ := by
      intro b hb
      induction hb with
      | refl => exact ⟨hsV1, hsV2⟩
      | step hab hc ihab =>
        refine ⟨hcl₁ _ ihab.1 _ hc, ?_⟩
        apply hcl₂ _ ihab.2
        rw [hF5 _ ihab.1]
        exact hc
    exact (main v hr).2
  have hmapid : dag.removeUnusedActions.nodes.map
      (fun p => if V₂.contains p.1 then (p.1, foldIfNode p.2) else p)
    = dag.removeUnusedActions.nodes := by
    apply map_self_of_mem
    intro p hp
    by_cases hc : V₂.contains p.1
    · rw [if_pos hc]
      have : foldIfNode p.2 = p.2 := by
        simp [foldIfNode, hfold1 p hp]
      rw [this]
    · rw [if_neg hc]
  have hfilterid : dag.removeUnusedActions.nodes.filter
        (fun p => V₂.contains p.1)
      = dag.removeUnusedActions.nodes := by
    apply List.filter_eq_self.mpr
    intro p hp
    obtain ⟨q, -, hpq, hqV⟩ := hshape p hp
    apply contains_iff.mpr
    rw [hpq]
    exact hK1 q.1 hqV
  have hinpid : dag.removeUnusedActions.inputs.filter
        (fun id => V₂.contains id)
      = dag.removeUnusedActions.inputs := by
    apply List.filter_eq_self.mpr
    intro id hid
    rw [hinputs_eq] at hid
    obtain ⟨-, hcont⟩ := List.mem_filter.mp hid
    exact contains_iff.mpr (hK1 id (contains_iff.mp hcont))
  rw [heq₂, hmapid, hfilterid, hinpid]

/-- Witness for prune_idempotent at the concrete ajDag. -/
theorem prune_idempotent_witness :
    ajDag.removeUnusedActions.removeUnusedActions
      = ajDag.removeUnusedActions :=
  prune_idempotent ajDag (by decide) (by decide)

/-! ### Name queues (makeConvertingActions, Name mode) -/

theorem queuesGet_queuesAdd (m : List (String × List Nat)) (n0 : String)
    (pos : Nat) (n : String) :
    queuesGet (queuesAdd m n0 pos) n
      = if n0 = n then queuesGet m n ++ [pos] else queuesGet m n := by
  induction m with
  | nil =>
    show queuesGet [(n0, [pos])] n = _
    by_cases h : n0 = n
    · rw [if_pos h]
      show (if n0 = n then [pos] else queuesGet [] n) = _
      rw [if_pos h]
      rfl
    · rw [if_neg h]
      show (if n0 = n then [pos] else queuesGet [] n) = _
      rw [if_neg h]
  | cons p m ih =>
    rcases p with ⟨a, q⟩
    show queuesGet (if a = n0 then (a, q ++ [pos]) :: m
        else (a, q) :: queuesAdd m n0 pos) n = _
    by_cases ha0 : a = n0
    · rw [if_pos ha0]
      show (if a = n then q ++ [pos] else queuesGet m n) = _
      by_cases han : a = n
      · rw [if_pos han, if_pos (ha0 ▸ han : n0 = n)]
        show _ = (if a = n then q else queuesGet m n) ++ [pos]
        rw [if_pos han]
      · rw [if_neg han, if_neg (fun h : n0 = n => han (ha0.trans h))]
        show _ = (if a = n then q else queuesGet m n)
        rw [if_neg han]
    · rw [if_neg ha0]
      show (if a = n then q else queuesGet (queuesAdd m n0 pos) n) = _
      by_cases han : a = n
      · rw [if_pos han, if_neg (fun h : n0 = n => ha0 (han.trans h.symm))]
        show _ = (if a = n then q else queuesGet m n)
        rw [if_pos han]
      · rw [if_neg han, ih]
        by_cases h0n : n0 = n
        · rw [if_pos h0n, if_pos h0n]
          show _ = (if a = n then q else queuesGet m n) ++ [pos]
          rw [if_neg han]
        · rw [if_neg h0n, if_neg h0n]
          show _ = (if a = n then q else queuesGet m n)
          rw [if_neg han]

theorem queuesGet_queuesPop (m : List (String × List Nat)) (n0 n : String) :
    queuesGet (queuesPop m n0) n
      = if n0 = n then (queuesGet m n0).tail else queuesGet m n := by
  induction m with
  | nil =>
    show queuesGet [] n = _
    by_cases h : n0 = n
    · rw [if_pos h]
      rfl
    · rw [if_neg h]
  | cons p m ih =>
    rcases p with ⟨a, q⟩
    show queuesGet (if a = n0 then (a, q.tail) :: m
        else (a, q) :: queuesPop m n0) n = _
    by_cases ha0 : a = n0
    · rw [if_pos ha0]
      show (if a = n then q.tail else queuesGet m n) = _
      by_cases han : a = n
      · rw [if_pos han, if_pos (ha0 ▸ han : n0 = n)]
        show _ = (if a = n0 then q else queuesGet m n0).tail
        rw [if_pos ha0]
      · rw [if_neg han, if_neg (fun h : n0 = n => han (ha0.trans h))]
        show _ = (if a = n then q else queuesGet m n)
        rw [if_neg han]
    · rw [if_neg ha0]
      show (if a = n then q else queuesGet (queuesPop m n0) n) = _
      by_cases han : a = n
      · rw [if_pos han, if_neg (fun h : n0 = n => ha0 (han.trans h.symm))]
        show _ = (if a = n then q else queuesGet m n)
        rw [if_pos han]
      · rw [if_neg han, ih]
        by_cases h0n : n0 = n
        · rw [if_pos h0n, if_pos h0n]
          show _ = (if a = n0 then q else queuesGet m n0).tail
          rw [if_neg ha0]
        · rw [if_neg h0n, if_neg h0n]
          show _ = (if a = n then q else queuesGet m n)
          rw [if_neg han]

theorem queuesGet_buildAux (names : List String) :
    ∀ (pos : Nat) (m : List (String × List Nat)) (n : String),
      queuesGet (buildNameQueuesAux names pos m) n
        = queuesGet m n ++ positionsFrom names n pos := by
  induction names with
  | nil =>
    intro pos m n
    show queuesGet m n = queuesGet m n ++ []
    rw [List.append_nil]
  | cons m0 rest ih =>
    intro pos m n
    show queuesGet (buildNameQueuesAux rest (pos + 1) (queuesAdd m m0 pos)) n
      = _
    rw [ih, queuesGet_queuesAdd]
    show _ = queuesGet m n
      ++ (if m0 = n then pos :: positionsFrom rest n (pos + 1)
          else positionsFrom rest n (pos + 1))
    by_cases h : m0 = n
    · rw [if_pos h, if_pos h]
      simp
    · rw [if_neg h, if_neg h]

theorem queuesGet_buildNameQueues (names : List String) (n : String) :
    queuesGet (buildNameQueues names) n = positionsFrom names n 0 := by
  unfold buildNameQueues
  rw [queuesGet_buildAux]
  rfl

/-! ### The source constructor of makeConvertingActions -/

theorem sourceInputNode_type (c : ColumnWithTypeAndName) :
    (sourceInputNode c).type = .INPUT := by
  unfold sourceInputNode
  by_cases h : c.column.any Column.isConst
  · rw [if_pos h]
  · rw [if_neg h]

theorem sourceInputNode_name (c : ColumnWithTypeAndName) :
    (sourceInputNode c).result_name = c.name := by
  unfold sourceInputNode
  by_cases h : c.column.any Column.isConst
  · rw [if_pos h]
  · rw [if_neg h]

theorem fromColumnsStep_eq (dag : ActionsDAG) (c : ColumnWithTypeAndName) :
    ActionsDAG.fromColumnsStep dag c
      = (dag.addNodeOk (sourceInputNode c)).1 := by
  unfold ActionsDAG.fromColumnsStep sourceInputNode
  by_cases h : c.column.any Column.isConst
  · rw [if_pos h, if_pos h]
  · rw [if_neg h, if_neg h]

theorem fromColumns_aux (source : List ColumnWithTypeAndName) :
    ∀ dag : ActionsDAG,
      (source.foldl ActionsDAG.fromColumnsStep dag).nodes
          = dag.nodes ++ inputEntries dag.next_id source
      ∧ (source.foldl ActionsDAG.fromColumnsStep dag).inputs
          = dag.inputs ++ (inputEntries dag.next_id source).map Prod.fst
      ∧ (source.foldl ActionsDAG.fromColumnsStep dag).next_id
          = dag.next_id + source.length := by
  induction source with
  | nil =>
    intro dag
    exact ⟨by simp [inputEntries], by simp [inputEntries], by simp⟩
  | cons c rest ih =>
    intro dag
    rw [List.foldl_cons, fromColumnsStep_eq]
    obtain ⟨h1, h2, h3⟩ := ih (dag.addNodeOk (sourceInputNode c)).1
    have hn : (dag.addNodeOk (sourceInputNode c)).1.nodes
        = dag.nodes ++ [(dag.next_id, sourceInputNode c)] := rfl
    have hx : (dag.addNodeOk (sourceInputNode c)).1.next_id
        = dag.next_id + 1 := rfl
    have hi : (dag.addNodeOk (sourceInputNode c)).1.inputs
        = dag.inputs ++ [dag.next_id] := by
      show (if (sourceInputNode c).type = .INPUT then
          dag.inputs ++ [dag.next_id] else dag.inputs) = _
      rw [if_pos (sourceInputNode_type c)]
    refine ⟨?_, ?_, ?_⟩
    · rw [h1, hn, hx]
      show dag.nodes ++ [(dag.next_id, sourceInputNode c)]
          ++ inputEntries (dag.next_id + 1) rest
        = dag.nodes
          ++ ((dag.next_id, sourceInputNode c)
              :: inputEntries (dag.next_id + 1) rest)
      simp
    · rw [h2, hi, hx]
      show dag.inputs ++ [dag.next_id]
          ++ (inputEntries (dag.next_id + 1) rest).map Prod.fst
        = dag.inputs
          ++ (dag.next_id :: (inputEntries (dag.next_id + 1) rest).map Prod.fst)
      simp
    · rw [h3, hx]
      show dag.next_id + 1 + rest.length = dag.next_id + (rest.length + 1)
      omega

theorem fromColumns_nodes (source : List ColumnWithTypeAndName) :
    (ActionsDAG.fromColumns source).nodes = inputEntries 0 source :=
  (fromColumns_aux source {}).1

theorem fromColumns_inputs (source : List ColumnWithTypeAndName) :
    (ActionsDAG.fromColumns source).inputs
      = (inputEntries 0 source).map Prod.fst :=
  (fromColumns_aux source {}).2.1

theorem findNode_inputEntries (source : List ColumnWithTypeAndName) :
    ∀ (start i : Nat), i < source.length →
      findNode (inputEntries start source) (start + i)
        = some (sourceInputNode (source.getD i defaultCWTN)) := by
  induction source with
  | nil =>
    intro start i hi
    simp at hi
  | cons c rest ih =>
    intro start i hi
    cases i with
    | zero =>
      show findNode ((start, sourceInputNode c)
          :: inputEntries (start + 1) rest) (start + 0) = _
      rw [findNode_cons, if_pos (by omega)]
      rfl
    | succ j =>
      show findNode ((start, sourceInputNode c)
          :: inputEntries (start + 1) rest) (start + (j + 1)) = _
      rw [findNode_cons, if_neg (by omega)]
      have hj : j < rest.length := by simpa using hi
      have h2 := ih (start + 1) j hj
      rw [show start + (j + 1) = start + 1 + j from by omega, h2]
      rfl

theorem inputEntries_names (source : List ColumnWithTypeAndName) :
    ∀ (start : Nat) (store : List (Nat × Node)),
      (∀ i, i < source.length →
        findNode store (start + i)
          = some (sourceInputNode (source.getD i defaultCWTN))) →
      ((inputEntries start source).map Prod.fst).map (entryName store)
        = source.map (·.name) := by
  induction source with
  | nil =>
    intro start store _
    rfl
  | cons c rest ih =>
    intro start store h
    show entryName store (start, sourceInputNode c).1
        :: ((inputEntries (start + 1) rest).map Prod.fst).map (entryName store)
      = c.name :: rest.map (·.name)
    have hhead : entryName store start = c.name := by
      unfold entryName getNodeD
      have := h 0 (by simp)
      rw [show start + 0 = start from by omega] at this
      rw [this]
      show (sourceInputNode ((c :: rest).getD 0 defaultCWTN)).result_name
        = c.name
      exact sourceInputNode_name c
    rw [show (start, sourceInputNode c).1 = start from rfl, hhead]
    congr 1
    apply ih (start + 1) store
    intro i hi
    have := h (i + 1) (by simpa using Nat.succ_lt_succ hi)
    rw [show start + (i + 1) = start + 1 + i from by omega] at this
    rw [this]
    rfl

theorem fromColumns_input_names (source : List ColumnWithTypeAndName) :
    (ActionsDAG.fromColumns source).inputs.map
        (entryName (ActionsDAG.fromColumns source).nodes)
      = source.map (·.name) := by
  rw [fromColumns_inputs, fromColumns_nodes]
  apply inputEntries_names
  intro i hi
  have h0 := findNode_inputEntries source 0 i hi
  rw [Nat.zero_add] at h0
  simpa using h0

/-! ### FIFO matching of the Name mode -/

theorem chooseTrace_spec (inputs : List Nat) (names : List String) :
    ∀ (rest done : List ColumnWithTypeAndName)
      (Q : List (String × List Nat)),
      (∀ n, queuesGet Q n
        = (positionsFrom names n 0).drop
            (done.countP fun r => r.name = n)) →
      ((∀ i, i < rest.length →
          ((done ++ rest.take i).countP
              fun r => r.name = (rest.getD i defaultCWTN).name)
            < (positionsFrom names (rest.getD i defaultCWTN).name 0).length) →
        ∃ trace, chooseTrace inputs Q rest = .ok trace
          ∧ trace.length = rest.length
          ∧ ∀ i, i < rest.length →
              ∃ pos,
                (positionsFrom names (rest.getD i defaultCWTN).name 0)[
                    ((done ++ rest.take i).countP
                      fun r => r.name = (rest.getD i defaultCWTN).name)]?
                  = some pos
                ∧ trace.getD i 0 = inputs.getD pos 0)
      ∧ ((¬ ∀ i, i < rest.length →
            ((done ++ rest.take i).countP
                fun r => r.name = (rest.getD i defaultCWTN).name)
              < (positionsFrom names (rest.getD i defaultCWTN).name
                  0).length) →
          chooseTrace inputs Q rest = .error .THERE_IS_NO_COLUMN) := by
  intro rest
  induction rest with
  | nil =>
    intro done Q hQ
    constructor
    · intro _
      exact ⟨[], rfl, rfl, fun i hi => absurd hi (by simp)⟩
    · intro h
      exact absurd (fun i hi => absurd hi (by simp)) h
  | cons r rest ih =>
    intro done Q hQ
    have hQr := hQ r.name
    have hcnt0 : ((done ++ ([] : List ColumnWithTypeAndName)).countP
        fun x => x.name = r.name) = done.countP fun x => x.name = r.name := by
      rw [List.append_nil]
    -- the queue invariant after popping for r
    have hQ' : ∀ n, queuesGet (queuesPop Q r.name) n
        = (positionsFrom names n 0).drop
            ((done ++ [r]).countP fun x => x.name = n) := by
      intro n
      rw [queuesGet_queuesPop]
      by_cases hn : r.name = n
      · rw [if_pos hn]
        rw [hQ r.name, List.tail_drop]
        have : ((done ++ [r]).countP fun x => x.name = n)
            = (done.countP fun x => x.name = r.name) + 1 := by
          rw [List.countP_append]
          simp [hn]
        rw [this, hn]
      · rw [if_neg hn]
        rw [hQ n]
        have : ((done ++ [r]).countP fun x => x.name = n)
            = done.countP fun x => x.name = n := by
          rw [List.countP_append]
          simp [hn]
        rw [this]
    constructor
    · intro hall
      have hk : (done.countP fun x => x.name = r.name)
          < (positionsFrom names r.name 0).length := by
        have := hall 0 (by simp)
        simpa using this
      have hne : queuesGet Q r.name ≠ [] := by
        rw [hQr]
        intro hcontra
        have := List.drop_eq_nil_iff.mp hcontra
        omega
      cases hd : queuesGet Q r.name with
      | nil => exact absurd hd hne
      | cons pos tail0 =>
        have hpos : (positionsFrom names r.name 0)[
            (done.countP fun x => x.name = r.name)]? = some pos := by
          have hget := List.getElem?_drop (positionsFrom names r.name 0)
            (done.countP fun x => x.name = r.name) 0
          rw [← hQr] at hget
          rw [hd] at hget
          simpa using hget.symm
        have hall' : ∀ i, i < rest.length →
            (((done ++ [r]) ++ rest.take i).countP
                fun x => x.name = (rest.getD i defaultCWTN).name)
              < (positionsFrom names (rest.getD i defaultCWTN).name
                  0).length := by
          intro i hi
          have h1 := hall (i + 1) (by simpa using Nat.succ_lt_succ hi)
          rw [show (r :: rest).take (i + 1) = r :: rest.take i from rfl] at h1
          rw [show (r :: rest).getD (i + 1) defaultCWTN
              = rest.getD i defaultCWTN from rfl] at h1
          rw [List.append_assoc]
          simpa using h1
        obtain ⟨trace', hok', hlen', hmatch'⟩ :=
          (ih (done ++ [r]) (queuesPop Q r.name) hQ').1 hall'
        refine ⟨inputs.getD pos 0 :: trace', ?_, by simp [hlen'], ?_⟩
        · have hchoose : chooseSourceNode .Name inputs Q r 0
              = .ok (inputs.getD pos 0, queuesPop Q r.name) := by
            unfold chooseSourceNode
            rw [hd]
          simp only [chooseTrace, hchoose, hok', Bind.bind, Except.bind]
        · intro i hi
          cases i with
          | zero =>
            refine ⟨pos, ?_, rfl⟩
            rw [show (r :: rest).getD 0 defaultCWTN = r from rfl]
            rw [show (r :: rest).take 0 = [] from rfl, hcnt0]
            exact hpos
          | succ j =>
            have hj : j < rest.length := by simpa using hi
            obtain ⟨pos', hpos', htr'⟩ := hmatch' j hj
            refine ⟨pos', ?_, ?_⟩
            · rw [show (r :: rest).getD (j + 1) defaultCWTN
                  = rest.getD j defaultCWTN from rfl]
              rw [show (r :: rest).take (j + 1) = r :: rest.take j from rfl]
              rw [show done ++ (r :: rest.take j)
                  = (done ++ [r]) ++ rest.take j from by simp]
              exact hpos'
            · show trace'.getD j 0 = inputs.getD pos' 0
              exact htr'
    · intro hnall
      by_cases hk : (done.countP fun x => x.name = r.name)
          < (positionsFrom names r.name 0).length
      · -- head succeeds; some later step is short
        have hne : queuesGet Q r.name ≠ [] := by
          rw [hQr]
          intro hcontra
          have := List.drop_eq_nil_iff.mp hcontra
          omega
        cases hd : queuesGet Q r.name with
        | nil => exact absurd hd hne
        | cons pos tail0 =>
          have hnall' : ¬ ∀ i, i < rest.length →
              (((done ++ [r]) ++ rest.take i).countP
                  fun x => x.name = (rest.getD i defaultCWTN).name)
                < (positionsFrom names (rest.getD i defaultCWTN).name
                    0).length := by
            intro hcontra
            apply hnall
            intro i hi
            cases i with
            | zero =>
              rw [show (r :: rest).getD 0 defaultCWTN = r from rfl]
              rw [show (r :: rest).take 0 = [] from rfl, hcnt0]
              exact hk
            | succ j =>
              have hj : j < rest.length := by simpa using hi
              have := hcontra j hj
              rw [show (r :: rest).getD (j + 1) defaultCWTN
                  = rest.getD j defaultCWTN from rfl]
              rw [show (r :: rest).take (j + 1) = r :: rest.take j from rfl]
              rw [show done ++ (r :: rest.take j)
                  = (done ++ [r]) ++ rest.take j from by simp]
              exact this
          have herr :=
            (ih (done ++ [r]) (queuesPop Q r.name) hQ').2 hnall'
          have hchoose : chooseSourceNode .Name inputs Q r 0
              = .ok (inputs.getD pos 0, queuesPop Q r.name) := by
            unfold chooseSourceNode
            rw [hd]
          simp only [chooseTrace, hchoose, herr, Bind.bind, Except.bind]
      · -- the head itself is short
        have hdnil : queuesGet Q r.name = [] := by
          rw [hQr]
          apply List.drop_eq_nil_of_le
          omega
        have hchoose : chooseSourceNode .Name inputs Q r 0
            = .error .THERE_IS_NO_COLUMN := by
          unfold chooseSourceNode
          rw [hdnil]
        simp only [chooseTrace, hchoose, Bind.bind, Except.bind]

/-! ### Claim C8: constant checks of makeConvertingActions -/

theorem addNode_replace_ok (dag : ActionsDAG) (nd : Node) :
    dag.addNode nd true = .ok (dag.addNodeOk nd) := by
  unfold ActionsDAG.addNode
  rw [if_neg (fun h => absurd h.2 (by simp))]

/-- C8: in the conversion loop, a constant result column demands a constant
source (ILLEGAL_COLUMN otherwise); with both constant, differing values fail
with ILLEGAL_COLUMN unless ignore_constant_values is set, in which case the
source slot is replaced by a fresh COLUMN node holding the result's
constant. -/
theorem checkConstants_spec (dag : ActionsDAG)
    (res_elem : ColumnWithTypeAndName) (src : Nat) (icv : Bool)
    (hconst : res_elem.column.any Column.isConst = true) :
    ((getNodeD dag.nodes src).column.any Column.isConst = false →
        dag.checkConstants res_elem src icv = .error .ILLEGAL_COLUMN)
    ∧ ((getNodeD dag.nodes src).column.any Column.isConst = true →
        icv = false →
        (res_elem.column.getD (.vec [])).getField
            ≠ ((getNodeD dag.nodes src).column.getD (.vec [])).getField →
        dag.checkConstants res_elem src icv = .error .ILLEGAL_COLUMN)
    ∧ ((getNodeD dag.nodes src).column.any Column.isConst = true →
        icv = true →
        dag.checkConstants res_elem src icv
          = .ok ((dag.addNodeOk
              { type := .COLUMN
                result_name := res_elem.name
                result_type := res_elem.type
                column := res_elem.column }).1, dag.next_id)) := by
  have hsome : res_elem.column.isNone = false := by
    cases hc : res_elem.column with
    | none =>
      rw [hc] at hconst
      simp [Option.any] at hconst
    | some c => simp
  refine ⟨?_, ?_, ?_⟩
  · intro h
    unfold ActionsDAG.checkConstants
    rw [if_pos hconst, if_neg (by simp [h])]
  · intro h hicv hne
    unfold ActionsDAG.checkConstants
    rw [if_pos hconst, if_pos h, if_neg (by simp [hicv]), if_pos hne]
  · intro h hicv
    unfold ActionsDAG.checkConstants
    rw [if_pos hconst, if_pos h, if_pos (by rw [hicv])]
    unfold ActionsDAG.addColumn
    rw [if_neg (by simp [hsome])]
    rw [addNode_replace_ok]
    rfl

/-- Concrete source DAG: one INPUT x carrying the constant 3. -/
def constSrcDag : ActionsDAG :=
  (ActionsDAG.addNodeOk {}
    { type := .INPUT, result_name := "x", result_type := .int,
      column := some (.const (.int 3) 1) }).1

/-- Concrete source DAG: one INPUT x with no column. -/
def plainSrcDag : ActionsDAG :=
  (ActionsDAG.addNodeOk {}
    { type := .INPUT, result_name := "x", result_type := .int }).1

/-- Constant result descriptor x = 4. -/
def constResElem : ColumnWithTypeAndName :=
  { column := some (.const (.int 4) 1), type := .int, name := "x" }

/-- Witness for checkConstants_spec: non-constant source fails, differing
constants fail, and ignore_constant_values replaces the slot. -/
theorem checkConstants_witness :
    plainSrcDag.checkConstants constResElem 0 false
        = .error .ILLEGAL_COLUMN
    ∧ constSrcDag.checkConstants constResElem 0 false
        = .error .ILLEGAL_COLUMN
    ∧ constSrcDag.checkConstants constResElem 0 true
        = .ok ((constSrcDag.addNodeOk
            { type := .COLUMN
              result_name := constResElem.name
              result_type := constResElem.type
              column := constResElem.column }).1, 1) :=
  ⟨(checkConstants_spec plainSrcDag constResElem 0 false rfl).1 rfl,
   (checkConstants_spec constSrcDag constResElem 0 false rfl).2.1 rfl rfl
     (by decide),
   (checkConstants_spec constSrcDag constResElem 0 true rfl).2.2 rfl rfl⟩

/-! ### Claim C7: Name-mode FIFO matching end to end -/

theorem functionNode_type (settings : Settings) (store : List (Nat × Node))
    (f : FunctionOverloadResolver) (children : List Nat) (rn : String) :
    (functionNode settings store f children rn).type = .FUNCTION := rfl

theorem addNodeOk_inputs_nonInput (dag : ActionsDAG) (nd : Node)
    (h : nd.type ≠ .INPUT) : (dag.addNodeOk nd).1.inputs = dag.inputs := by
  show (if nd.type = .INPUT then dag.inputs ++ [dag.next_id]
    else dag.inputs) = dag.inputs
  rw [if_neg h]

theorem castStep_ok (castR : String → String → FunctionOverloadResolver)
    (dag : ActionsDAG) (res_elem : ColumnWithTypeAndName) (src : Nat) :
    ∃ d' s', dag.castStep castR res_elem src = .ok (d', s')
      ∧ d'.inputs = dag.inputs := by
  unfold ActionsDAG.castStep
  by_cases ht : res_elem.type ≠ (getNodeD dag.nodes src).result_type
  · rw [if_pos ht]
    have hcol : dag.addColumn
        { name := res_elem.type.typeName
          column := some (.const (.str res_elem.type.typeName) 0)
          type := .str } true
        = .ok (dag.addNodeOk
            { type := .COLUMN
              result_name := res_elem.type.typeName
              result_type := .str
              column := some (.const (.str res_elem.type.typeName) 0) }) := by
      unfold ActionsDAG.addColumn
      rw [if_neg (by simp)]
      exact addNode_replace_ok _ _
    set nodeC : Node :=
      { type := .COLUMN
        result_name := res_elem.type.typeName
        result_type := .str
        column := some (.const (.str res_elem.type.typeName) 0) }
      with hnodeC
    set d1 : ActionsDAG := (dag.addNodeOk nodeC).1 with hd1
    set fn : Node := functionNode d1.settings d1.nodes
      (castR (getNodeD dag.nodes src).result_name res_elem.name)
      [src, (dag.addNodeOk nodeC).2] "" with hfn
    refine ⟨(d1.addNodeOk fn).1, (d1.addNodeOk fn).2, ?_, ?_⟩
    · simp only [hcol, Bind.bind, Except.bind]
      exact addNode_replace_ok d1 fn
    · rw [addNodeOk_inputs_nonInput _ _
        (by rw [hfn, functionNode_type]; simp)]
      rw [hd1, addNodeOk_inputs_nonInput _ _ (by rw [hnodeC]; simp)]
  · rw [if_neg ht]
    exact ⟨dag, src, rfl, rfl⟩

theorem materializeStep_ok (matR : FunctionOverloadResolver)
    (dag : ActionsDAG) (res_elem : ColumnWithTypeAndName) (src : Nat) :
    ∃ d' s', dag.materializeStep matR res_elem src = .ok (d', s')
      ∧ d'.inputs = dag.inputs := by
  unfold ActionsDAG.materializeStep
  by_cases hc : (getNodeD dag.nodes src).column.any Column.isConst = true
      ∧ ¬ res_elem.column.any Column.isConst = true
  · rw [if_pos hc]
    set fn : Node := functionNode dag.settings dag.nodes matR [src] ""
      with hfn
    refine ⟨(dag.addNodeOk fn).1, (dag.addNodeOk fn).2, ?_, ?_⟩
    · exact addNode_replace_ok dag fn
    · exact addNodeOk_inputs_nonInput _ _
        (by rw [hfn, functionNode_type]; simp)
  · rw [if_neg hc]
    exact ⟨dag, src, rfl, rfl⟩

theorem renameStep_ok (dag : ActionsDAG) (res_elem : ColumnWithTypeAndName)
    (src : Nat) :
    ∃ d' s', dag.renameStep res_elem src = .ok (d', s')
      ∧ d'.inputs = dag.inputs := by
  unfold ActionsDAG.renameStep
  by_cases hc : (getNodeD dag.nodes src).result_name ≠ res_elem.name
  · rw [if_pos hc]
    unfold ActionsDAG.addAliasNode
    refine ⟨_, _, addNode_replace_ok _ _, ?_⟩
    exact addNodeOk_inputs_nonInput _ _ (by simp)
  · rw [if_neg hc]
    exact ⟨dag, src, rfl, rfl⟩

theorem convertLoop_sim (castR : String → String → FunctionOverloadResolver)
    (matR : FunctionOverloadResolver) (icv : Bool) :
    ∀ (result : List ColumnWithTypeAndName) (i : Nat) (dag : ActionsDAG)
      (queues : List (String × List Nat)) (proj : List Nat),
      (∀ r ∈ result, r.column.any Column.isConst = false) →
      ((∀ e, chooseTrace dag.inputs queues result = .error e →
          ActionsDAG.convertLoop castR matR .Name icv result i dag queues
            proj = .error e)
       ∧ (∀ trace, chooseTrace dag.inputs queues result = .ok trace →
          ∃ d' p', ActionsDAG.convertLoop castR matR .Name icv result i dag
            queues proj = .ok (d', p'))) := by
  intro result
  induction result with
  | nil =>
    intro i dag queues proj _
    constructor
    · intro e he
      exact absurd he (by simp [chooseTrace])
    · intro trace _
      exact ⟨dag, proj, rfl⟩
  | cons r rest ih =>
    intro i dag queues proj hnc
    have hr : r.column.any Column.isConst = false :=
      hnc r (List.mem_cons_self _ _)
    cases hch : chooseSourceNode .Name dag.inputs queues r i with
    | error e =>
      have hch0 : chooseSourceNode .Name dag.inputs queues r 0 = .error e := by
        rw [← show chooseSourceNode .Name dag.inputs queues r i
            = chooseSourceNode .Name dag.inputs queues r 0 from rfl]
        exact hch
      have htr : chooseTrace dag.inputs queues (r :: rest) = .error e := by
        simp [chooseTrace, hch0, Bind.bind, Except.bind]
      constructor
      · intro e' he'
        rw [htr] at he'
        injection he' with h
        subst h
        simp [ActionsDAG.convertLoop, hch, Bind.bind, Except.bind]
      · intro trace htrace
        rw [htr] at htrace
        exact absurd htrace (by simp)
    | ok sq =>
      rcases sq with ⟨src0, q'⟩
      have hch0 : chooseSourceNode .Name dag.inputs queues r 0
          = .ok (src0, q') := by
        rw [← show chooseSourceNode .Name dag.inputs queues r i
            = chooseSourceNode .Name dag.inputs queues r 0 from rfl]
        exact hch
      have hcc : dag.checkConstants r src0 icv = .ok (dag, src0) := by
        unfold ActionsDAG.checkConstants
        rw [if_neg (by simp [hr])]
      obtain ⟨d2, s2, hcast, hinp2⟩ := castStep_ok castR dag r src0
      obtain ⟨d3, s3, hmat, hinp3⟩ := materializeStep_ok matR d2 r s2
      obtain ⟨d4, s4, hren, hinp4⟩ := renameStep_ok d3 r s3
      have hinp : d4.inputs = dag.inputs := by rw [hinp4, hinp3, hinp2]
      have ihc := ih (i + 1) d4 q' (proj ++ [s4])
        (fun r' hr' => hnc r' (List.mem_cons_of_mem _ hr'))
      have hconv : ActionsDAG.convertLoop castR matR .Name icv (r :: rest) i
            dag queues proj
          = ActionsDAG.convertLoop castR matR .Name icv rest (i + 1) d4 q'
            (proj ++ [s4]) := by
        simp [ActionsDAG.convertLoop, hch, hcc, hcast, hmat, hren, Bind.bind,
          Except.bind]
      constructor
      · intro e he
        have htl : chooseTrace dag.inputs q' rest = .error e := by
          cases htl0 : chooseTrace dag.inputs q' rest with
          | error e0 =>
            have h1 : chooseTrace dag.inputs queues (r :: rest)
                = .error e0 := by
              simp [chooseTrace, hch0, htl0, Bind.bind, Except.bind]
            rw [h1] at he
            injection he with h2
            rw [h2]
          | ok t =>
            have h1 : chooseTrace dag.inputs queues (r :: rest)
                = .ok (src0 :: t) := by
              simp [chooseTrace, hch0, htl0, Bind.bind, Except.bind]
            rw [h1] at he
            exact absurd he (by simp)
        rw [hconv]
        exact ihc.1 e (by rw [hinp]; exact htl)
      · intro trace htrace
        have : ∃ t, chooseTrace dag.inputs q' rest = .ok t := by
          cases htl0 : chooseTrace dag.inputs q' rest with
          | error e0 =>
            have h1 : chooseTrace dag.inputs queues (r :: rest)
                = .error e0 := by
              simp [chooseTrace, hch0, htl0, Bind.bind, Except.bind]
            rw [h1] at htrace
            exact absurd htrace (by simp)
          | ok t => exact ⟨t, rfl⟩
        obtain ⟨t, ht⟩ := this
        rw [hconv]
        exact ihc.2 t (by rw [hinp]; exact ht)

/-- Shape of makeConvertingActions in Name mode: build the source DAG and the
name queues, run the conversion loop, then prune to the projection. -/
theorem makeConvertingActions_name_eq
    (castR : String → String → FunctionOverloadResolver)
    (matR : FunctionOverloadResolver)
    (source result : List ColumnWithTypeAndName) (icv : Bool) :
    ActionsDAG.makeConvertingActions castR matR source result .Name icv
    = (match ActionsDAG.convertLoop castR matR .Name icv result 0
         (ActionsDAG.fromColumns source)
         (buildNameQueues ((ActionsDAG.fromColumns source).inputs.map
           (entryName (ActionsDAG.fromColumns source).nodes))) [] with
       | .error e => .error e
       | .ok (d1, proj) =>
         .ok { d1.removeUnusedActionsNodes proj with
               settings := { (d1.removeUnusedActionsNodes proj).settings with
                             project_input := true } }) := by
  unfold ActionsDAG.makeConvertingActions
  rw [if_neg (by simp)]
  cases h : ActionsDAG.convertLoop castR matR .Name icv result 0
      (ActionsDAG.fromColumns source)
      (buildNameQueues ((ActionsDAG.fromColumns source).inputs.map
        (entryName (ActionsDAG.fromColumns source).nodes))) [] with
  | error e => simp only [reduceIte, Bind.bind, Except.bind]; rw [h]
  | ok v => simp only [reduceIte, Bind.bind, Except.bind]; rw [h]

/-- C7: in Name mode the conversion matches result columns to source inputs
through per-name FIFO queues built in input order.  The queues hold exactly
the positions of the inputs bearing each name (and the inputs bear the source
column names); with enough occurrences the k-th result column named n takes
the k-th source input named n; a missing or exhausted queue makes the
matching - and makeConvertingActions as a whole, absent earlier constant
mismatches - fail with THERE_IS_NO_COLUMN. -/
theorem makeConvertingActions_name_fifo
    (castR : String → String → FunctionOverloadResolver)
    (matR : FunctionOverloadResolver)
    (source result : List ColumnWithTypeAndName) (icv : Bool) :
    ((ActionsDAG.fromColumns source).inputs.map
        (entryName (ActionsDAG.fromColumns source).nodes)
      = source.map (·.name))
    ∧ ((∀ i, i < result.length →
          ((result.take i).countP
              fun r => r.name = (result.getD i defaultCWTN).name)
            < (positionsFrom (source.map (·.name))
                (result.getD i defaultCWTN).name 0).length) →
        ∃ trace,
          chooseTrace (ActionsDAG.fromColumns source).inputs
              (buildNameQueues ((ActionsDAG.fromColumns source).inputs.map
                (entryName (ActionsDAG.fromColumns source).nodes))) result
            = .ok trace
          ∧ trace.length = result.length
          ∧ ∀ i, i < result.length →
              ∃ pos,
                (positionsFrom (source.map (·.name))
                    (result.getD i defaultCWTN).name 0)[
                  ((result.take i).countP
                    fun r => r.name = (result.getD i defaultCWTN).name)]?
                  = some pos
                ∧ trace.getD i 0
                    = (ActionsDAG.fromColumns source).inputs.getD pos 0)
    ∧ ((¬ ∀ i, i < result.length →
          ((result.take i).countP
              fun r => r.name = (result.getD i defaultCWTN).name)
            < (positionsFrom (source.map (·.name))
                (result.getD i defaultCWTN).name 0).length) →
        chooseTrace (ActionsDAG.fromColumns source).inputs
            (buildNameQueues ((ActionsDAG.fromColumns source).inputs.map
              (entryName (ActionsDAG.fromColumns source).nodes))) result
          = .error .THERE_IS_NO_COLUMN)
    ∧ ((∀ r ∈ result, r.column.any Column.isConst = false) →
        (∀ e, chooseTrace (ActionsDAG.fromColumns source).inputs
            (buildNameQueues ((ActionsDAG.fromColumns source).inputs.map
              (entryName (ActionsDAG.fromColumns source).nodes))) result
            = .error e →
          ActionsDAG.makeConvertingActions castR matR source result .Name icv
            = .error e)
        ∧ (∀ trace, chooseTrace (ActionsDAG.fromColumns source).inputs
            (buildNameQueues ((ActionsDAG.fromColumns source).inputs.map
              (entryName (ActionsDAG.fromColumns source).nodes))) result
            = .ok trace →
          ∃ d, ActionsDAG.makeConvertingActions castR matR source result
            .Name icv = .ok d)) := by
  have hnames := fromColumns_input_names source
  have hinv : ∀ n,
      queuesGet (buildNameQueues ((ActionsDAG.fromColumns source).inputs.map
        (entryName (ActionsDAG.fromColumns source).nodes))) n
      = (positionsFrom (source.map (·.name)) n 0).drop
          (([] : List ColumnWithTypeAndName).countP fun r => r.name = n) := by
    intro n
    rw [queuesGet_buildNameQueues, hnames]
    simp
  have hspec := chooseTrace_spec (ActionsDAG.fromColumns source).inputs
    (source.map (·.name)) result [] _ hinv
  refine ⟨hnames, ?_, ?_, ?_⟩
  · intro hall
    exact hspec.1 hall
  · intro hnall
    exact hspec.2 hnall
  · intro hnc
    have hsim := convertLoop_sim castR matR icv result 0
      (ActionsDAG.fromColumns source)
      (buildNameQueues ((ActionsDAG.fromColumns source).inputs.map
        (entryName (ActionsDAG.fromColumns source).nodes))) [] hnc
    constructor
    · intro e he
      have herr := hsim.1 e he
      rw [makeConvertingActions_name_eq, herr]
    · intro trace htrace
      obtain ⟨d', p', hok⟩ := hsim.2 trace htrace
      refine ⟨{ d'.removeUnusedActionsNodes p' with
                settings := { (d'.removeUnusedActionsNodes p').settings with
                              project_input := true } }, ?_⟩
      rw [makeConvertingActions_name_eq, hok]

/-- Dummy runtime resolver for witnesses. -/
def dummyResolver : FunctionOverloadResolver :=
  { name := "d"
    build := fun _ =>
      { name := "d"
        getResultType := .int
        isSuitableForConstantFolding := false
        isDeterministic := true
        execute := fun _ _ _ => .vec []
        getResultIfAlwaysReturnsConstantAndHasArguments := fun _ => none } }

/-- Dummy cast resolver factory for witnesses. -/
def dummyCast : String → String → FunctionOverloadResolver :=
  fun _ _ => dummyResolver

/-- Witness sources: x, x, y. -/
def c7source : List ColumnWithTypeAndName :=
  [{ type := .int, name := "x" }, { type := .int, name := "x" },
   { type := .int, name := "y" }]

/-- Witness results drawing x twice. -/
def c7result : List ColumnWithTypeAndName :=
  [{ type := .int, name := "x" }, { type := .int, name := "x" }]

/-- Witness results drawing x three times (one too many). -/
def c7shortResult : List ColumnWithTypeAndName :=
  [{ type := .int, name := "x" }, { type := .int, name := "x" },
   { type := .int, name := "x" }]

/-- Witness for makeConvertingActions_name_fifo: two results named x draw
the two x inputs; three results named x exhaust the queue, and the whole
conversion fails with THERE_IS_NO_COLUMN. -/
theorem makeConvertingActions_name_fifo_witness :
    (∃ trace,
      chooseTrace (ActionsDAG.fromColumns c7source).inputs
          (buildNameQueues ((ActionsDAG.fromColumns c7source).inputs.map
            (entryName (ActionsDAG.fromColumns c7source).nodes))) c7result
        = .ok trace
      ∧ trace.length = c7result.length
      ∧ ∀ i, i < c7result.length →
          ∃ pos,
            (positionsFrom (c7source.map (·.name))
                (c7result.getD i defaultCWTN).name 0)[
              ((c7result.take i).countP
                fun r => r.name = (c7result.getD i defaultCWTN).name)]?
              = some pos
            ∧ trace.getD i 0
                = (ActionsDAG.fromColumns c7source).inputs.getD pos 0)
    ∧ ActionsDAG.makeConvertingActions dummyCast dummyResolver c7source
        c7shortResult .Name false = .error .THERE_IS_NO_COLUMN := by
  constructor
  · exact (makeConvertingActions_name_fifo dummyCast dummyResolver c7source
      c7result false).2.1 (by decide)
  · have htinc := (makeConvertingActions_name_fifo dummyCast dummyResolver
      c7source c7shortResult false).2.2.1 (by decide)
    exact (makeConvertingActions_name_fifo dummyCast dummyResolver c7source
      c7shortResult false).2.2.2 (by decide) |>.1 .THERE_IS_NO_COLUMN htinc

/-! ### Merge index reconciliation -/

/-- Total number of occurrences of a position across all queues. -/
def queuesCount (m : List (String × List Nat)) (p : Nat) : Nat :=
  (m.map fun q => q.2.count p).sum

theorem countsGet_countsInc (m : List (Nat × Nat)) (id p : Nat) :
    countsGet (countsInc m id) p
      = countsGet m p + (if id = p then 1 else 0) := by
  induction m with
  | nil =>
    by_cases h : id = p
    · subst h; simp [countsInc, countsGet]
    · simp [countsInc, countsGet, h, Ne.symm h]
  | cons kv rest ih =>
    obtain ⟨k, c⟩ := kv
    by_cases hk : k = id
    · subst hk
      by_cases hp : k = p
      · subst hp; simp [countsInc, countsGet]
      · simp [countsInc, countsGet, hp]
    · by_cases hp : k = p
      · have hip : ¬id = p := fun h => hk (hp.trans h.symm)
        have hpk : ¬p = id := fun h => hk (hp.trans h)
        simp [countsInc, countsGet, hk, hp, hip, hpk]
      · simp [countsInc, countsGet, hk, hp, ih]

theorem countsGet_countsDec (m : List (Nat × Nat)) (id p : Nat) :
    countsGet (countsDec m id) p
      = countsGet m p - (if id = p then 1 else 0) := by
  induction m with
  | nil => simp [countsDec, countsGet]
  | cons kv rest ih =>
    obtain ⟨k, c⟩ := kv
    by_cases hk : k = id
    · subst hk
      by_cases hp : k = p
      · subst hp; simp [countsDec, countsGet]
      · simp [countsDec, countsGet, hp]
    · by_cases hp : k = p
      · have hip : ¬id = p := fun h => hk (hp.trans h.symm)
        have hpk : ¬p = id := fun h => hk (hp.trans h)
        simp [countsDec, countsGet, hk, hp, hip, hpk]
      · simp [countsDec, countsGet, hk, hp, ih]

theorem count_cons_ite (p id : Nat) (rest : List Nat) :
    List.count p (id :: rest) = List.count p rest + if id = p then 1 else 0 := by
  by_cases h : id = p
  · subst h; simp [List.count_cons]
  · simp [List.count_cons, h]

theorem queuesCount_queuesAdd (m : List (String × List Nat)) (n : String)
    (pos p : Nat) :
    queuesCount (queuesAdd m n pos) p
      = queuesCount m p + (if pos = p then 1 else 0) := by
  induction m with
  | nil =>
    show List.count p [pos] + 0 = 0 + _
    rw [count_cons_ite]
    simp
  | cons kv rest ih =>
    obtain ⟨k, q⟩ := kv
    by_cases hk : k = n
    · subst hk
      simp only [queuesAdd, reduceIte, queuesCount, List.map_cons,
        List.sum_cons, List.count_append]
      have hsing : List.count p [pos] = if pos = p then 1 else 0 := by
        rw [count_cons_ite]; simp
      rw [hsing]
      omega
    · simp only [queuesAdd, if_neg hk, queuesCount, List.map_cons,
        List.sum_cons]
      rw [show (List.map (fun q => q.2.count p) (queuesAdd rest n pos)).sum
          = queuesCount (queuesAdd rest n pos) p from rfl, ih]
      show _ = q.count p + queuesCount rest p + _
      omega

theorem queuesCount_queuesPop (m : List (String × List Nat)) (name : String)
    (p0 p : Nat) (t : List Nat) (h : queuesGet m name = p0 :: t) :
    queuesCount m p
      = queuesCount (queuesPop m name) p + (if p0 = p then 1 else 0) := by
  induction m with
  | nil => simp [queuesGet] at h
  | cons kv rest ih =>
    obtain ⟨k, q⟩ := kv
    by_cases hk : k = name
    · subst hk
      simp only [queuesGet, if_pos rfl] at h
      subst h
      simp only [queuesPop, reduceIte, queuesCount, List.map_cons,
        List.sum_cons, List.tail_cons]
      rw [count_cons_ite]
      omega
    · simp only [queuesGet, if_neg hk] at h
      simp only [queuesPop, if_neg hk, queuesCount, List.map_cons,
        List.sum_cons]
      rw [show (List.map (fun q => q.2.count p) (queuesPop rest name)).sum
          = queuesCount (queuesPop rest name) p from rfl,
        show (List.map (fun q => q.2.count p) rest).sum
          = queuesCount rest p from rfl, ih h]
      omega

theorem queuesCount_foldAdd (f : Nat → String) (index : List Nat) :
    ∀ m0 p, queuesCount (index.foldl (fun m id => queuesAdd m (f id) id) m0) p
      = queuesCount m0 p + index.count p := by
  induction index with
  | nil => intro m0 p; simp
  | cons id rest ih =>
    intro m0 p
    rw [List.foldl_cons, ih, queuesCount_queuesAdd, count_cons_ite]
    omega

theorem queuesCount_buildFirstResult (store : List (Nat × Node))
    (index : List Nat) (p : Nat) :
    queuesCount (buildFirstResult store index) p = index.count p := by
  have := queuesCount_foldAdd (entryName store) index [] p
  simpa [buildFirstResult, queuesCount] using this

theorem mergeInputLoop_counts (pif : Bool) (store : List (Nat × Node)) :
    ∀ (ins : List Nat) (queues : List (String × List Nat)) (acc : MergeMatch)
      (mm : MergeMatch) (rest : List (String × List Nat)),
      mergeInputLoop pif store ins queues acc = .ok (mm, rest) →
      ∀ p, countsGet mm.removed_first_result p
        ≤ countsGet acc.removed_first_result p + queuesCount queues p := by
  intro ins
  induction ins with
  | nil =>
    intro queues acc mm rest h p
    simp only [mergeInputLoop] at h
    cases h
    exact Nat.le_add_right _ _
  | cons inId tl ih =>
    intro queues acc mm rest h p
    rw [mergeInputLoop] at h
    cases hq : queuesGet queues (entryName store inId) with
    | nil =>
      rw [hq] at h
      by_cases hpif : pif = true
      · rw [if_pos hpif] at h; cases h
      · rw [if_neg hpif] at h
        exact ih queues _ mm rest h p
    | cons p0 t =>
      rw [hq] at h
      have := ih (queuesPop queues (entryName store inId))
        { acc with
          inputs_map := acc.inputs_map ++ [(inId, p0)]
          removed_first_result := countsInc acc.removed_first_result p0 }
        mm rest h p
      rw [countsGet_countsInc] at this
      rw [queuesCount_queuesPop queues (entryName store inId) p0 p t hq]
      by_cases hp : p0 = p
      · simp only [if_pos hp] at this ⊢; omega
      · simp only [if_neg hp] at this ⊢; omega

theorem removeConsumed_spec :
    ∀ (index : List Nat) (counts : List (Nat × Nat)),
      (∀ p, countsGet counts p ≤ index.count p) →
      (removeConsumed index counts).1.Sublist index
      ∧ ∀ p, (removeConsumed index counts).1.count p + countsGet counts p
          = index.count p := by
  intro index
  induction index with
  | nil =>
    intro counts hle
    refine ⟨List.Sublist.refl _, fun p => ?_⟩
    have h0 := hle p
    simp only [List.count_nil] at h0
    show List.count p ([] : List Nat) + countsGet counts p
      = List.count p ([] : List Nat)
    simp only [List.count_nil]
    omega
  | cons id rest ih =>
    intro counts hle
    by_cases hpos : countsGet counts id > 0
    · have htrans : ∀ p, countsGet (countsDec counts id) p ≤ rest.count p := by
        intro p
        rw [countsGet_countsDec]
        have h0 := hle p
        rw [count_cons_ite] at h0
        by_cases h : id = p
        · simp only [if_pos h] at h0 ⊢; omega
        · simp only [if_neg h] at h0 ⊢; omega
      obtain ⟨hsub, hcnt⟩ := ih (countsDec counts id) htrans
      rw [show removeConsumed (id :: rest) counts
          = removeConsumed rest (countsDec counts id) from by
        rw [removeConsumed, if_pos hpos]]
      refine ⟨hsub.cons id, fun p => ?_⟩
      have h1 := hcnt p
      rw [countsGet_countsDec] at h1
      rw [count_cons_ite]
      have h0 := hle id
      rw [count_cons_ite, if_pos rfl] at h0
      by_cases h : id = p
      · subst h
        simp only [reduceIte] at h1 ⊢
        omega
      · simp only [if_neg h] at h1 ⊢
        omega
    · have htrans : ∀ p, countsGet counts p ≤ rest.count p := by
        intro p
        have h0 := hle p
        rw [count_cons_ite] at h0
        by_cases h : id = p
        · subst h; omega
        · simp only [if_neg h] at h0; omega
      obtain ⟨hsub, hcnt⟩ := ih counts htrans
      rw [show removeConsumed (id :: rest) counts
          = (id :: (removeConsumed rest counts).1,
             (removeConsumed rest counts).2) from by
        rw [removeConsumed, if_neg hpos]]
      refine ⟨hsub.cons₂ id, fun p => ?_⟩
      have h1 := hcnt p
      show List.count p (id :: (removeConsumed rest counts).1) + _ = _
      rw [count_cons_ite, count_cons_ite]
      omega

theorem prependAll_eq (index toPrepend : List Nat) :
    prependAll index toPrepend = toPrepend ++ index := by
  induction toPrepend with
  | nil => rfl
  | cons a t ih =>
    show (a :: t).reverse.foldl (fun acc id => id :: acc) index = _
    rw [List.reverse_cons, List.foldl_append]
    show a :: t.reverse.foldl (fun acc id => id :: acc) index = a :: (t ++ index)
    rw [show t.reverse.foldl (fun acc id => id :: acc) index
        = prependAll index t from rfl, ih]

theorem mergeCombine_ok_index (first second0 : ActionsDAG) (mm : MergeMatch)
    (rest : List (String × List Nat))
    (hproj : second0.settings.project_input = false)
    (hloop : mergeInputLoop first.settings.project_input
      (renameDag first.next_id second0).nodes
      (renameDag first.next_id second0).inputs
      (buildFirstResult first.nodes first.index) {} = .ok (mm, rest)) :
    ∃ combined, ActionsDAG.mergeCombine first second0 = .ok combined
      ∧ combined.index
          = prependAll (removeConsumed first.index mm.removed_first_result).1
              (rewriteSecondIndex (renameDag first.next_id second0).nodes
                mm.inputs_map (renameDag first.next_id second0).index) := by
  unfold ActionsDAG.mergeCombine
  simp only [hloop, Bind.bind, Except.bind]
  refine ⟨_, rfl, ?_⟩
  have hps : (renameDag first.next_id second0).settings.project_input
      = false := hproj
  simp only [hps, Bool.false_eq_true, if_false]

/-- C3: when second does not project its input, the merged index before the
final prune is second's (rewritten) index entries in order, followed by the
survivors of first's index: a sublist of first.index from which exactly
removed_first_result[p] occurrences of each consumed output p were removed
(the counters never exceed an output's multiplicity in first.index). -/
theorem merge_index_reconciliation (first second0 : ActionsDAG)
    (hproj : second0.settings.project_input = false)
    (mm : MergeMatch) (rest : List (String × List Nat))
    (hloop : mergeInputLoop first.settings.project_input
      (renameDag first.next_id second0).nodes
      (renameDag first.next_id second0).inputs
      (buildFirstResult first.nodes first.index) {} = .ok (mm, rest)) :
    ∃ combined survivors,
      ActionsDAG.mergeCombine first second0 = .ok combined
      ∧ combined.index
          = rewriteSecondIndex (renameDag first.next_id second0).nodes
              mm.inputs_map (renameDag first.next_id second0).index
            ++ survivors
      ∧ survivors.Sublist first.index
      ∧ (∀ p, survivors.count p + countsGet mm.removed_first_result p
          = first.index.count p)
      ∧ (∀ p, countsGet mm.removed_first_result p ≤ first.index.count p) := by
  have hbound : ∀ p,
      countsGet mm.removed_first_result p ≤ first.index.count p := by
    intro p
    have h := mergeInputLoop_counts first.settings.project_input
      (renameDag first.next_id second0).nodes
      (renameDag first.next_id second0).inputs
      (buildFirstResult first.nodes first.index) {} mm rest hloop p
    rw [queuesCount_buildFirstResult] at h
    simpa [countsGet] using h
  obtain ⟨hsub, hcnt⟩ :=
    removeConsumed_spec first.index mm.removed_first_result hbound
  obtain ⟨combined, hok, hidx⟩ :=
    mergeCombine_ok_index first second0 mm rest hproj hloop
  exact ⟨combined, (removeConsumed first.index mm.removed_first_result).1,
    hok, by rw [hidx, prependAll_eq], hsub, hcnt, hbound⟩

/-- Witness first DAG: inputs a; index exposes a, b, a (a twice). -/
def c3first : ActionsDAG :=
  { nodes := [(0, { type := .INPUT, result_name := "a", result_type := .int }),
              (1, { type := .COLUMN, result_name := "b", result_type := .int,
                    column := some (.const (.int 5) 1) })]
    next_id := 2, inputs := [0], index := [0, 1, 0] }

/-- Witness second DAG: one input a, exposed. -/
def c3second : ActionsDAG :=
  { nodes := [(0, { type := .INPUT, result_name := "a", result_type := .int })]
    next_id := 1, inputs := [0], index := [0] }

/-- Witness for merge_index_reconciliation: second's input a consumes the
first of the two exposed a outputs; the merged index is second's rewritten
index [0] followed by the survivors [1, 0] of first's index [0, 1, 0]. -/
theorem merge_index_reconciliation_witness :
    ∃ combined survivors,
      ActionsDAG.mergeCombine c3first c3second = .ok combined
      ∧ combined.index
          = rewriteSecondIndex (renameDag c3first.next_id c3second).nodes
              (MergeMatch.mk [(2, 0)] [(0, 1)] []).inputs_map
              (renameDag c3first.next_id c3second).index
            ++ survivors
      ∧ survivors.Sublist c3first.index
      ∧ (∀ p, survivors.count p
            + countsGet (MergeMatch.mk [(2, 0)] [(0, 1)] []).removed_first_result
                p
          = c3first.index.count p)
      ∧ (∀ p, countsGet
            (MergeMatch.mk [(2, 0)] [(0, 1)] []).removed_first_result p
          ≤ c3first.index.count p) :=
  merge_index_reconciliation c3first c3second rfl
    (MergeMatch.mk [(2, 0)] [(0, 1)] []) [("a", [0]), ("b", [1])] rfl

/-! ### Split: preservation of index names and types in second -/

theorem findNode_append_of_some {store : List (Nat × Node)}
    (l' : List (Nat × Node)) {id : Nat} {nd : Node}
    (h : findNode store id = some nd) :
    findNode (store ++ l') id = some nd := by
  induction store with
  | nil => simp [findNode] at h
  | cons p rest ih =>
    rcases p with ⟨i, m⟩
    rw [findNode_cons] at h
    rw [List.cons_append, findNode_cons]
    by_cases hi : i = id
    · rwa [if_pos hi] at h ⊢
    · rw [if_neg hi] at h ⊢
      exact ih h

theorem lookupMap_append_left {l : List (Nat × Nat)} (l' : List (Nat × Nat))
    {c v : Nat} (h : lookupMap l c = some v) :
    lookupMap (l ++ l') c = some v := by
  induction l with
  | nil => simp [lookupMap] at h
  | cons p rest ih =>
    rcases p with ⟨k, w⟩
    rw [lookupMap] at h
    rw [List.cons_append, lookupMap]
    by_cases hk : k = c
    · rwa [if_pos hk] at h ⊢
    · rw [if_neg hk] at h ⊢
      exact ih h

theorem lookupMap_append_right {l : List (Nat × Nat)} {c : Nat}
    (h : lookupMap l c = none) (l' : List (Nat × Nat)) :
    lookupMap (l ++ l') c = lookupMap l' c := by
  induction l with
  | nil => rfl
  | cons p rest ih =>
    rcases p with ⟨k, w⟩
    rw [lookupMap] at h
    rw [List.cons_append, lookupMap]
    by_cases hk : k = c
    · rw [if_pos hk] at h; cases h
    · rw [if_neg hk] at h ⊢
      exact ih h

theorem lookupMap_append_self_isSome (l : List (Nat × Nat)) (c v : Nat) :
    (lookupMap (l ++ [(c, v)]) c).isSome = true := by
  cases h : lookupMap l c with
  | none => rw [lookupMap_append_right h]; simp [lookupMap]
  | some w => rw [lookupMap_append_left _ h]; rfl

theorem lookupMap_mem {l : List (Nat × Nat)} {c v : Nat}
    (h : lookupMap l c = some v) : (c, v) ∈ l := by
  induction l with
  | nil => simp [lookupMap] at h
  | cons p rest ih =>
    rcases p with ⟨k, w⟩
    rw [lookupMap] at h
    by_cases hk : k = c
    · rw [if_pos hk] at h
      cases h
      exact hk ▸ List.mem_cons_self _ _
    · rw [if_neg hk] at h
      exact List.mem_cons_of_mem _ (ih h)

/-- Invariant of the second half under construction: keys are below the fresh
counter, and every original-to-copy entry points at a stored node carrying the
original node's result name and type. -/
def SecondInv (orig snodes : List (Nat × Node)) (ns : Nat)
    (ts : List (Nat × Nat)) : Prop :=
  (∀ q ∈ snodes, q.1 < ns)
  ∧ ∀ cs ∈ ts, ∃ m, findNode snodes cs.2 = some m
      ∧ m.result_name = (getNodeD orig cs.1).result_name
      ∧ m.result_type = (getNodeD orig cs.1).result_type

theorem secondInv_extend {orig snodes : List (Nat × Node)} {ns : Nat}
    {ts : List (Nat × Nat)} (inv : SecondInv orig snodes ns ts) (c : Nat)
    (newNode : Node)
    (hname : newNode.result_name = (getNodeD orig c).result_name)
    (htype : newNode.result_type = (getNodeD orig c).result_type) :
    SecondInv orig (snodes ++ [(ns, newNode)]) (ns + 1) (ts ++ [(c, ns)]) := by
  constructor
  · intro q hq
    rcases List.mem_append.mp hq with h | h
    · exact Nat.lt_succ_of_lt (inv.1 q h)
    · simp at h
      rw [h]
      exact Nat.lt_succ_self _
  · intro cs hcs
    rcases List.mem_append.mp hcs with h | h
    · obtain ⟨m, hm, hn, ht⟩ := inv.2 cs h
      exact ⟨m, findNode_append_of_some _ hm, hn, ht⟩
    · simp at h
      rw [h]
      exact ⟨newNode,
        findNode_append_fresh _ _ _ fun p hp => Nat.ne_of_lt (inv.1 p hp),
        hname, htype⟩

theorem splitMapChildSecond_inv (orig : List (Nat × Node)) (st : SplitState)
    (c : Nat)
    (inv : SecondInv orig st.second_nodes st.next_second st.to_second) :
    SecondInv orig (splitMapChildSecond orig st c).1.second_nodes
      (splitMapChildSecond orig st c).1.next_second
      (splitMapChildSecond orig st c).1.to_second
    ∧ (∀ x v, lookupMap st.to_second x = some v →
        lookupMap (splitMapChildSecond orig st c).1.to_second x = some v)
    ∧ (∀ s m, findNode st.second_nodes s = some m →
        findNode (splitMapChildSecond orig st c).1.second_nodes s = some m) := by
  cases hl : lookupMap st.to_second c with
  | some s =>
    simp only [splitMapChildSecond, hl]
    exact ⟨inv, fun x v h => h, fun s m h => h⟩
  | none =>
    by_cases ht : (getNodeD orig c).type = .COLUMN
    · simp only [splitMapChildSecond, hl, if_pos ht]
      exact ⟨secondInv_extend inv c (getNodeD orig c) rfl rfl,
        fun x v h => lookupMap_append_left _ h,
        fun s m h => findNode_append_of_some _ h⟩
    · simp only [splitMapChildSecond, hl, if_neg ht]
      exact ⟨secondInv_extend inv c
          { type := .INPUT
            result_name := (getNodeD orig c).result_name
            result_type := (getNodeD orig c).result_type } rfl rfl,
        fun x v h => lookupMap_append_left _ h,
        fun s m h => findNode_append_of_some _ h⟩

theorem splitMapChildrenSecond_inv (orig : List (Nat × Node)) :
    ∀ (cs : List Nat) (st : SplitState),
      SecondInv orig st.second_nodes st.next_second st.to_second →
      SecondInv orig (splitMapChildrenSecond orig st cs).1.second_nodes
        (splitMapChildrenSecond orig st cs).1.next_second
        (splitMapChildrenSecond orig st cs).1.to_second
      ∧ (∀ x v, lookupMap st.to_second x = some v →
          lookupMap (splitMapChildrenSecond orig st cs).1.to_second x = some v)
      ∧ (∀ s m, findNode st.second_nodes s = some m →
          findNode (splitMapChildrenSecond orig st cs).1.second_nodes s
            = some m) := by
  intro cs
  induction cs with
  | nil =>
    intro st inv
    exact ⟨inv, fun x v h => h, fun s m h => h⟩
  | cons c rest ih =>
    intro st inv
    obtain ⟨inv1, hpres1, hfind1⟩ := splitMapChildSecond_inv orig st c inv
    obtain ⟨inv2, hpres2, hfind2⟩ := ih (splitMapChildSecond orig st c).1 inv1
    have heq : (splitMapChildrenSecond orig st (c :: rest)).1
        = (splitMapChildrenSecond orig (splitMapChildSecond orig st c).1
            rest).1 := rfl
    rw [heq]
    exact ⟨inv2, fun x v h => hpres2 x v (hpres1 x v h),
      fun s m h => hfind2 s m (hfind1 s m h)⟩

theorem splitStep_inv (orig : List (Nat × Node)) (indexList needed : List Nat)
    (st : SplitState) (p : Nat × Node)
    (hp : findNode orig p.1 = some p.2)
    (inv : SecondInv orig st.second_nodes st.next_second st.to_second) :
    SecondInv orig (splitStep orig indexList needed st p).second_nodes
      (splitStep orig indexList needed st p).next_second
      (splitStep orig indexList needed st p).to_second
    ∧ (∀ x v, lookupMap st.to_second x = some v →
        lookupMap (splitStep orig indexList needed st p).to_second x = some v)
    ∧ (indexList.contains p.1 = true →
        (lookupMap (splitStep orig indexList needed st p).to_second p.1).isSome
          = true) := by
  have hgp : getNodeD orig p.1 = p.2 := by rw [getNodeD, hp]; rfl
  by_cases hn : needed.contains p.1 = true
  · by_cases hic : indexList.contains p.1 = true
    · have hstep : splitStep orig indexList needed st p
          = { st with
              first_nodes := st.first_nodes ++
                [(st.next_first, { p.2 with
                   children := p.2.children.map fun c =>
                     (lookupMap st.to_first c).getD 0 })]
              next_first := st.next_first + 1
              to_first := st.to_first ++ [(p.1, st.next_first)]
              second_nodes := st.second_nodes ++
                [(st.next_second,
                  { type := .INPUT
                    result_name := p.2.result_name
                    result_type := p.2.result_type })]
              next_second := st.next_second + 1
              to_second := st.to_second ++ [(p.1, st.next_second)]
              new_inputs := st.new_inputs ++ [p.1] } := by
        simp only [splitStep]
        rw [if_pos hn, if_pos hic]
      rw [hstep]
      refine ⟨?_, ?_, ?_⟩
      · exact secondInv_extend inv p.1
          { type := .INPUT
            result_name := p.2.result_name
            result_type := p.2.result_type }
          (by rw [hgp]) (by rw [hgp])
      · exact fun x v h => lookupMap_append_left _ h
      · exact fun _ => lookupMap_append_self_isSome _ _ _
    · have hstep : splitStep orig indexList needed st p
          = { st with
              first_nodes := st.first_nodes ++
                [(st.next_first, { p.2 with
                   children := p.2.children.map fun c =>
                     (lookupMap st.to_first c).getD 0 })]
              next_first := st.next_first + 1
              to_first := st.to_first ++ [(p.1, st.next_first)] } := by
        simp only [splitStep]
        rw [if_pos hn, if_neg hic]
      rw [hstep]
      exact ⟨inv, fun x v h => h, fun h => absurd h hic⟩
  · have hstep : splitStep orig indexList needed st p
        = (let st1 : SplitState :=
            { st with
              second_nodes := st.second_nodes ++ [(st.next_second, p.2)]
              next_second := st.next_second + 1
              to_second := st.to_second ++ [(p.1, st.next_second)] }
           let mc := splitMapChildrenSecond orig st1 p.2.children
           let st3 : SplitState :=
            { mc.1 with
              second_nodes := updateNode mc.1.second_nodes st.next_second
                { p.2 with children := mc.2 } }
           if p.2.type = .INPUT then
             { st3 with
               first_nodes := st3.first_nodes ++ [(st3.next_first, p.2)]
               next_first := st3.next_first + 1
               to_first := st3.to_first ++ [(p.1, st3.next_first)]
               new_inputs := st3.new_inputs ++ [p.1] }
           else st3) := by
      simp only [splitStep]
      rw [if_neg hn]
    rw [hstep]
    simp only []
    have inv1 : SecondInv orig
        (st.second_nodes ++ [(st.next_second, p.2)]) (st.next_second + 1)
        (st.to_second ++ [(p.1, st.next_second)]) :=
      secondInv_extend inv p.1 p.2 (by rw [hgp]) (by rw [hgp])
    obtain ⟨inv2, hpres2, hfind2⟩ :=
      splitMapChildrenSecond_inv orig p.2.children
        { st with
          second_nodes := st.second_nodes ++ [(st.next_second, p.2)]
          next_second := st.next_second + 1
          to_second := st.to_second ++ [(p.1, st.next_second)] } inv1
    have hcopy : findNode (splitMapChildrenSecond orig
        { st with
          second_nodes := st.second_nodes ++ [(st.next_second, p.2)]
          next_second := st.next_second + 1
          to_second := st.to_second ++ [(p.1, st.next_second)] }
        p.2.children).1.second_nodes st.next_second = some p.2 :=
      hfind2 _ _ (findNode_append_fresh _ _ _
        fun q hq => Nat.ne_of_lt (inv.1 q hq))
    set mcA := splitMapChildrenSecond orig
        { st with
          second_nodes := st.second_nodes ++ [(st.next_second, p.2)]
          next_second := st.next_second + 1
          to_second := st.to_second ++ [(p.1, st.next_second)] }
        p.2.children with hmc
    have hupInv : SecondInv orig
        (updateNode mcA.1.second_nodes st.next_second
          { p.2 with children := mcA.2 })
        mcA.1.next_second mcA.1.to_second := by
      constructor
      · intro q hq
        obtain ⟨q0, hq0, hfq⟩ := List.mem_map.mp hq
        have hq1 : q.1 = q0.1 := by
          by_cases h : q0.1 = st.next_second
          · rw [← hfq]; simp [h]
          · rw [← hfq]; simp [h]
        rw [hq1]
        exact inv2.1 q0 hq0
      · intro cs hcs
        obtain ⟨m, hm, hnm, htm⟩ := inv2.2 cs hcs
        by_cases hcid : cs.2 = st.next_second
        · rw [hcid] at hm ⊢
          have hmp : m = p.2 := by
            have := hm.symm.trans hcopy
            exact Option.some.inj this
          refine ⟨{ p.2 with children := mcA.2 }, ?_, ?_, ?_⟩
          · rw [findNode_updateNode_self, hm]; rfl
          · show p.2.result_name = _
            rw [← hmp]; exact hnm
          · show p.2.result_type = _
            rw [← hmp]; exact htm
        · exact ⟨m, by rw [findNode_updateNode_ne _ _ _ _ hcid]; exact hm,
            hnm, htm⟩
    have hpresA : ∀ x v, lookupMap st.to_second x = some v →
        lookupMap mcA.1.to_second x = some v :=
      fun x v h => hpres2 x v (lookupMap_append_left _ h)
    have hsomeA : (lookupMap mcA.1.to_second p.1).isSome = true := by
      have h1 : (lookupMap (st.to_second ++ [(p.1, st.next_second)])
          p.1).isSome = true := lookupMap_append_self_isSome _ _ _
      obtain ⟨v, hv⟩ := Option.isSome_iff_exists.mp h1
      rw [hpres2 p.1 v hv]
      rfl
    by_cases hti : p.2.type = .INPUT
    · rw [if_pos hti]
      exact ⟨hupInv, hpresA, fun _ => hsomeA⟩
    · rw [if_neg hti]
      exact ⟨hupInv, hpresA, fun _ => hsomeA⟩

theorem splitFold_inv (orig : List (Nat × Node)) (indexList needed : List Nat)
    (hnodup : (orig.map Prod.fst).Nodup) :
    ∀ (todo : List (Nat × Node)) (st : SplitState),
      (∀ q ∈ todo, q ∈ orig) →
      SecondInv orig st.second_nodes st.next_second st.to_second →
      SecondInv orig
        (todo.foldl (splitStep orig indexList needed) st).second_nodes
        (todo.foldl (splitStep orig indexList needed) st).next_second
        (todo.foldl (splitStep orig indexList needed) st).to_second
      ∧ (∀ x v, lookupMap st.to_second x = some v →
          lookupMap (todo.foldl (splitStep orig indexList needed) st).to_second
            x = some v)
      ∧ (∀ q ∈ todo, indexList.contains q.1 = true →
          (lookupMap
            (todo.foldl (splitStep orig indexList needed) st).to_second
            q.1).isSome = true) := by
  intro todo
  induction todo with
  | nil =>
    intro st _ inv
    exact ⟨inv, fun x v h => h, fun q hq => absurd hq (by simp)⟩
  | cons q rest ih =>
    intro st hmem inv
    have hq : q ∈ orig := hmem q (List.mem_cons_self _ _)
    have hp : findNode orig q.1 = some q.2 := by
      have : (q.1, q.2) ∈ orig := by simpa using hq
      exact findNode_of_mem_nodup hnodup this
    obtain ⟨inv', hpres', hsome'⟩ :=
      splitStep_inv orig indexList needed st q hp inv
    obtain ⟨invF, hpresF, hsomeF⟩ :=
      ih (splitStep orig indexList needed st q)
        (fun r hr => hmem r (List.mem_cons_of_mem _ hr)) inv'
    rw [List.foldl_cons]
    refine ⟨invF, fun x v h => hpresF x v (hpres' x v h), ?_⟩
    intro r hr hric
    rcases List.mem_cons.mp hr with h | h
    · subst h
      obtain ⟨v, hv⟩ := Option.isSome_iff_exists.mp (hsome' hric)
      rw [hpresF r.1 v hv]
      rfl
    · exact hsomeF r h hric

/-- C1: for every node of the original index, second's index holds in the
corresponding position a node of second carrying the same result_name and
result_type (boundary nodes become INPUTs with the original node's name and
type, other nodes are copied with name and type intact). -/
theorem split_second_index_preserved (dag : ActionsDAG)
    (split_nodes : List Nat)
    (hnodup : (dag.nodes.map Prod.fst).Nodup)
    (hidx : ∀ id ∈ dag.index, (findNode dag.nodes id).isSome = true) :
    (dag.split split_nodes).2.index.length = dag.index.length
    ∧ ∀ i, i < dag.index.length →
      ∃ m, findNode (dag.split split_nodes).2.nodes
            ((dag.split split_nodes).2.index.getD i 0) = some m
        ∧ m.result_name = (getNodeD dag.nodes (dag.index.getD i 0)).result_name
        ∧ m.result_type
            = (getNodeD dag.nodes (dag.index.getD i 0)).result_type := by
  have hsecnodes : (dag.split split_nodes).2.nodes
      = (splitCore dag split_nodes).second_nodes := rfl
  have hsecindex : (dag.split split_nodes).2.index
      = dag.index.map
          (fun id => (lookupMap (splitCore dag split_nodes).to_second
            id).getD 0) := rfl
  obtain ⟨invF, _, hsomeF⟩ := splitFold_inv dag.nodes dag.index
    (neededBySplit dag.nodes split_nodes) hnodup dag.nodes {}
    (fun q hq => hq) ⟨by simp, by simp [SecondInv]⟩
  refine ⟨by rw [hsecindex]; exact List.length_map _ _, ?_⟩
  intro i hi
  have hgetd : dag.index.getD i 0 = dag.index[i] := List.getD_eq_getElem _ _ hi
  have hmemid : dag.index[i] ∈ dag.index := List.getElem_mem hi
  obtain ⟨nd, hnd⟩ := Option.isSome_iff_exists.mp (hidx _ hmemid)
  have hqmem : (dag.index[i], nd) ∈ dag.nodes := mem_of_findNode hnd
  have hcontains : dag.index.contains dag.index[i] = true :=
    contains_iff.mpr hmemid
  have hsome := hsomeF (dag.index[i], nd) hqmem hcontains
  obtain ⟨sid, hsid⟩ := Option.isSome_iff_exists.mp hsome
  have hts : (dag.index[i], sid)
      ∈ (splitCore dag split_nodes).to_second := lookupMap_mem hsid
  obtain ⟨m, hm, hnm, htm⟩ := invF.2 _ hts
  have hentry : (dag.split split_nodes).2.index.getD i 0 = sid := by
    rw [hsecindex]
    have hlen : i < (dag.index.map
        (fun id => (lookupMap (splitCore dag split_nodes).to_second
          id).getD 0)).length := by
      rw [List.length_map]; exact hi
    rw [List.getD_eq_getElem _ _ hlen, List.getElem_map]
    show (lookupMap
        (dag.nodes.foldl
          (splitStep dag.nodes dag.index
            (neededBySplit dag.nodes split_nodes)) {}).to_second
        dag.index[i]).getD 0 = sid
    rw [hsid]
    rfl
  rw [hentry, hsecnodes, hgetd]
  have hmF : findNode (splitCore dag split_nodes).second_nodes sid
      = some m := hm
  exact ⟨m, hmF, hnm, htm⟩

/-- Witness DAG for the split theorems: INPUT a feeding FUNCTION f, f
exposed; split along the INPUT. -/
def c1dag : ActionsDAG :=
  { nodes := [(0, { type := .INPUT, result_name := "a", result_type := .int }),
              (1, { type := .FUNCTION, result_name := "f(a)",
                    result_type := .int, children := [0],
                    function_base := some { name := "f" } })]
    next_id := 2, inputs := [0], index := [1] }

/-- Witness for split_second_index_preserved on c1dag split at the INPUT:
second's index exposes a node named f(a) of type int, as the original did. -/
theorem split_second_index_preserved_witness :
    (c1dag.split [0]).2.index.length = c1dag.index.length
    ∧ ∀ i, i < c1dag.index.length →
      ∃ m, findNode (c1dag.split [0]).2.nodes
            ((c1dag.split [0]).2.index.getD i 0) = some m
        ∧ m.result_name
            = (getNodeD c1dag.nodes (c1dag.index.getD i 0)).result_name
        ∧ m.result_type
            = (getNodeD c1dag.nodes (c1dag.index.getD i 0)).result_type :=
  split_second_index_preserved c1dag [0] (by decide) (by decide)

/-! ### Split-merge round trip -/

/-- Round-trip counterexample DAG: constant COLUMN c feeding two FUNCTION
nodes g and f, both exposed. -/
def c2dag : ActionsDAG :=
  { nodes := [(0, { type := .COLUMN, result_name := "c", result_type := .int,
                    column := some (.const (.int 7) 1) }),
              (1, { type := .FUNCTION, result_name := "g(c)",
                    result_type := .int, children := [0],
                    function_base := some { name := "g" } }),
              (2, { type := .FUNCTION, result_name := "f(c)",
                    result_type := .int, children := [0],
                    function_base := some { name := "f" } })]
    next_id := 3, inputs := [], index := [1, 2] }

/-- Value of mergeCombine on the two halves of c2dag split at node 1: the
COLUMN child was duplicated into the second half by split. -/
def c2combined : ActionsDAG :=
  { nodes := [(0, { type := .COLUMN, result_name := "c", result_type := .int,
                    column := some (.const (.int 7) 1) }),
              (1, { type := .FUNCTION, result_name := "g(c)",
                    result_type := .int, children := [0],
                    function_base := some { name := "g" } }),
              (2, { type := .INPUT, result_name := "g(c)",
                    result_type := .int }),
              (3, { type := .FUNCTION, result_name := "f(c)",
                    result_type := .int, children := [4],
                    function_base := some { name := "f" } }),
              (4, { type := .COLUMN, result_name := "c", result_type := .int,
                    column := some (.const (.int 7) 1) })]
    next_id := 5, inputs := [], index := [1, 3] }

/-- The merged DAG after the final prune: both copies of the COLUMN c
survive. -/
def c2merged : ActionsDAG :=
  { nodes := [(0, { type := .COLUMN, result_name := "c", result_type := .int,
                    column := some (.const (.int 7) 1) }),
              (1, { type := .FUNCTION, result_name := "g(c)",
                    result_type := .int, children := [0],
                    function_base := some { name := "g" } }),
              (3, { type := .FUNCTION, result_name := "f(c)",
                    result_type := .int, children := [4],
                    function_base := some { name := "f" } }),
              (4, { type := .COLUMN, result_name := "c", result_type := .int,
                    function_base := none,
                    column := some (.const (.int 7) 1) })]
    next_id := 5, inputs := [], index := [1, 3] }

/-- C2, refuted part: merging the halves of c2dag.split [1] succeeds and is
observationally equivalent (same result-column names and types in order), but
the merged DAG holds 4 nodes while c2dag — already fully pruned, with 3
nodes — cannot be renumbered onto it: split duplicated the COLUMN child, so
the dump does not agree modulo node renumbering, not even modulo pruning. -/
theorem split_merge_dump_counterexample :
    (∃ merged,
      ActionsDAG.merge (c2dag.split [1]).1 (c2dag.split [1]).2 = .ok merged
      ∧ merged.nodes.length = 4
      ∧ merged.getResultColumns.map (fun c => (c.name, c.type))
          = c2dag.getResultColumns.map fun c => (c.name, c.type))
    ∧ c2dag.nodes.length = 3
    ∧ c2dag.removeUnusedActions.nodes.length = 3 := by
  have hcomb : ActionsDAG.mergeCombine (c2dag.split [1]).1 (c2dag.split [1]).2
      = .ok c2combined := rfl
  have hloop2 : pruneLoop c2combined.nodes [1, 3] [3, 1]
      = (c2combined.nodes, [1, 3, 4, 0]) := by
    rw [pruneLoop, if_neg (by decide)]
    show pruneLoop c2combined.nodes [1, 3, 4] [4, 1] = _
    rw [pruneLoop, if_neg (by decide)]
    show pruneLoop c2combined.nodes [1, 3, 4] [1] = _
    rw [pruneLoop, if_neg (by decide)]
    show pruneLoop c2combined.nodes [1, 3, 4, 0] [0] = _
    rw [pruneLoop, if_neg (by decide)]
    show pruneLoop c2combined.nodes [1, 3, 4, 0] [] = _
    rw [pruneLoop]
  have hm : c2combined.removeUnusedActions = c2merged := by
    show ({ c2combined with
        nodes := (pruneLoop c2combined.nodes [1, 3] [3, 1]).1.filter
          fun p => (pruneLoop c2combined.nodes [1, 3] [3, 1]).2.contains p.1
        inputs := c2combined.inputs.filter
          fun id => (pruneLoop c2combined.nodes [1, 3] [3, 1]).2.contains id }
      : ActionsDAG) = c2merged
    rw [hloop2]
    rfl
  have hloopO : pruneLoop c2dag.nodes [1, 2] [2, 1]
      = (c2dag.nodes, [1, 2, 0]) := by
    rw [pruneLoop, if_neg (by decide)]
    show pruneLoop c2dag.nodes [1, 2, 0] [0, 1] = _
    rw [pruneLoop, if_neg (by decide)]
    show pruneLoop c2dag.nodes [1, 2, 0] [1] = _
    rw [pruneLoop, if_neg (by decide)]
    show pruneLoop c2dag.nodes [1, 2, 0] [] = _
    rw [pruneLoop]
  have hpruneO : c2dag.removeUnusedActions.nodes.length = 3 := by
    show (((pruneLoop c2dag.nodes [1, 2] [2, 1]).1.filter
      fun p => (pruneLoop c2dag.nodes [1, 2] [2, 1]).2.contains p.1).length) = 3
    rw [hloopO]
    rfl
  refine ⟨⟨c2combined.removeUnusedActions, ?_, ?_, ?_⟩, rfl, hpruneO⟩
  · show (ActionsDAG.mergeCombine (c2dag.split [1]).1 (c2dag.split [1]).2).bind
      (fun combined => .ok combined.removeUnusedActions) = _
    rw [hcomb]
    rfl
  · rw [hm]; rfl
  · rw [hm]; rfl

theorem findNode_append_right {l : List (Nat × Node)}
    (l' : List (Nat × Node)) {id : Nat} (h : ∀ p ∈ l, p.1 ≠ id) :
    findNode (l ++ l') id = findNode l' id := by
  induction l with
  | nil => rfl
  | cons p rest ih =>
    rcases p with ⟨i, m⟩
    rw [List.cons_append, findNode_cons,
      if_neg (h (i, m) (List.mem_cons_self _ _))]
    exact ih fun q hq => h q (List.mem_cons_of_mem _ hq)

theorem findNode_map_rename (store : List (Nat × Node)) (off id : Nat) :
    findNode (store.map fun p => (p.1 + off, renameNode off p.2)) (id + off)
      = (findNode store id).map (renameNode off) := by
  induction store with
  | nil => rfl
  | cons p rest ih =>
    rcases p with ⟨i, m⟩
    rw [List.map_cons, findNode_cons, findNode_cons]
    by_cases hi : i = id
    · subst hi
      rw [if_pos rfl, if_pos rfl]
      rfl
    · rw [if_neg (fun h => hi (Nat.add_right_cancel h)), if_neg hi]
      exact ih

theorem findNode_map_snd (g : Node → Node) (s : List (Nat × Node)) (id : Nat) :
    findNode (s.map fun p => (p.1, g p.2)) id = (findNode s id).map g := by
  induction s with
  | nil => rfl
  | cons p rest ih =>
    rcases p with ⟨i, m⟩
    rw [List.map_cons, findNode_cons, findNode_cons]
    by_cases hi : i = id
    · rw [if_pos hi, if_pos hi]; rfl
    · rw [if_neg hi, if_neg hi]; exact ih

theorem findNode_rewriteSecondChildren (s : List (Nat × Node))
    (imap : List (Nat × Nat)) (id : Nat) :
    findNode (rewriteSecondChildren s imap) id
      = (findNode s id).map fun nd =>
          { nd with
            children := nd.children.map fun c =>
              if (getNodeD s c).type = .INPUT then (lookupMap imap c).getD c
              else c } :=
  findNode_map_snd
    (fun nd =>
      { nd with
        children := nd.children.map fun c =>
          if (getNodeD s c).type = .INPUT then (lookupMap imap c).getD c
          else c }) s id

theorem foldIfNode_name_type (nd : Node) :
    (foldIfNode nd).result_name = nd.result_name
    ∧ (foldIfNode nd).result_type = nd.result_type := by
  unfold foldIfNode
  by_cases h : foldCond nd = true
  · rw [if_pos h]; exact ⟨rfl, rfl⟩
  · rw [if_neg h]; exact ⟨rfl, rfl⟩

theorem findNode_prune_formula (store : List (Nat × Node)) (V : List Nat)
    (id : Nat) (hid : V.contains id = true) :
    findNode ((store.map fun p =>
        if V.contains p.1 then (p.1, foldIfNode p.2) else p).filter
      fun p => V.contains p.1) id
      = (findNode store id).map foldIfNode := by
  induction store with
  | nil => rfl
  | cons p rest ih =>
    rcases p with ⟨i, m⟩
    rw [List.map_cons, findNode_cons]
    by_cases hi : i = id
    · subst hi
      rw [if_pos hid, if_pos rfl]
      rw [show List.filter (fun p => V.contains p.1)
          ((i, foldIfNode m) ::
            (rest.map fun p =>
              if V.contains p.1 then (p.1, foldIfNode p.2) else p))
        = (i, foldIfNode m) ::
            (rest.map fun p =>
              if V.contains p.1 then (p.1, foldIfNode p.2) else p).filter
              (fun p => V.contains p.1) from by
        rw [List.filter_cons, if_pos (by simpa using hid)]]
      rw [findNode_cons, if_pos rfl]
      rfl
    · rw [if_neg hi]
      by_cases hv : V.contains i = true
      · rw [if_pos hv]
        rw [show List.filter (fun p => V.contains p.1)
            ((i, foldIfNode m) ::
              (rest.map fun p =>
                if V.contains p.1 then (p.1, foldIfNode p.2) else p))
          = (i, foldIfNode m) ::
              (rest.map fun p =>
                if V.contains p.1 then (p.1, foldIfNode p.2) else p).filter
                (fun p => V.contains p.1) from by
          rw [List.filter_cons, if_pos (by simpa using hv)]]
        rw [findNode_cons, if_neg hi]
        exact ih
      · rw [if_neg hv]
        rw [show List.filter (fun p => V.contains p.1)
            ((i, m) ::
              (rest.map fun p =>
                if V.contains p.1 then (p.1, foldIfNode p.2) else p))
          = (rest.map fun p =>
              if V.contains p.1 then (p.1, foldIfNode p.2) else p).filter
              (fun p => V.contains p.1) from by
          rw [List.filter_cons, if_neg (by simpa using hv)]]
        exact ih

theorem eq_nil_of_count_eq_zero {l : List Nat} (h : ∀ p, l.count p = 0) :
    l = [] := by
  cases l with
  | nil => rfl
  | cons a t =>
    have := h a
    rw [count_cons_ite, if_pos rfl] at this
    omega

theorem queuesGet_foldAdd (f : Nat → String) (idx : List Nat) :
    ∀ (m0 : List (String × List Nat)) (n : String),
      queuesGet (idx.foldl (fun m id => queuesAdd m (f id) id) m0) n
        = queuesGet m0 n ++ idx.filter fun id => f id = n := by
  induction idx with
  | nil => intro m0 n; simp
  | cons id rest ih =>
    intro m0 n
    rw [List.foldl_cons, ih, queuesGet_queuesAdd, List.filter_cons]
    by_cases h : f id = n
    · rw [if_pos h, if_pos (by simpa using h)]
      simp
    · rw [if_neg h, if_neg (by simpa using h)]

theorem queuesGet_buildFirstResult (store : List (Nat × Node))
    (idx : List Nat) (n : String) :
    queuesGet (buildFirstResult store idx) n
      = idx.filter fun id => entryName store id = n := by
  have := queuesGet_foldAdd (entryName store) idx [] n
  simpa [buildFirstResult] using this

theorem mergeInputLoop_pairing (sStore fStore : List (Nat × Node)) :
    ∀ (sIns fRem : List Nat) (Q : List (String × List Nat)) (acc : MergeMatch),
      sIns.length = fRem.length →
      (∀ k, k < sIns.length →
        entryName sStore (sIns.getD k 0) = entryName fStore (fRem.getD k 0)) →
      (∀ n, queuesGet Q n = fRem.filter fun id => entryName fStore id = n) →
      ∃ restQ counts,
        mergeInputLoop false sStore sIns Q acc
          = .ok ({ acc with
                   inputs_map := acc.inputs_map ++ sIns.zip fRem
                   removed_first_result := counts }, restQ)
        ∧ ∀ p, countsGet counts p
            = countsGet acc.removed_first_result p + fRem.count p := by
  intro sIns
  induction sIns with
  | nil =>
    intro fRem Q acc hlen _ _
    have hf : fRem = [] := List.eq_nil_of_length_eq_zero hlen.symm
    subst hf
    exact ⟨Q, acc.removed_first_result, by simp [mergeInputLoop], by simp⟩
  | cons s0 sRest ih =>
    intro fRem Q acc hlen hnames hq
    cases fRem with
    | nil => simp at hlen
    | cons f0 fRest =>
      have hn0 : entryName sStore s0 = entryName fStore f0 := by
        have := hnames 0 (by simp)
        simpa using this
      have hq0 : queuesGet Q (entryName sStore s0) = f0 :: List.filter
          (fun id => entryName fStore id = entryName sStore s0) fRest := by
        rw [hq, List.filter_cons, if_pos (by simpa using hn0.symm)]
      have hq' : ∀ n, queuesGet (queuesPop Q (entryName sStore s0)) n
          = fRest.filter fun id => entryName fStore id = n := by
        intro n
        rw [queuesGet_queuesPop]
        by_cases h : entryName sStore s0 = n
        · rw [if_pos h, hq0]
          subst h
          rfl
        · rw [if_neg h, hq, List.filter_cons,
            if_neg (by simp; intro hc; exact h (hc ▸ hn0))]
      have hlen' : sRest.length = fRest.length := by simpa using hlen
      have hnames' : ∀ k, k < sRest.length →
          entryName sStore (sRest.getD k 0)
            = entryName fStore (fRest.getD k 0) := by
        intro k hk
        have := hnames (k + 1) (by simpa using hk)
        simpa using this
      obtain ⟨restQ, counts, hok, hcnt⟩ :=
        ih fRest (queuesPop Q (entryName sStore s0))
          { acc with
            inputs_map := acc.inputs_map ++ [(s0, f0)]
            removed_first_result := countsInc acc.removed_first_result f0 }
          hlen' hnames' hq'
      refine ⟨restQ, counts, ?_, ?_⟩
      · rw [mergeInputLoop, hq0]
        show mergeInputLoop false sStore sRest
            (queuesPop Q (entryName sStore s0))
            { acc with
              inputs_map := acc.inputs_map ++ [(s0, f0)]
              removed_first_result := countsInc acc.removed_first_result f0 }
          = _
        rw [hok]
        rw [show acc.inputs_map ++ [(s0, f0)] ++ sRest.zip fRest
            = acc.inputs_map ++ (s0 :: sRest).zip (f0 :: fRest) from by
          rw [List.zip_cons_cons, List.append_assoc]; rfl]
      · intro p
        rw [hcnt p]
        show countsGet (countsInc acc.removed_first_result f0) p
            + fRest.count p = _
        rw [countsGet_countsInc, count_cons_ite]
        omega

theorem lookupMap_zip_corr (fStore sStore : List (Nat × Node)) :
    ∀ (sIns fIdx : List Nat),
      sIns.length = fIdx.length →
      (∀ k, k < sIns.length →
        ∃ mf ms, findNode fStore (fIdx.getD k 0) = some mf
          ∧ findNode sStore (sIns.getD k 0) = some ms
          ∧ mf.result_name = ms.result_name
          ∧ mf.result_type = ms.result_type) →
      ∀ j v, lookupMap (sIns.zip fIdx) j = some v →
        ∃ mf ms, findNode fStore v = some mf ∧ findNode sStore j = some ms
          ∧ mf.result_name = ms.result_name
          ∧ mf.result_type = ms.result_type := by
  intro sIns
  induction sIns with
  | nil =>
    intro fIdx _ _ j v h
    simp [lookupMap] at h
  | cons s0 sRest ih =>
    intro fIdx hlen hcorr j v h
    cases fIdx with
    | nil => simp at hlen
    | cons f0 fRest =>
      rw [List.zip_cons_cons, lookupMap] at h
      by_cases hs : s0 = j
      · rw [if_pos hs] at h
        cases h
        obtain ⟨mf, ms, hmf, hms, hn, ht⟩ := hcorr 0 (by simp)
        exact ⟨mf, ms, by simpa using hmf, by rw [← hs]; simpa using hms,
          hn, ht⟩
      · rw [if_neg hs] at h
        refine ih fRest (by simpa using hlen) ?_ j v h
        intro k hk
        have := hcorr (k + 1) (by simpa using hk)
        simpa using this

theorem lookupMap_isSome_mono {l : List (Nat × Nat)} (l' : List (Nat × Nat))
    {c : Nat} (h : (lookupMap l c).isSome = true) :
    (lookupMap (l ++ l') c).isSome = true := by
  obtain ⟨v, hv⟩ := Option.isSome_iff_exists.mp h
  rw [lookupMap_append_left l' hv]
  rfl

theorem keys_nodup_append_fresh {l : List (Nat × Node)} {k : Nat} (nd : Node)
    (hnd : (l.map Prod.fst).Nodup) (hb : ∀ p ∈ l, p.1 < k) :
    ((l ++ [(k, nd)]).map Prod.fst).Nodup := by
  rw [List.map_append]
  refine List.Nodup.append hnd (by simp) ?_
  intro x hx hx'
  simp at hx'
  obtain ⟨p, hp, hpk⟩ := List.mem_map.mp hx
  exact absurd (hpk.trans hx') (Nat.ne_of_lt (hb _ hp))

theorem splitMapChildSecond_first (orig : List (Nat × Node)) (st : SplitState)
    (c : Nat) :
    (splitMapChildSecond orig st c).1.first_nodes = st.first_nodes
    ∧ (splitMapChildSecond orig st c).1.next_first = st.next_first
    ∧ (splitMapChildSecond orig st c).1.to_first = st.to_first := by
  cases hl : lookupMap st.to_second c with
  | some s =>
    simp only [splitMapChildSecond, hl]
    exact ⟨trivial, trivial, trivial⟩
  | none =>
    by_cases ht : (getNodeD orig c).type = .COLUMN
    · simp only [splitMapChildSecond, hl, if_pos ht]
      exact ⟨trivial, trivial, trivial⟩
    · simp only [splitMapChildSecond, hl, if_neg ht]
      exact ⟨trivial, trivial, trivial⟩

theorem splitMapChildrenSecond_first (orig : List (Nat × Node)) :
    ∀ (cs : List Nat) (st : SplitState),
      (splitMapChildrenSecond orig st cs).1.first_nodes = st.first_nodes
      ∧ (splitMapChildrenSecond orig st cs).1.next_first = st.next_first
      ∧ (splitMapChildrenSecond orig st cs).1.to_first = st.to_first := by
  intro cs
  induction cs with
  | nil => intro st; exact ⟨rfl, rfl, rfl⟩
  | cons c rest ih =>
    intro st
    have heq : (splitMapChildrenSecond orig st (c :: rest)).1
        = (splitMapChildrenSecond orig (splitMapChildSecond orig st c).1
            rest).1 := rfl
    rw [heq]
    obtain ⟨h1, h2, h3⟩ := splitMapChildSecond_first orig st c
    obtain ⟨h1', h2', h3'⟩ := ih (splitMapChildSecond orig st c).1
    exact ⟨h1'.trans h1, h2'.trans h2, h3'.trans h3⟩

theorem splitMapChildSecond_nodup (orig : List (Nat × Node)) (st : SplitState)
    (c : Nat)
    (inv : SecondInv orig st.second_nodes st.next_second st.to_second)
    (hnd : (st.second_nodes.map Prod.fst).Nodup) :
    ((splitMapChildSecond orig st c).1.second_nodes.map Prod.fst).Nodup := by
  cases hl : lookupMap st.to_second c with
  | some s =>
    simp only [splitMapChildSecond, hl]
    exact hnd
  | none =>
    by_cases ht : (getNodeD orig c).type = .COLUMN
    · simp only [splitMapChildSecond, hl, if_pos ht]
      exact keys_nodup_append_fresh _ hnd inv.1
    · simp only [splitMapChildSecond, hl, if_neg ht]
      exact keys_nodup_append_fresh _ hnd inv.1

theorem splitMapChildrenSecond_nodup (orig : List (Nat × Node)) :
    ∀ (cs : List Nat) (st : SplitState),
      SecondInv orig st.second_nodes st.next_second st.to_second →
      (st.second_nodes.map Prod.fst).Nodup →
      ((splitMapChildrenSecond orig st cs).1.second_nodes.map
        Prod.fst).Nodup := by
  intro cs
  induction cs with
  | nil => intro st _ hnd; exact hnd
  | cons c rest ih =>
    intro st inv hnd
    have heq : (splitMapChildrenSecond orig st (c :: rest)).1
        = (splitMapChildrenSecond orig (splitMapChildSecond orig st c).1
            rest).1 := rfl
    rw [heq]
    exact ih _ (splitMapChildSecond_inv orig st c inv).1
      (splitMapChildSecond_nodup orig st c inv hnd)

theorem splitMapChildSecond_newInputs (orig : List (Nat × Node))
    (st : SplitState) (c : Nat)
    (hN : ∀ u ∈ st.new_inputs, (lookupMap st.to_second u).isSome = true
      ∧ (lookupMap st.to_first u).isSome = true)
    (hc : (lookupMap st.to_second c).isSome = true
      ∨ (lookupMap st.to_first c).isSome = true) :
    ∀ u ∈ (splitMapChildSecond orig st c).1.new_inputs,
      (lookupMap (splitMapChildSecond orig st c).1.to_second u).isSome = true
      ∧ (lookupMap (splitMapChildSecond orig st c).1.to_first u).isSome
          = true := by
  cases hl : lookupMap st.to_second c with
  | some s =>
    simp only [splitMapChildSecond, hl]
    exact hN
  | none =>
    have hcf : (lookupMap st.to_first c).isSome = true := by
      rcases hc with h | h
      · rw [hl] at h; cases h
      · exact h
    by_cases ht : (getNodeD orig c).type = .COLUMN
    · simp only [splitMapChildSecond, hl, if_pos ht]
      intro u hu
      obtain ⟨h1, h2⟩ := hN u hu
      exact ⟨lookupMap_isSome_mono _ h1, h2⟩
    · simp only [splitMapChildSecond, hl, if_neg ht]
      intro u hu
      rcases List.mem_append.mp hu with h | h
      · obtain ⟨h1, h2⟩ := hN u h
        exact ⟨lookupMap_isSome_mono _ h1, h2⟩
      · simp at h
        subst h
        exact ⟨lookupMap_append_self_isSome _ _ _, hcf⟩

theorem splitMapChildrenSecond_newInputs (orig : List (Nat × Node)) :
    ∀ (cs : List Nat) (st : SplitState),
      SecondInv orig st.second_nodes st.next_second st.to_second →
      (∀ u ∈ st.new_inputs, (lookupMap st.to_second u).isSome = true
        ∧ (lookupMap st.to_first u).isSome = true) →
      (∀ c ∈ cs, (lookupMap st.to_second c).isSome = true
        ∨ (lookupMap st.to_first c).isSome = true) →
      ∀ u ∈ (splitMapChildrenSecond orig st cs).1.new_inputs,
        (lookupMap (splitMapChildrenSecond orig st cs).1.to_second u).isSome
          = true
        ∧ (lookupMap (splitMapChildrenSecond orig st cs).1.to_first u).isSome
          = true := by
  intro cs
  induction cs with
  | nil => intro st _ hN _; exact hN
  | cons c rest ih =>
    intro st inv hN hcs
    have heq : (splitMapChildrenSecond orig st (c :: rest)).1
        = (splitMapChildrenSecond orig (splitMapChildSecond orig st c).1
            rest).1 := rfl
    rw [heq]
    obtain ⟨inv1, hpres1, _⟩ := splitMapChildSecond_inv orig st c inv
    obtain ⟨_, _, htf1⟩ := splitMapChildSecond_first orig st c
    refine ih _ inv1
      (splitMapChildSecond_newInputs orig st c hN
        (hcs c (List.mem_cons_self _ _)))
      ?_
    intro c' hc'
    rcases hcs c' (List.mem_cons_of_mem _ hc') with h | h
    · left
      obtain ⟨v, hv⟩ := Option.isSome_iff_exists.mp h
      rw [hpres1 c' v hv]
      rfl
    · right
      rw [htf1]
      exact h

theorem splitStep_rest (orig : List (Nat × Node)) (indexList needed : List Nat)
    (st : SplitState) (p : Nat × Node)
    (hp : findNode orig p.1 = some p.2)
    (inv2 : SecondInv orig st.second_nodes st.next_second st.to_second)
    (invF : SecondInv orig st.first_nodes st.next_first st.to_first)
    (nd1 : (st.first_nodes.map Prod.fst).Nodup)
    (nd2 : (st.second_nodes.map Prod.fst).Nodup)
    (hN : ∀ u ∈ st.new_inputs, (lookupMap st.to_second u).isSome = true
      ∧ (lookupMap st.to_first u).isSome = true)
    (hchild : ∀ c ∈ p.2.children,
      (lookupMap st.to_second c).isSome = true
      ∨ (lookupMap st.to_first c).isSome = true) :
    SecondInv orig (splitStep orig indexList needed st p).first_nodes
      (splitStep orig indexList needed st p).next_first
      (splitStep orig indexList needed st p).to_first
    ∧ ((splitStep orig indexList needed st p).first_nodes.map Prod.fst).Nodup
    ∧ ((splitStep orig indexList needed st p).second_nodes.map Prod.fst).Nodup
    ∧ (∀ x v, lookupMap st.to_first x = some v →
        lookupMap (splitStep orig indexList needed st p).to_first x = some v)
    ∧ (needed.contains p.1 = true →
        (lookupMap (splitStep orig indexList needed st p).to_first p.1).isSome
          = true)
    ∧ (¬needed.contains p.1 = true →
        (lookupMap (splitStep orig indexList needed st p).to_second p.1).isSome
          = true)
    ∧ (∀ u ∈ (splitStep orig indexList needed st p).new_inputs,
        (lookupMap (splitStep orig indexList needed st p).to_second u).isSome
          = true
        ∧ (lookupMap (splitStep orig indexList needed st p).to_first u).isSome
          = true) := by
  have hgp : getNodeD orig p.1 = p.2 := by rw [getNodeD, hp]; rfl
  obtain ⟨invS', hpresS', _⟩ := splitStep_inv orig indexList needed st p hp inv2
  by_cases hn : needed.contains p.1 = true
  · by_cases hic : indexList.contains p.1 = true
    · have hstep : splitStep orig indexList needed st p
          = { st with
              first_nodes := st.first_nodes ++
                [(st.next_first, { p.2 with
                   children := p.2.children.map fun c =>
                     (lookupMap st.to_first c).getD 0 })]
              next_first := st.next_first + 1
              to_first := st.to_first ++ [(p.1, st.next_first)]
              second_nodes := st.second_nodes ++
                [(st.next_second,
                  { type := .INPUT
                    result_name := p.2.result_name
                    result_type := p.2.result_type })]
              next_second := st.next_second + 1
              to_second := st.to_second ++ [(p.1, st.next_second)]
              new_inputs := st.new_inputs ++ [p.1] } := by
        simp only [splitStep]
        rw [if_pos hn, if_pos hic]
      rw [hstep]
      refine ⟨?_, ?_, ?_, ?_, ?_, ?_, ?_⟩
      · exact secondInv_extend invF p.1
          { p.2 with
            children := p.2.children.map fun c =>
              (lookupMap st.to_first c).getD 0 }
          (by rw [hgp]) (by rw [hgp])
      · exact keys_nodup_append_fresh _ nd1 invF.1
      · exact keys_nodup_append_fresh _ nd2 inv2.1
      · exact fun x v h => lookupMap_append_left _ h
      · exact fun _ => lookupMap_append_self_isSome _ _ _
      · exact fun _ => lookupMap_append_self_isSome _ _ _
      · intro u hu
        rcases List.mem_append.mp hu with h | h
        · obtain ⟨h1, h2⟩ := hN u h
          exact ⟨lookupMap_isSome_mono _ h1, lookupMap_isSome_mono _ h2⟩
        · simp at h
          subst h
          exact ⟨lookupMap_append_self_isSome _ _ _,
            lookupMap_append_self_isSome _ _ _⟩
    · have hstep : splitStep orig indexList needed st p
          = { st with
              first_nodes := st.first_nodes ++
                [(st.next_first, { p.2 with
                   children := p.2.children.map fun c =>
                     (lookupMap st.to_first c).getD 0 })]
              next_first := st.next_first + 1
              to_first := st.to_first ++ [(p.1, st.next_first)] } := by
        simp only [splitStep]
        rw [if_pos hn, if_neg hic]
      rw [hstep]
      refine ⟨?_, ?_, nd2, ?_, ?_, ?_, ?_⟩
      · exact secondInv_extend invF p.1
          { p.2 with
            children := p.2.children.map fun c =>
              (lookupMap st.to_first c).getD 0 }
          (by rw [hgp]) (by rw [hgp])
      · exact keys_nodup_append_fresh _ nd1 invF.1
      · exact fun x v h => lookupMap_append_left _ h
      · exact fun _ => lookupMap_append_self_isSome _ _ _
      · intro h; exact absurd hn h
      · intro u hu
        obtain ⟨h1, h2⟩ := hN u hu
        exact ⟨h1, lookupMap_isSome_mono _ h2⟩
  · have hstep : splitStep orig indexList needed st p
        = (let st1 : SplitState :=
            { st with
              second_nodes := st.second_nodes ++ [(st.next_second, p.2)]
              next_second := st.next_second + 1
              to_second := st.to_second ++ [(p.1, st.next_second)] }
           let mc := splitMapChildrenSecond orig st1 p.2.children
           let st3 : SplitState :=
            { mc.1 with
              second_nodes := updateNode mc.1.second_nodes st.next_second
                { p.2 with children := mc.2 } }
           if p.2.type = .INPUT then
             { st3 with
               first_nodes := st3.first_nodes ++ [(st3.next_first, p.2)]
               next_first := st3.next_first + 1
               to_first := st3.to_first ++ [(p.1, st3.next_first)]
               new_inputs := st3.new_inputs ++ [p.1] }
           else st3) := by
      simp only [splitStep]
      rw [if_neg hn]
    rw [hstep]
    simp only []
    have inv1 : SecondInv orig
        (st.second_nodes ++ [(st.next_second, p.2)]) (st.next_second + 1)
        (st.to_second ++ [(p.1, st.next_second)]) :=
      secondInv_extend inv2 p.1 p.2 (by rw [hgp]) (by rw [hgp])
    set st1 : SplitState :=
      { st with
        second_nodes := st.second_nodes ++ [(st.next_second, p.2)]
        next_second := st.next_second + 1
        to_second := st.to_second ++ [(p.1, st.next_second)] } with hst1
    obtain ⟨inv2', hpres2, hfind2⟩ :=
      splitMapChildrenSecond_inv orig p.2.children st1 inv1
    obtain ⟨hfn1, hnf1, htf1⟩ := splitMapChildrenSecond_first orig
      p.2.children st1
    have hnd2' := splitMapChildrenSecond_nodup orig p.2.children st1 inv1
      (keys_nodup_append_fresh _ nd2 inv2.1)
    have hN1 : ∀ u ∈ st1.new_inputs,
        (lookupMap st1.to_second u).isSome = true
        ∧ (lookupMap st1.to_first u).isSome = true := by
      intro u hu
      obtain ⟨h1, h2⟩ := hN u hu
      exact ⟨lookupMap_isSome_mono _ h1, h2⟩
    have hcs1 : ∀ c ∈ p.2.children,
        (lookupMap st1.to_second c).isSome = true
        ∨ (lookupMap st1.to_first c).isSome = true := by
      intro c hc
      rcases hchild c hc with h | h
      · exact Or.inl (lookupMap_isSome_mono _ h)
      · exact Or.inr h
    have hNmc := splitMapChildrenSecond_newInputs orig p.2.children st1
      inv1 hN1 hcs1
    set mcA := splitMapChildrenSecond orig st1 p.2.children with hmc
    have hsq1 : (lookupMap mcA.1.to_second p.1).isSome = true := by
      have h1 : (lookupMap st1.to_second p.1).isSome = true :=
        lookupMap_append_self_isSome _ _ _
      obtain ⟨v, hv⟩ := Option.isSome_iff_exists.mp h1
      rw [hpres2 p.1 v hv]
      rfl
    have hinvF3 : SecondInv orig mcA.1.first_nodes mcA.1.next_first
        mcA.1.to_first := by
      rw [hfn1, hnf1, htf1]
      exact invF
    have hnd2u : ((updateNode mcA.1.second_nodes st.next_second
        { p.2 with children := mcA.2 }).map Prod.fst).Nodup := by
      rw [updateNode_keys]
      exact hnd2'
    by_cases hti : p.2.type = .INPUT
    · rw [if_pos hti]
      refine ⟨?_, ?_, hnd2u, ?_, ?_, ?_, ?_⟩
      · exact secondInv_extend hinvF3 p.1 p.2 (by rw [hgp]) (by rw [hgp])
      · exact keys_nodup_append_fresh _ (by rw [hfn1]; exact nd1)
          hinvF3.1
      · intro x v h
        rw [htf1]
        exact lookupMap_append_left _ h
      · intro h; exact absurd h hn
      · intro _; exact hsq1
      · intro u hu
        rcases List.mem_append.mp hu with h | h
        · obtain ⟨h1, h2⟩ := hNmc u h
          rw [htf1] at h2
          exact ⟨h1, by rw [htf1]; exact lookupMap_isSome_mono _ h2⟩
        · simp at h
          subst h
          refine ⟨hsq1, ?_⟩
          rw [htf1]
          exact lookupMap_append_self_isSome _ _ _
    · rw [if_neg hti]
      refine ⟨hinvF3, ?_, hnd2u, ?_, ?_, ?_, ?_⟩
      · rw [hfn1]; exact nd1
      · intro x v h
        rw [htf1]
        exact h
      · intro h; exact absurd h hn
      · intro _; exact hsq1
      · intro u hu
        obtain ⟨h1, h2⟩ := hNmc u hu
        exact ⟨h1, h2⟩

theorem splitFold_full (orig : List (Nat × Node)) (indexList needed : List Nat)
    (hnodup : (orig.map Prod.fst).Nodup)
    (hwf : ∀ (pre post : List (Nat × Node)) (q : Nat × Node),
      orig = pre ++ q :: post → ∀ c ∈ q.2.children, c ∈ pre.map Prod.fst) :
    ∀ (todo done : List (Nat × Node)) (st : SplitState),
      done ++ todo = orig →
      SecondInv orig st.second_nodes st.next_second st.to_second →
      SecondInv orig st.first_nodes st.next_first st.to_first →
      (st.first_nodes.map Prod.fst).Nodup →
      (st.second_nodes.map Prod.fst).Nodup →
      (∀ id ∈ done.map Prod.fst, needed.contains id = true →
        (lookupMap st.to_first id).isSome = true) →
      (∀ id ∈ done.map Prod.fst, ¬needed.contains id = true →
        (lookupMap st.to_second id).isSome = true) →
      (∀ u ∈ st.new_inputs, (lookupMap st.to_second u).isSome = true
        ∧ (lookupMap st.to_first u).isSome = true) →
      SecondInv orig
        (todo.foldl (splitStep orig indexList needed) st).second_nodes
        (todo.foldl (splitStep orig indexList needed) st).next_second
        (todo.foldl (splitStep orig indexList needed) st).to_second
      ∧ SecondInv orig
          (todo.foldl (splitStep orig indexList needed) st).first_nodes
          (todo.foldl (splitStep orig indexList needed) st).next_first
          (todo.foldl (splitStep orig indexList needed) st).to_first
      ∧ ((todo.foldl (splitStep orig indexList needed) st).first_nodes.map
          Prod.fst).Nodup
      ∧ ((todo.foldl (splitStep orig indexList needed) st).second_nodes.map
          Prod.fst).Nodup
      ∧ (∀ u ∈ (todo.foldl (splitStep orig indexList needed) st).new_inputs,
          (lookupMap (todo.foldl
            (splitStep orig indexList needed) st).to_second u).isSome = true
          ∧ (lookupMap (todo.foldl
              (splitStep orig indexList needed) st).to_first u).isSome
            = true) := by
  intro todo
  induction todo with
  | nil =>
    intro done st _ inv2 invF nd1 nd2 _ _ hN
    exact ⟨inv2, invF, nd1, nd2, hN⟩
  | cons q rest ih =>
    intro done st hsplit inv2 invF nd1 nd2 hJ1 hJ2 hN
    have hqmem : q ∈ orig := by
      rw [← hsplit]
      exact List.mem_append_right _ (List.mem_cons_self _ _)
    have hp : findNode orig q.1 = some q.2 := by
      have : (q.1, q.2) ∈ orig := by simpa using hqmem
      exact findNode_of_mem_nodup hnodup this
    have hchildkeys : ∀ c ∈ q.2.children, c ∈ done.map Prod.fst :=
      hwf done rest q hsplit.symm
    have hchild : ∀ c ∈ q.2.children,
        (lookupMap st.to_second c).isSome = true
        ∨ (lookupMap st.to_first c).isSome = true := by
      intro c hc
      by_cases hcn : needed.contains c = true
      · exact Or.inr (hJ1 c (hchildkeys c hc) hcn)
      · exact Or.inl (hJ2 c (hchildkeys c hc) hcn)
    obtain ⟨invS', hpresS', hsomeS'⟩ :=
      splitStep_inv orig indexList needed st q hp inv2
    obtain ⟨invF', nd1', nd2', hpresF', hsomeF', hsomeS2', hN'⟩ :=
      splitStep_rest orig indexList needed st q hp inv2 invF nd1 nd2 hN
        hchild
    rw [List.foldl_cons]
    refine ih (done ++ [q]) (splitStep orig indexList needed st q)
      (by rw [← hsplit, List.append_assoc]; rfl) invS' invF' nd1' nd2'
      ?_ ?_ hN'
    · intro id hid hneed
      rw [List.map_append] at hid
      rcases List.mem_append.mp hid with h | h
      · obtain ⟨v, hv⟩ := Option.isSome_iff_exists.mp (hJ1 id h hneed)
        rw [hpresF' id v hv]
        rfl
      · simp at h
        subst h
        exact hsomeF' hneed
    · intro id hid hneed
      rw [List.map_append] at hid
      rcases List.mem_append.mp hid with h | h
      · obtain ⟨v, hv⟩ := Option.isSome_iff_exists.mp (hJ2 id h hneed)
        rw [hpresS' id v hv]
        rfl
      · simp at h
        subst h
        exact hsomeS2' hneed

/-- New nodes only reference existing nodes, so in the store every child of
an entry appears among the earlier entries.  Decidable formulation over
positions. -/
def StoreWF (store : List (Nat × Node)) : Prop :=
  ∀ k, k < store.length →
    ∀ c ∈ (store.getD k (0, defaultNode)).2.children,
      c ∈ (store.take k).map Prod.fst

theorem storeWF_split (store : List (Nat × Node)) (hwfS : StoreWF store) :
    ∀ (pre post : List (Nat × Node)) (q : Nat × Node),
      store = pre ++ q :: post → ∀ c ∈ q.2.children,
        c ∈ pre.map Prod.fst := by
  intro pre post q heq c hc
  have hk : pre.length < store.length := by
    rw [heq, List.length_append]
    simp
  have hk' : pre.length < (pre ++ q :: post).length := by
    rw [List.length_append]; simp
  have hgd : store.getD pre.length (0, defaultNode) = q := by
    rw [heq, List.getD_eq_getElem _ _ hk',
      List.getElem_append_right (Nat.le_refl pre.length)]
    simp
  have htk : store.take pre.length = pre := by
    rw [heq]
    exact List.take_left pre (q :: post)
  have := hwfS pre.length hk c (by rw [hgd]; exact hc)
  rwa [htk] at this

theorem rewriteSecondChildren_keys (s : List (Nat × Node))
    (imap : List (Nat × Nat)) :
    (rewriteSecondChildren s imap).map Prod.fst = s.map Prod.fst := by
  show (s.map _).map Prod.fst = _
  rw [List.map_map]
  rfl

theorem renameDag_keys (off : Nat) (dag : ActionsDAG) :
    (renameDag off dag).nodes.map Prod.fst
      = (dag.nodes.map Prod.fst).map (· + off) := by
  show (dag.nodes.map _).map Prod.fst = _
  rw [List.map_map, List.map_map]
  rfl

theorem split_correspondence (dag : ActionsDAG) (split_nodes : List Nat)
    (hnodup : (dag.nodes.map Prod.fst).Nodup)
    (hwfS : StoreWF dag.nodes) :
    (∀ k, k < (splitCore dag split_nodes).new_inputs.length →
      ∃ mf ms,
        findNode (splitCore dag split_nodes).first_nodes
            ((dag.split split_nodes).1.index.getD k 0) = some mf
        ∧ findNode (splitCore dag split_nodes).second_nodes
            ((dag.split split_nodes).2.inputs.getD k 0) = some ms
        ∧ mf.result_name = ms.result_name
        ∧ mf.result_type = ms.result_type)
    ∧ (((splitCore dag split_nodes).first_nodes.map Prod.fst).Nodup)
    ∧ (((splitCore dag split_nodes).second_nodes.map Prod.fst).Nodup)
    ∧ (∀ q ∈ (splitCore dag split_nodes).first_nodes,
        q.1 < (splitCore dag split_nodes).next_first) := by
  have hwf' := storeWF_split dag.nodes hwfS
  have hinit2 : SecondInv dag.nodes ([] : List (Nat × Node)) 0 [] :=
    ⟨fun q hq => by simp at hq, fun cs hcs => by simp at hcs⟩
  obtain ⟨inv2, invF, nd1, nd2, hN⟩ :=
    splitFold_full dag.nodes dag.index (neededBySplit dag.nodes split_nodes)
      hnodup hwf' dag.nodes [] {} rfl hinit2 hinit2 (by simp) (by simp)
      (fun id hid => by simp at hid) (fun id hid => by simp at hid)
      (fun u hu => by simp at hu)
  have hcore : splitCore dag split_nodes
      = dag.nodes.foldl
          (splitStep dag.nodes dag.index
            (neededBySplit dag.nodes split_nodes)) {} := rfl
  refine ⟨?_, by rw [hcore]; exact nd1, by rw [hcore]; exact nd2,
    by rw [hcore]; exact invF.1⟩
  intro k hk
  set st := splitCore dag split_nodes with hst
  have hu : st.new_inputs.getD k 0 ∈ st.new_inputs := by
    rw [List.getD_eq_getElem _ _ hk]
    exact List.getElem_mem hk
  obtain ⟨hts, htf⟩ := hN (st.new_inputs.getD k 0) hu
  obtain ⟨s, hs⟩ := Option.isSome_iff_exists.mp hts
  obtain ⟨f, hf⟩ := Option.isSome_iff_exists.mp htf
  obtain ⟨ms, hms, hmsn, hmst⟩ := inv2.2 _ (lookupMap_mem hs)
  obtain ⟨mf, hmf, hmfn, hmft⟩ := invF.2 _ (lookupMap_mem hf)
  have hidxk : (dag.split split_nodes).1.index.getD k 0 = f := by
    have hlen : k < (st.new_inputs.map
        fun id => (lookupMap st.to_first id).getD 0).length := by
      rw [List.length_map]; exact hk
    show (st.new_inputs.map
        fun id => (lookupMap st.to_first id).getD 0).getD k 0 = f
    rw [List.getD_eq_getElem _ _ hlen, List.getElem_map,
      show st.new_inputs[k] = st.new_inputs.getD k 0 from
        (List.getD_eq_getElem _ _ hk).symm]
    rw [show lookupMap st.to_first (st.new_inputs.getD k 0) = some f from hf]
    rfl
  have hinpk : (dag.split split_nodes).2.inputs.getD k 0 = s := by
    have hlen : k < (st.new_inputs.map
        fun id => (lookupMap st.to_second id).getD 0).length := by
      rw [List.length_map]; exact hk
    show (st.new_inputs.map
        fun id => (lookupMap st.to_second id).getD 0).getD k 0 = s
    rw [List.getD_eq_getElem _ _ hlen, List.getElem_map,
      show st.new_inputs[k] = st.new_inputs.getD k 0 from
        (List.getD_eq_getElem _ _ hk).symm]
    rw [show lookupMap st.to_second (st.new_inputs.getD k 0) = some s from hs]
    rfl
  refine ⟨mf, ms, ?_, ?_, ?_, ?_⟩
  · rw [hidxk]; exact hmf
  · rw [hinpk]; exact hms
  · rw [hmfn, hmsn]
  · rw [hmft, hmst]

theorem mergeCombine_ok_parts (first second0 : ActionsDAG) (mm : MergeMatch)
    (rest : List (String × List Nat))
    (hproj : second0.settings.project_input = false)
    (hloop : mergeInputLoop first.settings.project_input
      (renameDag first.next_id second0).nodes
      (renameDag first.next_id second0).inputs
      (buildFirstResult first.nodes first.index) {} = .ok (mm, rest)) :
    ∃ combined, ActionsDAG.mergeCombine first second0 = .ok combined
      ∧ combined.nodes
          = first.nodes ++ rewriteSecondChildren
              (renameDag first.next_id second0).nodes mm.inputs_map
      ∧ combined.index
          = prependAll (removeConsumed first.index mm.removed_first_result).1
              (rewriteSecondIndex (renameDag first.next_id second0).nodes
                mm.inputs_map (renameDag first.next_id second0).index) := by
  unfold ActionsDAG.mergeCombine
  simp only [hloop, Bind.bind, Except.bind]
  refine ⟨_, rfl, rfl, ?_⟩
  have hps : (renameDag first.next_id second0).settings.project_input
      = false := hproj
  simp only [hps, Bool.false_eq_true, if_false]

theorem getD_map_nat {f : Nat → Nat} {l : List Nat} {k : Nat}
    (hk : k < l.length) :
    (l.map f).getD k 0 = f (l.getD k 0) := by
  have hk' : k < (l.map f).length := by rw [List.length_map]; exact hk
  rw [List.getD_eq_getElem _ _ hk', List.getElem_map,
    List.getD_eq_getElem _ _ hk]

theorem renameNode_name_type (off : Nat) (nd : Node) :
    (renameNode off nd).result_name = nd.result_name
    ∧ (renameNode off nd).result_type = nd.result_type := ⟨rfl, rfl⟩

theorem split_merge_combined (dag : ActionsDAG) (split_nodes : List Nat)
    (hnodup : (dag.nodes.map Prod.fst).Nodup)
    (hwfS : StoreWF dag.nodes)
    (hproj : dag.settings.project_input = false)
    (hidx : ∀ id ∈ dag.index, (findNode dag.nodes id).isSome = true) :
    ∃ combined,
      ActionsDAG.mergeCombine (dag.split split_nodes).1
        (dag.split split_nodes).2 = .ok combined
      ∧ (combined.nodes.map Prod.fst).Nodup
      ∧ combined.index.length = dag.index.length
      ∧ ∀ i, i < dag.index.length →
          ∃ mc, findNode combined.nodes (combined.index.getD i 0) = some mc
            ∧ mc.result_name
                = (getNodeD dag.nodes (dag.index.getD i 0)).result_name
            ∧ mc.result_type
                = (getNodeD dag.nodes (dag.index.getD i 0)).result_type := by
  obtain ⟨hcorr, ndF, ndS, hboundF⟩ :=
    split_correspondence dag split_nodes hnodup hwfS
  set st := splitCore dag split_nodes with hstdef
  set FIRST := (dag.split split_nodes).1 with hFdef
  set SECOND := (dag.split split_nodes).2 with hSdef
  have hfnodes : FIRST.nodes = st.first_nodes := rfl
  have hfindex : FIRST.index
      = st.new_inputs.map fun id => (lookupMap st.to_first id).getD 0 := rfl
  have hsnodes : SECOND.nodes = st.second_nodes := rfl
  have hsinputs : SECOND.inputs
      = st.new_inputs.map fun id => (lookupMap st.to_second id).getD 0 := rfl
  have hsindex : SECOND.index
      = dag.index.map fun id => (lookupMap st.to_second id).getD 0 := rfl
  have hoff : FIRST.next_id = st.next_first := rfl
  set off := st.next_first with hoffdef
  have hrnodes : (renameDag FIRST.next_id SECOND).nodes
      = st.second_nodes.map fun p => (p.1 + off, renameNode off p.2) := rfl
  have hrinputs : (renameDag FIRST.next_id SECOND).inputs
      = SECOND.inputs.map (· + off) := rfl
  have hrindex : (renameDag FIRST.next_id SECOND).index
      = SECOND.index.map (· + off) := rfl
  have hlenNI : SECOND.inputs.length = st.new_inputs.length := by
    rw [hsinputs, List.length_map]
  have hlenFI : FIRST.index.length = st.new_inputs.length := by
    rw [hfindex, List.length_map]
  have hlen : (renameDag FIRST.next_id SECOND).inputs.length
      = FIRST.index.length := by
    rw [hrinputs, List.length_map, hlenNI, hlenFI]
  -- positional correspondence transported through the renaming
  have hPcorr : ∀ k, k < (renameDag FIRST.next_id SECOND).inputs.length →
      ∃ mf ms, findNode FIRST.nodes (FIRST.index.getD k 0) = some mf
        ∧ findNode (renameDag FIRST.next_id SECOND).nodes
            ((renameDag FIRST.next_id SECOND).inputs.getD k 0) = some ms
        ∧ mf.result_name = ms.result_name
        ∧ mf.result_type = ms.result_type := by
    intro k hk
    have hk' : k < st.new_inputs.length := by
      rw [← hlenNI]
      rw [hrinputs, List.length_map] at hk
      exact hk
    obtain ⟨mf, ms, hmf, hms, hn, ht⟩ := hcorr k hk'
    have hgetr : (renameDag FIRST.next_id SECOND).inputs.getD k 0
        = SECOND.inputs.getD k 0 + off := by
      rw [hrinputs]
      exact getD_map_nat (by rw [hlenNI]; exact hk')
    refine ⟨mf, renameNode off ms, hmf, ?_, ?_, ?_⟩
    · rw [hgetr, hrnodes, findNode_map_rename, hms]
      rfl
    · rw [(renameNode_name_type off ms).1]; exact hn
    · rw [(renameNode_name_type off ms).2]; exact ht
  have hQ : ∀ n, queuesGet (buildFirstResult FIRST.nodes FIRST.index) n
      = FIRST.index.filter fun id => entryName FIRST.nodes id = n :=
    queuesGet_buildFirstResult _ _
  have hPnames : ∀ k, k < (renameDag FIRST.next_id SECOND).inputs.length →
      entryName (renameDag FIRST.next_id SECOND).nodes
          ((renameDag FIRST.next_id SECOND).inputs.getD k 0)
        = entryName FIRST.nodes (FIRST.index.getD k 0) := by
    intro k hk
    obtain ⟨mf, ms, hmf, hms, hn, _⟩ := hPcorr k hk
    rw [show entryName (renameDag FIRST.next_id SECOND).nodes
        ((renameDag FIRST.next_id SECOND).inputs.getD k 0)
        = ms.result_name from by rw [entryName, getNodeD, hms]; rfl,
      show entryName FIRST.nodes (FIRST.index.getD k 0)
        = mf.result_name from by rw [entryName, getNodeD, hmf]; rfl, hn]
  obtain ⟨restQ, counts, hok, hcnt⟩ :=
    mergeInputLoop_pairing (renameDag FIRST.next_id SECOND).nodes FIRST.nodes
      (renameDag FIRST.next_id SECOND).inputs FIRST.index
      (buildFirstResult FIRST.nodes FIRST.index) {} hlen hPnames hQ
  have hpif : FIRST.settings.project_input = false := hproj
  have hloop' : mergeInputLoop FIRST.settings.project_input
      (renameDag FIRST.next_id SECOND).nodes
      (renameDag FIRST.next_id SECOND).inputs
      (buildFirstResult FIRST.nodes FIRST.index) {}
      = .ok ({ ({} : MergeMatch) with
               inputs_map := ({} : MergeMatch).inputs_map
                 ++ ((renameDag FIRST.next_id SECOND).inputs.zip FIRST.index)
               removed_first_result := counts }, restQ) := by
    rw [hpif]
    exact hok
  obtain ⟨combined, hco, hcn, hci⟩ :=
    mergeCombine_ok_parts FIRST SECOND _ restQ hproj hloop'
  have hcounts : ∀ p, countsGet counts p = FIRST.index.count p := by
    intro p
    have := hcnt p
    simpa [countsGet] using this
  obtain ⟨hsub, hc2⟩ := removeConsumed_spec FIRST.index counts
    (fun p => Nat.le_of_eq (hcounts p))
  have hsurv : (removeConsumed FIRST.index counts).1 = [] := by
    refine eq_nil_of_count_eq_zero fun p => ?_
    have h1 := hc2 p
    have h2 := hcounts p
    omega
  rw [show ({ ({} : MergeMatch) with
      inputs_map := ({} : MergeMatch).inputs_map
        ++ ((renameDag FIRST.next_id SECOND).inputs.zip FIRST.index)
      removed_first_result := counts } : MergeMatch).removed_first_result
    = counts from rfl, hsurv, prependAll_eq, List.append_nil] at hci
  set imap := ({ ({} : MergeMatch) with
      inputs_map := ({} : MergeMatch).inputs_map
        ++ ((renameDag FIRST.next_id SECOND).inputs.zip FIRST.index)
      removed_first_result := counts } : MergeMatch).inputs_map with himap
  have himapval : imap
      = (renameDag FIRST.next_id SECOND).inputs.zip FIRST.index := rfl
  have hcilen : combined.index.length = dag.index.length := by
    rw [hci, rewriteSecondIndex, List.length_map, hrindex, List.length_map,
      hsindex, List.length_map]
  refine ⟨combined, hco, ?_, hcilen, ?_⟩
  · -- nodup keys of the combined store
    rw [hcn, List.map_append]
    have hkeys2 : (rewriteSecondChildren
        (renameDag FIRST.next_id SECOND).nodes imap).map Prod.fst
        = (st.second_nodes.map Prod.fst).map (· + off) := by
      rw [rewriteSecondChildren_keys, renameDag_keys]
      rfl
    rw [hkeys2, hfnodes]
    refine List.Nodup.append ndF (ndS.map fun a b hab =>
      Nat.add_right_cancel hab) ?_
    intro x hx hx'
    obtain ⟨p, hp, hpk⟩ := List.mem_map.mp hx
    obtain ⟨y, hy, hyk⟩ := List.mem_map.mp hx'
    have h1 : x < off := by
      rw [← hpk]
      exact hboundF p hp
    have h2 : off ≤ x := by
      rw [← hyk]
      exact Nat.le_add_left _ _
    omega
  · intro i hi
    -- the original index node
    have hmemo : dag.index.getD i 0 ∈ dag.index := by
      rw [List.getD_eq_getElem _ _ hi]
      exact List.getElem_mem hi
    obtain ⟨ndo, hndo⟩ := Option.isSome_iff_exists.mp (hidx _ hmemo)
    have hgno : getNodeD dag.nodes (dag.index.getD i 0) = ndo := by
      rw [getNodeD, hndo]; rfl
    -- its copy in the second half
    obtain ⟨invS₀, _, hsomeS₀⟩ := splitFold_inv dag.nodes dag.index
      (neededBySplit dag.nodes split_nodes) hnodup dag.nodes {}
      (fun q hq => hq) ⟨by simp, by simp [SecondInv]⟩
    have hqmem : (dag.index.getD i 0, ndo) ∈ dag.nodes :=
      mem_of_findNode hndo
    obtain ⟨s₀, hs₀pre⟩ := Option.isSome_iff_exists.mp
      (hsomeS₀ _ hqmem (contains_iff.mpr hmemo))
    have hs₀ : lookupMap st.to_second (dag.index.getD i 0) = some s₀ := hs₀pre
    obtain ⟨ms₀, hms₀, hms₀npre, hms₀tpre⟩ := invS₀.2 _ (lookupMap_mem hs₀pre)
    have hms₀' : findNode st.second_nodes s₀ = some ms₀ := hms₀
    have hms₀n : ms₀.result_name
        = (getNodeD dag.nodes (dag.index.getD i 0)).result_name := hms₀npre
    have hms₀t : ms₀.result_type
        = (getNodeD dag.nodes (dag.index.getD i 0)).result_type := hms₀tpre
    -- the combined index entry
    have hentry : combined.index.getD i 0
        = if (getNodeD (renameDag FIRST.next_id SECOND).nodes
              (s₀ + off)).type = .INPUT then
            (lookupMap imap (s₀ + off)).getD (s₀ + off)
          else s₀ + off := by
      rw [hci, rewriteSecondIndex]
      have hsi : (renameDag FIRST.next_id SECOND).index.getD i 0
          = s₀ + off := by
        rw [hrindex]
        rw [getD_map_nat (by rw [hsindex, List.length_map]; exact hi)]
        rw [hsindex, getD_map_nat hi, hs₀]
        rfl
      rw [getD_map_nat (by
        rw [hrindex, List.length_map, hsindex, List.length_map]; exact hi)]
      rw [hsi]
    have hsecnode : findNode (renameDag FIRST.next_id SECOND).nodes
        (s₀ + off) = some (renameNode off ms₀) := by
      rw [hrnodes, findNode_map_rename, hms₀']
      rfl
    have hgsec : getNodeD (renameDag FIRST.next_id SECOND).nodes (s₀ + off)
        = renameNode off ms₀ := by
      rw [getNodeD, hsecnode]; rfl
    have hsecond_part : ∃ mc,
        findNode combined.nodes (s₀ + off) = some mc
        ∧ mc.result_name
            = (getNodeD dag.nodes (dag.index.getD i 0)).result_name
        ∧ mc.result_type
            = (getNodeD dag.nodes (dag.index.getD i 0)).result_type := by
      rw [hcn]
      have hskip : findNode (FIRST.nodes ++ rewriteSecondChildren
            (renameDag FIRST.next_id SECOND).nodes imap) (s₀ + off)
          = findNode (rewriteSecondChildren
              (renameDag FIRST.next_id SECOND).nodes imap) (s₀ + off) :=
        findNode_append_right _ fun p hp => by
          have h1 := hboundF p hp
          omega
      rw [hskip]
      rw [findNode_rewriteSecondChildren, hsecnode]
      refine ⟨_, rfl, ?_, ?_⟩
      · show (renameNode off ms₀).result_name = _
        rw [(renameNode_name_type off ms₀).1, hms₀n]
      · show (renameNode off ms₀).result_type = _
        rw [(renameNode_name_type off ms₀).2, hms₀t]
    rw [hentry]
    by_cases hti : (getNodeD (renameDag FIRST.next_id SECOND).nodes
        (s₀ + off)).type = .INPUT
    · rw [if_pos hti]
      cases hv : lookupMap imap (s₀ + off) with
      | none =>
        show ∃ mc, findNode combined.nodes (s₀ + off) = some mc ∧ _
        exact hsecond_part
      | some v =>
        show ∃ mc, findNode combined.nodes v = some mc ∧ _
        have hzip := lookupMap_zip_corr FIRST.nodes
          (renameDag FIRST.next_id SECOND).nodes
          (renameDag FIRST.next_id SECOND).inputs FIRST.index hlen
          (fun k hk => by
            obtain ⟨mf, ms, hmf, hms, hn, ht⟩ := hPcorr k hk
            exact ⟨mf, ms, hmf, hms, hn, ht⟩)
          (s₀ + off) v (by rw [← himapval]; exact hv)
        obtain ⟨mf', ms', hmf', hms', hn', ht'⟩ := hzip
        have hmseq : ms' = renameNode off ms₀ := by
          have := hms'.symm.trans hsecnode
          exact Option.some.inj this
        refine ⟨mf', ?_, ?_, ?_⟩
        · rw [hcn]
          exact findNode_append_of_some _ hmf'
        · rw [hn', hmseq, (renameNode_name_type off ms₀).1, hms₀n]
        · rw [ht', hmseq, (renameNode_name_type off ms₀).2, hms₀t]
    · rw [if_neg hti]
      exact hsecond_part

theorem getResultColumns_names (X : ActionsDAG) :
    X.getResultColumns.map (fun c => c.name)
      = X.index.map fun id => (getNodeD X.nodes id).result_name := by
  rw [ActionsDAG.getResultColumns, List.map_map]
  rfl

theorem getResultColumns_types (X : ActionsDAG) :
    X.getResultColumns.map (fun c => c.type)
      = X.index.map fun id => (getNodeD X.nodes id).result_type := by
  rw [ActionsDAG.getResultColumns, List.map_map]
  rfl

/-- C2, amended part: merging the two halves of any split succeeds and is
observationally equivalent to the original DAG: the result columns carry the
same names and the same types in the same order.  (The dump itself need not
agree modulo renumbering: split may duplicate COLUMN children, see the
counterexample.) -/
theorem split_merge_observational_equiv (dag : ActionsDAG)
    (split_nodes : List Nat)
    (hnodup : (dag.nodes.map Prod.fst).Nodup)
    (hwfS : StoreWF dag.nodes)
    (hproj : dag.settings.project_input = false)
    (hidx : ∀ id ∈ dag.index, (findNode dag.nodes id).isSome = true) :
    ∃ merged,
      ActionsDAG.merge (dag.split split_nodes).1 (dag.split split_nodes).2
        = .ok merged
      ∧ merged.getResultColumns.map (fun c => c.name)
          = dag.getResultColumns.map (fun c => c.name)
      ∧ merged.getResultColumns.map (fun c => c.type)
          = dag.getResultColumns.map (fun c => c.type) := by
  obtain ⟨combined, hco, hnodC, hlenC, hident⟩ :=
    split_merge_combined dag split_nodes hnodup hwfS hproj hidx
  obtain ⟨V, hrec, hidxV, _, _, _⟩ := removeUnusedActions_spec combined hnodC
  refine ⟨combined.removeUnusedActions, ?_, ?_, ?_⟩
  · show (ActionsDAG.mergeCombine (dag.split split_nodes).1
        (dag.split split_nodes).2).bind
      (fun c => .ok c.removeUnusedActions) = _
    rw [hco]
    rfl
  · rw [getResultColumns_names, getResultColumns_names]
    have hmidx : combined.removeUnusedActions.index = combined.index := by
      rw [hrec]
    rw [hmidx]
    refine List.ext_getElem (by
      rw [List.length_map, List.length_map, hlenC]) ?_
    intro i h1 h2
    have hi : i < dag.index.length := by
      rw [List.length_map] at h2
      exact h2
    have hiC : i < combined.index.length := by rw [hlenC]; exact hi
    rw [List.getElem_map, List.getElem_map]
    obtain ⟨mc, hmc, hmcn, _⟩ := hident i hi
    have hentry : combined.index[i] = combined.index.getD i 0 :=
      (List.getD_eq_getElem _ _ hiC).symm
    have hmemE : combined.index.getD i 0 ∈ combined.index := by
      rw [List.getD_eq_getElem _ _ hiC]
      exact List.getElem_mem hiC
    have hcont : V.contains (combined.index.getD i 0) = true :=
      contains_iff.mpr (hidxV _ hmemE)
    have hfind : findNode combined.removeUnusedActions.nodes
        (combined.index.getD i 0) = some (foldIfNode mc) := by
      rw [hrec]
      show findNode ((combined.nodes.map fun p =>
          if V.contains p.1 then (p.1, foldIfNode p.2) else p).filter
        fun p => V.contains p.1) (combined.index.getD i 0) = _
      rw [findNode_prune_formula _ _ _ hcont, hmc]
      rfl
    rw [hentry, show getNodeD combined.removeUnusedActions.nodes
        (combined.index.getD i 0) = foldIfNode mc from by
      rw [getNodeD, hfind]; rfl]
    rw [(foldIfNode_name_type mc).1, hmcn,
      show dag.index[i] = dag.index.getD i 0 from
        (List.getD_eq_getElem _ _ hi).symm]
  · rw [getResultColumns_types, getResultColumns_types]
    have hmidx : combined.removeUnusedActions.index = combined.index := by
      rw [hrec]
    rw [hmidx]
    refine List.ext_getElem (by
      rw [List.length_map, List.length_map, hlenC]) ?_
    intro i h1 h2
    have hi : i < dag.index.length := by
      rw [List.length_map] at h2
      exact h2
    have hiC : i < combined.index.length := by rw [hlenC]; exact hi
    rw [List.getElem_map, List.getElem_map]
    obtain ⟨mc, hmc, _, hmct⟩ := hident i hi
    have hentry : combined.index[i] = combined.index.getD i 0 :=
      (List.getD_eq_getElem _ _ hiC).symm
    have hmemE : combined.index.getD i 0 ∈ combined.index := by
      rw [List.getD_eq_getElem _ _ hiC]
      exact List.getElem_mem hiC
    have hcont : V.contains (combined.index.getD i 0) = true :=
      contains_iff.mpr (hidxV _ hmemE)
    have hfind : findNode combined.removeUnusedActions.nodes
        (combined.index.getD i 0) = some (foldIfNode mc) := by
      rw [hrec]
      show findNode ((combined.nodes.map fun p =>
          if V.contains p.1 then (p.1, foldIfNode p.2) else p).filter
        fun p => V.contains p.1) (combined.index.getD i 0) = _
      rw [findNode_prune_formula _ _ _ hcont, hmc]
      rfl
    rw [hentry, show getNodeD combined.removeUnusedActions.nodes
        (combined.index.getD i 0) = foldIfNode mc from by
      rw [getNodeD, hfind]; rfl]
    rw [(foldIfNode_name_type mc).2, hmct,
      show dag.index[i] = dag.index.getD i 0 from
        (List.getD_eq_getElem _ _ hi).symm]

/-- Witness for split_merge_observational_equiv at c2dag split along its
COLUMN node: the merged DAG exposes g(c) and f(c) with type int, exactly as
c2dag does. -/
theorem split_merge_observational_equiv_witness :
    ∃ merged,
      ActionsDAG.merge (c2dag.split [1]).1 (c2dag.split [1]).2 = .ok merged
      ∧ merged.getResultColumns.map (fun c => c.name)
          = c2dag.getResultColumns.map (fun c => c.name)
      ∧ merged.getResultColumns.map (fun c => c.type)
          = c2dag.getResultColumns.map (fun c => c.type) :=
  split_merge_observational_equiv c2dag [1] (by decide)
    (by
      show ∀ k, k < c2dag.nodes.length →
        ∀ c ∈ (c2dag.nodes.getD k (0, defaultNode)).2.children,
          c ∈ (c2dag.nodes.take k).map Prod.fst
      decide)
    rfl (by decide)

end ActionsDAGModel
